import Mathlib

/-!
gaussora (GAUSSian ORAcle): a shallow embedding of `gaussora.c`

The development follows `src/C/src/spaces/vectors/gaussian/gaussora.c`.

Modelling conventions.

* A C `double` is a value of `Dbl K`: either a finite number of an ordered
  field `K` or one of the IEEE-754 specials `+inf`, `-inf`, `NaN`, which the
  C operators produce from finite operands on a division by zero and on the
  square root of a negative number.  Signed zeros are not represented.  The
  square root of a non-negative finite number is a parameter `sq : K → K` of
  the functions that call `sqrt`; the statements that need it to be a square
  root assume `IsSqrt sq`.
* Arithmetic comes in two forms.  `Cholesky`, `InqDist`, `SampleGauss` and
  `normalizePriors` compute in exact arithmetic: no rounding, no overflow.
  `CholeskyR`, `InqDistR` and `normalizePriorsR` are `Cholesky`, `InqDist` and
  `normalizePriors` with the result of every operation rounded by a parameter
  `rnd`; with `rnd = Dbl.fin` they are the exact functions (`CholeskyR_exact`,
  `InqDistR_exact`, `normalizePriorsR_exact`), and with `rnd64` and `sqrt64`
  they compute in binary64: round to nearest, ties to even, gradual underflow,
  overflow to an infinity, every operation rounded on its own (no extended
  precision, no fused multiply-add).  A statement on the exact functions is a
  statement on the formulas; where rounding changes the outcome, the run in
  binary64 is stated beside it.
* A C `int` is an `Int`; signed overflow is undefined in C and is not
  represented.
* An array is a `List`; an access outside the array is the outcome
  `Abort.badAccess`, and `exit(EXIT_FAILURE)` is the outcome
  `Abort.exitFailure`.  The buffer `char aux[64]` that `InqField` fills with
  `sprintf("%f")` is represented by its length; the failure of an allocation
  for want of memory is not represented.
* A `FILE*` opened for reading is the list of buffers that the successive
  calls `fgets(line,MLL,fp)` deliver.
* The library functions `strtod` and `sprintf("%f")` are parameters of the
  functions that call them; `strtod10` is the `strtod` of the decimal
  constants, with which the examples are evaluated over the rationals.
* The random draws are parameters: `SampleGauss` takes the results `z i` of
  its calls of `BoxMuller`, and the choice of a component takes the uniform
  draw `p`.
-/

namespace Gaussora

/-! ## Doubles -/

/-- A C `double`: a finite value, or one of the IEEE-754 specials. -/
inductive Dbl (K : Type) where
  | fin : K → Dbl K
  | pinf : Dbl K
  | ninf : Dbl K
  | nan : Dbl K
deriving DecidableEq, Repr

namespace Dbl

variable {K : Type} [LinearOrderedField K]

/-- Unary minus. -/
def neg : Dbl K → Dbl K
  | fin x => fin (-x)
  | pinf => ninf
  | ninf => pinf
  | nan => nan

/-- The C operator `+` on doubles. -/
def add : Dbl K → Dbl K → Dbl K
  | fin x, fin y => fin (x + y)
  | fin _, pinf => pinf
  | fin _, ninf => ninf
  | pinf, fin _ => pinf
  | pinf, pinf => pinf
  | ninf, fin _ => ninf
  | ninf, ninf => ninf
  | _, _ => nan

/-- The C operator `-` on doubles. -/
def sub (a b : Dbl K) : Dbl K := add a (neg b)

/-- An infinity of the sign of `s`, `NaN` when `s` is zero. -/
def infOfSign (s : K) : Dbl K :=
  if 0 < s then pinf else if s < 0 then ninf else nan

/-- The C operator `*` on doubles. -/
def mul : Dbl K → Dbl K → Dbl K
  | fin x, fin y => fin (x * y)
  | fin x, pinf => infOfSign x
  | fin x, ninf => infOfSign (-x)
  | pinf, fin y => infOfSign y
  | ninf, fin y => infOfSign (-y)
  | pinf, pinf => pinf
  | ninf, ninf => pinf
  | pinf, ninf => ninf
  | ninf, pinf => ninf
  | _, _ => nan

/-- The C operator `/` on doubles: a finite non-zero number over zero is an
infinity, zero over zero is `NaN`. -/
def div : Dbl K → Dbl K → Dbl K
  | fin x, fin y => if y = 0 then infOfSign x else fin (x / y)
  | fin _, pinf => fin 0
  | fin _, ninf => fin 0
  | pinf, fin y => if y < 0 then ninf else pinf
  | ninf, fin y => if y < 0 then pinf else ninf
  | _, _ => nan

/-- The C operator `<` on doubles; every comparison with `NaN` is false. -/
def lt : Dbl K → Dbl K → Bool
  | fin x, fin y => decide (x < y)
  | fin _, pinf => true
  | ninf, fin _ => true
  | ninf, pinf => true
  | _, _ => false

/-- The library function `sqrt`: `NaN` on a negative argument. -/
def sqrt (sq : K → K) : Dbl K → Dbl K
  | fin x => if x < 0 then nan else fin (sq x)
  | pinf => pinf
  | _ => nan

/-- The value is a finite number. -/
def isFin : Dbl K → Bool
  | fin _ => true
  | _ => false

end Dbl

/-- How a run of the program is cut short. -/
inductive Abort where
  | exitFailure : Abort
  | badAccess : Abort
deriving DecidableEq, Repr

/-- The function `sqrt` computes square roots of the non-negative numbers. -/
def IsSqrt {K : Type} [LinearOrderedField K] (sq : K → K) : Prop :=
  ∀ x : K, 0 ≤ x → 0 ≤ sq x ∧ sq x * sq x = x

/-- Read `a[i]` for a C `int` index. -/
def rd {α : Type} (a : List α) (i : Int) : Except Abort α :=
  if i < 0 then Except.error Abort.badAccess
  else match a.get? i.toNat with
    | some x => Except.ok x
    | none => Except.error Abort.badAccess

/-- Read `a[i]` for a non-negative index. -/
def rdN {α : Type} (a : List α) (i : Nat) : Except Abort α :=
  match a.get? i with
  | some x => Except.ok x
  | none => Except.error Abort.badAccess

/-- Write `a[i] = v`. -/
def wrN {α : Type} (a : List α) (i : Nat) (v : α) : Except Abort (List α) :=
  if i < a.length then Except.ok (a.set i v) else Except.error Abort.badAccess

/-! ## Cholesky -/

section Cholesky

variable {K : Type} [LinearOrderedField K]

/-- A `double **`: the rows of a matrix. -/
abbrev Mat (K : Type) := List (List (Dbl K))

/-- Read `A[i][j]`. -/
def Mat.rd2 (A : Mat K) (i j : Nat) : Except Abort (Dbl K) :=
  match rdN A i with
  | Except.ok row => rdN row j
  | Except.error e => Except.error e

/-- Write `A[i][j] = v`. -/
def Mat.wr2 (A : Mat K) (i j : Nat) (v : Dbl K) : Except Abort (Mat K) :=
  match rdN A i with
  | Except.ok row =>
    match wrN row j v with
    | Except.ok row1 => wrN A i row1
    | Except.error e => Except.error e
  | Except.error e => Except.error e

/-- The loop `for (k=i-1;k>=0;k--) aux-=A[i][k]*A[j][k];` of `Cholesky`,
entered with `k = n - 1`. -/
def Cholesky.kLoop (A : Mat K) (i j : Nat) : Nat → Dbl K → Except Abort (Dbl K)
  | 0, aux => Except.ok aux
  | k + 1, aux =>
    match A.rd2 i k with
    | Except.ok a =>
      match A.rd2 j k with
      | Except.ok b => Cholesky.kLoop A i j k (Dbl.sub aux (Dbl.mul a b))
      | Except.error e => Except.error e
    | Except.error e => Except.error e

/-- The body of the loop over `j` in `Cholesky`. -/
def Cholesky.body (sq : K → K) (A : Mat K) (i j : Nat) : Except Abort (Mat K) :=
  match A.rd2 j i with
  | Except.ok a0 =>
    match Cholesky.kLoop A i j i a0 with
    | Except.ok aux =>
      if i = j then
        if Dbl.lt aux (Dbl.fin 0) then Except.error Abort.exitFailure
        else A.wr2 i i (Dbl.sqrt sq aux)
      else
        match A.rd2 i i with
        | Except.ok p => A.wr2 j i (Dbl.div aux p)
        | Except.error e => Except.error e
    | Except.error e => Except.error e
  | Except.error e => Except.error e

/-- The loop `for (j=i;j<d;j++)` of `Cholesky` with `n` iterations left,
that is entered with `j = d - n`. -/
def Cholesky.jLoop (sq : K → K) (d i : Nat) : Nat → Mat K → Except Abort (Mat K)
  | 0, A => Except.ok A
  | n + 1, A =>
    match Cholesky.body sq A i (d - (n + 1)) with
    | Except.ok A1 => Cholesky.jLoop sq d i n A1
    | Except.error e => Except.error e

/-- The loop `for (i=0;i<d;i++)` of `Cholesky` with `n` iterations left,
that is entered with `i = d - n`. -/
def Cholesky.iLoop (sq : K → K) (d : Nat) : Nat → Mat K → Except Abort (Mat K)
  | 0, A => Except.ok A
  | n + 1, A =>
    match Cholesky.jLoop sq d (d - (n + 1)) (n + 1) A with
    | Except.ok A1 => Cholesky.iLoop sq d n A1
    | Except.error e => Except.error e

/-- The function `Cholesky(d,A)`: the matrix it leaves in `A`, or the way
the run is cut short. -/
def Cholesky (sq : K → K) (d : Nat) (A : Mat K) : Except Abort (Mat K) :=
  Cholesky.iLoop sq d d A

end Cholesky

/-- The integer square root, by search from `n` downwards. -/
def isqrt (n : Nat) : Nat := Nat.findGreatest (fun k => k * k ≤ n) n

/-- The square root used to evaluate examples over the rationals: exact on
the squares of rationals. -/
def sqrtQ (q : ℚ) : ℚ := (isqrt q.num.toNat : ℚ) / (isqrt q.den : ℚ)

/-! ## The oracle -/

section Oracle

variable {K : Type} [LinearOrderedField K]

/-- The structure `oracle_t`. -/
structure oracle_t (K : Type) where
  npoints : Int
  nquery : Int
  dim : Int
  sample : List (List (Dbl K))
  color : List Int

/-- The data model of the oracle: `npoints+nquery` vectors of `dim`
coordinates and as many colours. -/
def oracle_t.WF (o : oracle_t K) : Prop :=
  (o.sample.length : Int) = o.npoints + o.nquery ∧
  (o.color.length : Int) = o.npoints + o.nquery ∧
  ∀ v ∈ o.sample, (v.length : Int) = o.dim

/-- Every coordinate of every vector is a finite number. -/
def oracle_t.Finite (o : oracle_t K) : Prop :=
  ∀ v ∈ o.sample, ∀ x ∈ v, Dbl.isFin x = true

/-- The function `InqNumPoints`. -/
def InqNumPoints (o : oracle_t K) : Int := o.npoints

/-- The function `InqNumQuery`. -/
def InqNumQuery (o : oracle_t K) : Int := o.nquery

/-- The function `InqNumFields`. -/
def InqNumFields (o : oracle_t K) (p : Int) : Int :=
  if p < 0 ∨ p ≥ o.npoints + o.nquery then 0 else 1 + o.dim

/-- The conversion `%d` of `sprintf`. -/
def fmtInt (n : Int) : List Char :=
  if n < 0 then '-' :: Nat.toDigits 10 n.natAbs else Nat.toDigits 10 n.toNat

/-- The function `InqField`; `none` is the `NULL` result.  The conversion
`%f` of `sprintf` is the parameter `fmtf`; `sprintf(aux,"%f",...)` writes the
text and a final `\0` into `char aux[64]`, so that a text of 64 characters or
more is written past the end of the buffer.  (The text of `%d` for an `int`
has at most 11 characters and fits in `char aux[16]`.) -/
def InqField (fmtf : Dbl K → List Char) (o : oracle_t K) (p f : Int) :
    Except Abort (Option (List Char)) :=
  if p < 0 ∨ p ≥ o.npoints + o.nquery then Except.ok none
  else if f < 0 ∨ f > o.dim then Except.ok none
  else if f = 0 then
    if p ≥ o.npoints then Except.ok (some ['?'])
    else
      match rd o.color p with
      | Except.ok c => Except.ok (some (fmtInt c))
      | Except.error e => Except.error e
  else
    match rd o.sample p with
    | Except.ok v =>
      match rd v (f - 1) with
      | Except.ok x =>
        if (fmtf x).length < 64 then Except.ok (some (fmtf x))
        else Except.error Abort.badAccess
      | Except.error e => Except.error e
    | Except.error e => Except.error e

/-- The loop `for (k=0;k<dim;k++)` of `InqDist` with `n` iterations left;
`x` and `y` are what the two pointers still have in front of them. -/
def InqDist.loop : Nat → List (Dbl K) → List (Dbl K) → Dbl K → Except Abort (Dbl K)
  | 0, _, _, sum => Except.ok sum
  | n + 1, a :: x, b :: y, sum =>
    InqDist.loop n x y (Dbl.add sum (Dbl.mul (Dbl.sub a b) (Dbl.sub a b)))
  | _ + 1, _, _, _ => Except.error Abort.badAccess

/-- The function `InqDist`.  The two loads `o->sample[p1]` and
`o->sample[p2]` are in the declarations, ahead of the range checks. -/
def InqDist (sq : K → K) (o : oracle_t K) (p1 p2 : Int) : Except Abort (Dbl K) :=
  match rd o.sample p1 with
  | Except.ok x =>
    match rd o.sample p2 with
    | Except.ok y =>
      if p1 < 0 ∨ p1 ≥ o.npoints + o.nquery then Except.ok (Dbl.fin (-1))
      else if p2 < 0 ∨ p2 ≥ o.npoints + o.nquery then Except.ok (Dbl.fin (-1))
      else
        match InqDist.loop o.dim.toNat x y (Dbl.fin 0) with
        | Except.ok sum => Except.ok (Dbl.sqrt sq sum)
        | Except.error e => Except.error e
    | Except.error e => Except.error e
  | Except.error e => Except.error e

end Oracle

/-! ## Reading Gaussians -/

section Reading

variable {K : Type} [LinearOrderedField K]

/-- A stream open for reading: the buffers that the successive calls of
`fgets(line,MLL,fp)` deliver, the first one first. -/
abbrev FILE := List (List Char)

/-- The macro `IFS`, as a test on a character. -/
def isIFS (c : Char) : Bool := c = ' ' || c = '\t' || c = '\n'

/-- The library function `isspace` in the C locale. -/
def isspace (c : Char) : Bool :=
  c = ' ' || c = '\t' || c = '\n' || c = '\x0b' || c = '\x0c' || c = '\r'

/-- The library function `strtok` with the separators `IFS`: the next token
and what is left of the line after it, `none` when no token is left. -/
def strtok (s : List Char) : Option (List Char × List Char) :=
  match s.dropWhile isIFS with
  | [] => none
  | c :: t =>
    some ((c :: t).takeWhile (fun a => !isIFS a),
      ((c :: t).dropWhile (fun a => !isIFS a)).drop 1)

/-- The value of a string of decimal digits. -/
def digitsVal (s : List Char) : Nat :=
  s.foldl (fun acc c => 10 * acc + (c.toNat - '0'.toNat)) 0

/-- The library function `atoi`. -/
def atoi (s : List Char) : Int :=
  match s.dropWhile isspace with
  | '-' :: t => -(digitsVal (t.takeWhile Char.isDigit) : Int)
  | '+' :: t => (digitsVal (t.takeWhile Char.isDigit) : Int)
  | t => (digitsVal (t.takeWhile Char.isDigit) : Int)

/-- The first loop of `GetVector`,
`for (i=0,strtod(np=line,&ep);i<d && np!=ep;i++,strtod(np=ep,&ep)) ;`:
the number of iterations it makes from `np` when `i` is `n` short of `d`.
The library function `strtod` is a parameter: it gives the value converted
and the end pointer, which is `np` itself when nothing is converted. -/
def GetVector.count (strtod : List Char → Dbl K × List Char) : Nat → List Char → Nat
  | 0, _ => 0
  | n + 1, np =>
    if np ≠ (strtod np).2 then GetVector.count strtod n (strtod np).2 + 1 else 0

/-- The second loop of `GetVector`,
`for (i=0,x=strtod(np=line,&ep);i<d;i++,x=strtod(np=ep,&ep)) v[i]=x;`:
the values it stores from `np` when `i` is `n` short of `d`. -/
def GetVector.fill (strtod : List Char → Dbl K × List Char) : Nat → List Char → List (Dbl K)
  | 0, _ => []
  | n + 1, np => (strtod np).1 :: GetVector.fill strtod n (strtod np).2

/-- The function `GetVector(fp,d,v)`: the `d` values stored in `v` (`none`
for `NULL`) and what is left of the stream. -/
def GetVector (strtod : List Char → Dbl K × List Char) :
    FILE → Int → Option (List (Dbl K)) × FILE
  | [], _ => (none, [])
  | line :: fp, d =>
    if (GetVector.count strtod d.toNat line : Int) ≠ d then GetVector strtod fp d
    else (some (GetVector.fill strtod d.toNat line), fp)

/-- The structure `gauss_t`; a `NULL` pointer is `none`. -/
structure gauss_t (K : Type) where
  label : List Char
  dim : Int
  type : Int
  prior_prob : Dbl K
  mean : List (Dbl K)
  dcovar : Option (List (Dbl K))
  dCholesky : Option (List (Dbl K))
  covar : Option (Mat K)
  Cholesky : Option (Mat K)

/-- The macro `UNKNOWN`. -/
def UNKNOWN : Int := 0
/-- The macro `DIAG`. -/
def DIAG : Int := 1
/-- The macro `FULL`. -/
def FULL : Int := 2

/-- What the `while (1)` loop of `GetGauss` leaves in `*mp`. -/
structure GetGauss.Head (K : Type) where
  label : List Char
  dim : Int
  type : Int
  prior_prob : Dbl K

/-- The `while (1)` loop of `GetGauss`, entered with `mp->dim = dim`,
`mp->type = FULL` and `mp->prior_prob = 0.0`: `none` when the stream ends
(`mp->type = UNKNOWN`), else the fields of `*mp` at the `break`; and what is
left of the stream. -/
def GetGauss.header (strtod : List Char → Dbl K × List Char) :
    Int → FILE → Option (GetGauss.Head K) × FILE
  | _, [] => (none, [])
  | dim, line :: fp =>
    match strtok line with
    | none => GetGauss.header strtod dim fp
    | some (t1, r1) =>
      if t1 ≠ "GAUSS".toList then GetGauss.header strtod dim fp
      else
        match strtok r1 with
        | none => GetGauss.header strtod dim fp
        | some (lab, r2) =>
          match strtok r2 with
          | none => (some ⟨lab, dim, FULL, Dbl.fin 0⟩, fp)
          | some (t3, r3) =>
            if atoi t3 < 1 then GetGauss.header strtod (atoi t3) fp
            else
              match strtok r3 with
              | none => (some ⟨lab, atoi t3, FULL, Dbl.fin 0⟩, fp)
              | some (t4, r4) =>
                (some ⟨lab, atoi t3,
                  if t4.head? = some 'D' then DIAG else FULL,
                  match strtok r4 with
                  | some (t5, _) => (strtod t5).1
                  | none => Dbl.fin 0⟩, fp)

/-- The loop `for (i=0;i<mp->dim;i++)` that reads the rows of a full
covariance matrix, with `n` rows left and `rows` read so far. -/
def GetGauss.rows (strtod : List Char → Dbl K × List Char) :
    Nat → Mat K → FILE → Except Abort (Mat K × FILE)
  | 0, rows, fp => Except.ok (rows, fp)
  | n + 1, rows, fp =>
    match GetVector strtod fp ((rows.length : Int) + 1) with
    | (some v, fp1) => GetGauss.rows strtod n (rows ++ [v]) fp1
    | (none, _) => Except.error Abort.exitFailure

/-- The function `GetGauss(fp)`: the Gaussian read (`none` for `NULL`) and
what is left of the stream.  A `malloc` of `n` doubles gives `NULL` when `n`
is negative (the size is then close to `SIZE_MAX`) and memory otherwise. -/
def GetGauss (strtod : List Char → Dbl K × List Char) (sq : K → K) (fp : FILE) :
    Except Abort (Option (gauss_t K) × FILE) :=
  match GetGauss.header strtod 1 fp with
  | (none, fp1) => Except.ok (none, fp1)
  | (some h, fp1) =>
    if h.dim < 0 then Except.error Abort.exitFailure
    else
      match GetVector strtod fp1 h.dim with
      | (none, _) => Except.error Abort.exitFailure
      | (some mean, fp2) =>
        if h.type = DIAG then
          match GetVector strtod fp2 h.dim with
          | (none, _) => Except.error Abort.exitFailure
          | (some dcovar, fp3) =>
            Except.ok (some ⟨h.label, h.dim, h.type, h.prior_prob, mean,
              some dcovar, some (dcovar.map (Dbl.sqrt sq)), none, none⟩, fp3)
        else
          match GetGauss.rows strtod h.dim.toNat [] fp2 with
          | Except.error e => Except.error e
          | Except.ok (covar, fp3) =>
            match Cholesky sq h.dim.toNat covar with
            | Except.error e => Except.error e
            | Except.ok L =>
              Except.ok (some ⟨h.label, h.dim, h.type, h.prior_prob, mean,
                none, none, some covar, some L⟩, fp3)

/-- The digits at the head of a string and what follows them. -/
def spanDigits (s : List Char) : List Char × List Char := s.span Char.isDigit

/-- The decimal part of `strtod`, after white space and sign: digits with an
optional point, then an optional exponent; `none` when no digit is there. -/
def strtod10.unsigned (s : List Char) : Option (K × List Char) :=
  let ip := spanDigits s
  let fp : List Char × List Char :=
    match ip.2 with
    | '.' :: t => spanDigits t
    | t => ([], t)
  let rest1 : List Char :=
    match ip.2 with
    | '.' :: _ => fp.2
    | t => t
  if ip.1 = [] ∧ fp.1 = [] then none
  else
    let m : K := (digitsVal (ip.1 ++ fp.1) : K) / (10 : K) ^ fp.1.length
    match rest1 with
    | e :: t =>
      if e = 'e' ∨ e = 'E' then
        match t with
        | '-' :: u =>
          if (spanDigits u).1 = [] then some (m, rest1)
          else some (m / (10 : K) ^ digitsVal (spanDigits u).1, (spanDigits u).2)
        | '+' :: u =>
          if (spanDigits u).1 = [] then some (m, rest1)
          else some (m * (10 : K) ^ digitsVal (spanDigits u).1, (spanDigits u).2)
        | u =>
          if (spanDigits u).1 = [] then some (m, rest1)
          else some (m * (10 : K) ^ digitsVal (spanDigits u).1, (spanDigits u).2)
      else some (m, rest1)
    | [] => some (m, rest1)

/-- The library function `strtod` on decimal floating constants (the
hexadecimal form and the forms `INF` and `NAN` are left out): the value and
the end pointer, `(0, s)` when nothing is converted. -/
def strtod10 (s : List Char) : Dbl K × List Char :=
  match s.dropWhile isspace with
  | '-' :: t =>
    match strtod10.unsigned t with
    | some (x, r) => (Dbl.fin (-x), r)
    | none => (Dbl.fin 0, s)
  | '+' :: t =>
    match strtod10.unsigned t with
    | some (x, r) => (Dbl.fin x, r)
    | none => (Dbl.fin 0, s)
  | t =>
    match strtod10.unsigned t with
    | some (x, r) => (Dbl.fin x, r)
    | none => (Dbl.fin 0, s)

end Reading

/-! ## Notions used in the statements -/

section Notions

variable {K : Type} [LinearOrderedField K]

/-- The value of a double as a number, `0` for the specials. -/
def Dbl.toK : Dbl K → K
  | Dbl.fin x => x
  | _ => 0

/-- The sum of the squared coordinate differences of two vectors. -/
def distSq : List (Dbl K) → List (Dbl K) → K
  | a :: x, b :: y => (Dbl.toK a - Dbl.toK b) ^ 2 + distSq x y
  | _, _ => 0

/-- The line begins with `d` numeric fields: `d` conversions of `strtod`
succeed one after the other from its start. -/
def StartsWithFields (strtod : List Char → Dbl K × List Char) (d : Nat)
    (line : List Char) : Prop :=
  GetVector.count strtod d line = d

/-- The line tokenizes into exactly `k` numeric fields: `k` conversions of
`strtod` succeed one after the other from its start and the next one fails. -/
def ExactlyFields (strtod : List Char → Dbl K × List Char) (k : Nat)
    (line : List Char) : Prop :=
  GetVector.count strtod (k + 1) line = k

instance (strtod : List Char → Dbl K × List Char) (d : Nat) (line : List Char) :
    Decidable (StartsWithFields strtod d line) :=
  inferInstanceAs (Decidable (GetVector.count strtod d line = d))

instance (strtod : List Char → Dbl K × List Char) (k : Nat) (line : List Char) :
    Decidable (ExactlyFields strtod k line) :=
  inferInstanceAs (Decidable (GetVector.count strtod (k + 1) line = k))

/-- The matrix of doubles that holds the given numbers. -/
def Mat.ofReals (A : List (List K)) : Mat K := A.map (List.map Dbl.fin)

/-- The entry `(i,j)` of the symmetric matrix whose lower triangle is `A`. -/
def symEntry (A : List (List K)) (i j : Nat) : K :=
  (A.getD (max i j) []).getD (min i j) 0

/-- The quadratic form `xᵀ A x` of the symmetric `d × d` matrix whose lower
triangle is `A`. -/
def quadForm (d : Nat) (A : List (List K)) (x : Nat → K) : K :=
  ∑ i in Finset.range d, ∑ j in Finset.range d, x i * symEntry A i j * x j

/-- The symmetric `d × d` matrix whose lower triangle is `A` is positive
semi-definite. -/
def IsPSD (d : Nat) (A : List (List K)) : Prop :=
  ∀ x : Nat → K, 0 ≤ quadForm d A x

/-- The sum over `k < n` of `L[i][k]*L[j][k]`, in the arithmetic of doubles;
an entry that is not stored counts as `NaN`. -/
def rowDot (L : Mat K) (i j : Nat) : Nat → Dbl K
  | 0 => Dbl.fin 0
  | n + 1 =>
    Dbl.add (rowDot L i j n)
      (Dbl.mul ((L.getD i []).getD n Dbl.nan) ((L.getD j []).getD n Dbl.nan))

/-- The lower triangle `L` is a factor of the symmetric matrix whose lower
triangle is `A`: for `j ≤ i < d` the sum over `k ≤ j` of `L[i][k]*L[j][k]`
is `A[i][j]`. -/
def IsFactor (d : Nat) (L : Mat K) (A : List (List K)) : Prop :=
  ∀ i j : Nat, j ≤ i → i < d → rowDot L i j (j + 1) = Dbl.fin (symEntry A i j)

end Notions

/-- An oracle of one training point and one query point in dimension 3. -/
def oracle0 : oracle_t ℚ :=
  ⟨1, 1, 3, [[Dbl.fin 0, Dbl.fin 1, Dbl.fin 2], [Dbl.fin 0, Dbl.fin 1, Dbl.fin 2]], [7, 0]⟩

/-- A stream with one Diagonal block whose variance is negative. -/
def negVarianceBlock : FILE :=
  ["GAUSS A 1 Diag\n".toList, "0\n".toList, "-1\n".toList]

/-! ## The mixture: priors and the choice of a component -/

section Mixture

variable {K : Type} [LinearOrderedField K]

/-- The statement `sum=0.0; for (i=0;i<nmodels;i++) sum+=gauss[i]->prior_prob;`
of `main`: the value it leaves in `sum`. -/
def priorSum (gauss : List (gauss_t K)) : Dbl K :=
  gauss.foldl (fun sum g => Dbl.add sum g.prior_prob) (Dbl.fin 0)

/-- The normalisation of the priors in `main`:
`sum=(1.0-sum)/nmodels; for (i=0;i<nmodels;i++) gauss[i]->prior_prob+=sum;`
after the sum of the priors is in `sum`. -/
def normalizePriors (gauss : List (gauss_t K)) : List (gauss_t K) :=
  let sum : Dbl K := Dbl.div (Dbl.sub (Dbl.fin 1) (priorSum gauss)) (Dbl.fin (gauss.length : K))
  gauss.map (fun g => { g with prior_prob := Dbl.add g.prior_prob sum })

/-- The loop `for (j=0;;j++) { sum+=gauss[j]->prior_prob;
if (sum>p || j==nmodels-1) break; }` of `main`, entered at `j` with `rest`
the components from `gauss[j]` on: the value of `j` at the `break`. -/
def selectLoop (nmodels : Int) (p : Dbl K) :
    List (gauss_t K) → Nat → Dbl K → Except Abort Nat
  | [], _, _ => Except.error Abort.badAccess
  | g :: rest, j, sum =>
    if Dbl.lt p (Dbl.add sum g.prior_prob) = true ∨ (j : Int) = nmodels - 1 then Except.ok j
    else selectLoop nmodels p rest (j + 1) (Dbl.add sum g.prior_prob)

/-- The choice of the component of a point in `main`, for the draw `p`:
the value stored in `ora.color[i]`. -/
def selectComponent (gauss : List (gauss_t K)) (p : Dbl K) : Except Abort Nat :=
  selectLoop (gauss.length : Int) p gauss 0 (Dbl.fin 0)

/-- The running sum `prior_0 + ... + prior_j` as the loop of `main` computes it. -/
def runningSum (gauss : List (gauss_t K)) (j : Nat) : Dbl K :=
  priorSum (gauss.take (j + 1))

end Mixture

/-- The number that a prior holds, `0` for the specials. -/
def priorVal {K : Type} [LinearOrderedField K] (g : gauss_t K) : K := Dbl.toK g.prior_prob

/-- The sum of the parsed weights, as a number. -/
def weightSum {K : Type} [LinearOrderedField K] (gauss : List (gauss_t K)) : K :=
  (gauss.map priorVal).sum

/-- A component of dimension 1 with the prior weight `w`. -/
def gaussOfPrior (w : ℚ) : gauss_t ℚ :=
  ⟨['A'], 1, DIAG, Dbl.fin w, [Dbl.fin 0], some [Dbl.fin 1], some [Dbl.fin 1], none, none⟩

/-! ## Sampling -/

section Sampling

variable {K : Type} [LinearOrderedField K]

/-- The loop `for (i=0;i<mp->dim;i++) v[i]=mp->mean[i];` of `SampleGauss` with
`n` iterations left, entered at `i`: the values stored in `v[i]`, `v[i+1]`,
and so on. -/
def SampleGauss.init (mean : List (Dbl K)) : Nat → Nat → Except Abort (List (Dbl K))
  | 0, _ => Except.ok []
  | n + 1, i =>
    match rdN mean i with
    | Except.ok m =>
      match SampleGauss.init mean n (i + 1) with
      | Except.ok v => Except.ok (m :: v)
      | Except.error e => Except.error e
    | Except.error e => Except.error e

/-- The loop `for (i=0;i<mp->dim;i++) v[i]+=mp->dCholesky[i]*aux[i];` of
`SampleGauss` with `n` iterations left, entered at `i`. -/
def SampleGauss.diagLoop (dc aux : List (Dbl K)) :
    Nat → Nat → List (Dbl K) → Except Abort (List (Dbl K))
  | 0, _, v => Except.ok v
  | n + 1, i, v =>
    match rdN v i with
    | Except.ok x =>
      match rdN dc i with
      | Except.ok c =>
        match rdN aux i with
        | Except.ok a =>
          match wrN v i (Dbl.add x (Dbl.mul c a)) with
          | Except.ok v1 => SampleGauss.diagLoop dc aux n (i + 1) v1
          | Except.error e => Except.error e
        | Except.error e => Except.error e
      | Except.error e => Except.error e
    | Except.error e => Except.error e

/-- The loop `for (j=0;j<=i;j++) v[i]+=mp->Cholesky[i][j]*aux[j];` of
`SampleGauss` with `n` iterations left, entered at `j`. -/
def SampleGauss.fullInner (L : Mat K) (aux : List (Dbl K)) (i : Nat) :
    Nat → Nat → List (Dbl K) → Except Abort (List (Dbl K))
  | 0, _, v => Except.ok v
  | n + 1, j, v =>
    match rdN v i with
    | Except.ok x =>
      match L.rd2 i j with
      | Except.ok c =>
        match rdN aux j with
        | Except.ok a =>
          match wrN v i (Dbl.add x (Dbl.mul c a)) with
          | Except.ok v1 => SampleGauss.fullInner L aux i n (j + 1) v1
          | Except.error e => Except.error e
        | Except.error e => Except.error e
      | Except.error e => Except.error e
    | Except.error e => Except.error e

/-- The loop `for (i=0;i<mp->dim;i++)` over the rows of `mp->Cholesky` in
`SampleGauss` with `n` iterations left, entered at `i`. -/
def SampleGauss.fullLoop (L : Mat K) (aux : List (Dbl K)) :
    Nat → Nat → List (Dbl K) → Except Abort (List (Dbl K))
  | 0, _, v => Except.ok v
  | n + 1, i, v =>
    match SampleGauss.fullInner L aux i (i + 1) 0 v with
    | Except.ok v1 => SampleGauss.fullLoop L aux n (i + 1) v1
    | Except.error e => Except.error e

/-- The function `SampleGauss(mp)`; `z i` is the result of the `i`-th call of
`BoxMuller` that it makes.  A `NULL` factor that is dereferenced is a bad
access. -/
def SampleGauss (mp : gauss_t K) (z : Nat → Dbl K) : Except Abort (List (Dbl K)) :=
  if mp.dim < 0 then Except.error Abort.exitFailure
  else
    match SampleGauss.init mp.mean mp.dim.toNat 0 with
    | Except.error e => Except.error e
    | Except.ok v =>
      if mp.type = DIAG then
        match mp.dCholesky with
        | some dc =>
          SampleGauss.diagLoop dc ((List.range mp.dim.toNat).map z) mp.dim.toNat 0 v
        | none => if mp.dim.toNat = 0 then Except.ok v else Except.error Abort.badAccess
      else
        match mp.Cholesky with
        | some L =>
          SampleGauss.fullLoop L ((List.range mp.dim.toNat).map z) mp.dim.toNat 0 v
        | none => if mp.dim.toNat = 0 then Except.ok v else Except.error Abort.badAccess

/-- The sum `f 0 + ... + f (n-1)` in the arithmetic of doubles. -/
def dsum (f : Nat → Dbl K) : Nat → Dbl K
  | 0 => Dbl.fin 0
  | n + 1 => Dbl.add (dsum f n) (f n)

/-- The data model of a component: `dim` means, and a factor of the kind of
the component: `dim` deviations, or a lower triangle of `dim` rows, row `i`
of `i+1` entries. -/
def gauss_t.WF (mp : gauss_t K) : Prop :=
  0 ≤ mp.dim ∧ (mp.mean.length : Int) = mp.dim ∧
  (mp.type = DIAG → ∃ dc, mp.dCholesky = some dc ∧ (dc.length : Int) = mp.dim) ∧
  (mp.type ≠ DIAG → ∃ L : Mat K, mp.Cholesky = some L ∧ (L.length : Int) = mp.dim ∧
    ∀ i < L.length, (L.getD i []).length = i + 1)

end Sampling

/-! ## Notions for the factorisation of a positive definite matrix -/

section Definite

variable {K : Type} [LinearOrderedField K]

/-- The symmetric `d × d` matrix whose lower triangle is `A` is positive
definite. -/
def IsPD (d : Nat) (A : List (List K)) : Prop :=
  ∀ x : Nat → K, (∃ i, i < d ∧ x i ≠ 0) → 0 < quadForm d A x

/-- A lower triangle of `d` rows, row `i` of `i+1` entries. -/
def TriShape {α : Type} (d : Nat) (A : List (List α)) : Prop :=
  A.length = d ∧ ∀ i < d, (A.getD i []).length = i + 1

/-- The bilinear form `uᵀ T v` on the indices below `d`. -/
def bil (T : Nat → Nat → K) (d : Nat) (u v : Nat → K) : K :=
  ∑ r in Finset.range d, ∑ c in Finset.range d, u r * T r c * v c

/-- The numbers that `Cholesky` works with before column `i`:
`schur sq A i r c` is `A[r][c]` less the sum over `k < i` of
`L[r][k]*L[c][k]`, where `L[r][k]` is `schur sq A k r k` over the square root
of the pivot `schur sq A k k k`. -/
def schur (sq : K → K) (A : List (List K)) : Nat → Nat → Nat → K
  | 0, r, c => symEntry A r c
  | i + 1, r, c =>
    schur sq A i r c -
      (schur sq A i r i / sq (schur sq A i i i)) * (schur sq A i c i / sq (schur sq A i i i))

/-- The entry `L[r][c]` of the factor, as a number. -/
def factorEntry (sq : K → K) (A : List (List K)) (r c : Nat) : K :=
  schur sq A c r c / sq (schur sq A c c c)

/-- The contents of the matrix when `Cholesky` is in column `i` and has done
the rows below `j`: the entries of the factor in the columns before `i` and in
column `i` above row `j`, the entries of `A` elsewhere. -/
def cholState (sq : K → K) (A : List (List K)) (i j r c : Nat) : K :=
  if c < i ∨ (c = i ∧ r < j) then factorEntry sq A r c else symEntry A r c

/-- The matrix `M` holds the finite numbers `f r c` in a lower triangle of
`d` rows. -/
def HoldsTri (d : Nat) (M : Mat K) (f : Nat → Nat → K) : Prop :=
  TriShape d M ∧ ∀ r c, c ≤ r → r < d → (M.getD r []).getD c Dbl.nan = Dbl.fin (f r c)

end Definite

/-! ## Notions for the statements on `GetGauss` -/

section HeaderNotions

variable {K : Type} [LinearOrderedField K]

/-- The label and the `<dim>` token of a line `GAUSS <label> [<dim>] ...`:
`none` when the line does not begin with the token `GAUSS` and a label,
`some (label, none)` when nothing follows the label. -/
def headerTokens (line : List Char) : Option (List Char × Option (List Char)) :=
  match strtok line with
  | none => none
  | some (t1, r1) =>
    if t1 ≠ "GAUSS".toList then none
    else
      match strtok r1 with
      | none => none
      | some (lab, r2) =>
        match strtok r2 with
        | none => some (lab, none)
        | some (t3, _) => some (lab, some t3)

/-- The lower triangle that `GetGauss` stores from complete rows: the first
`k+1` values of the first line, the first `k+2` values of the next one, and
so on. -/
def covarOfRows (strtod : List Char → Dbl K × List Char) : Nat → List (List Char) → Mat K
  | _, [] => []
  | k, r :: rs => GetVector.fill strtod (k + 1) r :: covarOfRows strtod (k + 1) rs

end HeaderNotions

/-- A stream with a comment, a `GAUSS` line of rejected dimension and a
Diagonal block. -/
def diagStream : FILE :=
  ["# two lines to skip\n".toList, "GAUSS X 0\n".toList, "GAUSS A 1 Diag 0.5\n".toList,
    "0\n".toList, "4\n".toList]

/-- The component that `GetGauss` reads from `diagStream`. -/
def diagGauss : gauss_t ℚ :=
  ⟨['A'], 1, DIAG, Dbl.fin (1/2), [Dbl.fin 0], some [Dbl.fin 4], some [Dbl.fin 2], none, none⟩

/-- The prior that a header line gives: `atof` of the token that follows the
kind of covariance, `0.0` when there is none; `r4` is what `strtok` leaves
after the kind. -/
def headerPrior {K : Type} [LinearOrderedField K] (strtod : List Char → Dbl K × List Char)
    (r4 : List Char) : Dbl K :=
  match strtok r4 with
  | some (t5, _) => (strtod t5).1
  | none => Dbl.fin 0

/-- A Full block in the documented format, with complete rows, of the
symmetric matrix `[[4,2],[2,10]]`. -/
def fullBlock : FILE :=
  ["GAUSS A 2 Full 0.5\n".toList, "0 1\n".toList, "4 2\n".toList, "2 10\n".toList]

/-- A Full block in the documented format, with complete rows, of the
symmetric matrix `[[1,2],[2,1]]`, which is not positive semi-definite. -/
def indefiniteBlock : FILE :=
  ["GAUSS A 2 Full\n".toList, "0 0\n".toList, "1 2\n".toList, "2 1\n".toList]

/-! ## Writing a Gaussian -/

section Writing

variable {K : Type} [LinearOrderedField K]

/-- The loop `for (i=0;i<mp->dim;i++) fprintf(fp," %10f",mp->mean[i]);` of
`PutGauss` with `n` iterations left, entered at `i`: the text written.  The
conversion `%10f` is the parameter `fmt10`. -/
def PutGauss.meanLoop (fmt10 : Dbl K → List Char) (mean : List (Dbl K)) :
    Nat → Nat → Except Abort (List Char)
  | 0, _ => Except.ok []
  | n + 1, i =>
    match rdN mean i with
    | Except.ok x =>
      match PutGauss.meanLoop fmt10 mean n (i + 1) with
      | Except.ok t => Except.ok (' ' :: fmt10 x ++ t)
      | Except.error e => Except.error e
    | Except.error e => Except.error e

/-- The loop `for (i=0;i<mp->dim;i++) { if (i!=0) fputc(' ',fp);
fprintf(fp,"%10f",a[i]); }` of `PutGauss` with `n` iterations left, entered
at `i`: the text written. -/
def PutGauss.rowLoop (fmt10 : Dbl K → List Char) (a : List (Dbl K)) :
    Nat → Nat → Except Abort (List Char)
  | 0, _ => Except.ok []
  | n + 1, i =>
    match rdN a i with
    | Except.ok x =>
      match PutGauss.rowLoop fmt10 a n (i + 1) with
      | Except.ok t => Except.ok ((if i ≠ 0 then [' '] else []) ++ fmt10 x ++ t)
      | Except.error e => Except.error e
    | Except.error e => Except.error e

/-- The loop `for (i=0;i<mp->dim;i++) { for (j=0;j<=mp->dim;j++) ...;
fprintf(fp,"\n"); }` of `PutGauss` with `n` iterations left, entered at `i`:
the text written.  The inner loop runs `j` from `0` to `dim` included. -/
def PutGauss.covarLoop (fmt10 : Dbl K → List Char) (covar : Mat K) (dim : Nat) :
    Nat → Nat → Except Abort (List Char)
  | 0, _ => Except.ok []
  | n + 1, i =>
    match rdN covar i with
    | Except.ok row =>
      match PutGauss.rowLoop fmt10 row (dim + 1) 0 with
      | Except.ok t =>
        match PutGauss.covarLoop fmt10 covar dim n (i + 1) with
        | Except.ok t1 => Except.ok (t ++ '\n' :: t1)
        | Except.error e => Except.error e
      | Except.error e => Except.error e
    | Except.error e => Except.error e

/-- The function `PutGauss(fp,mp)`: the text written to `fp` and the text
written to `stderr`. -/
def PutGauss (fmt10 : Dbl K → List Char) (mp : gauss_t K) :
    Except Abort (List Char × List Char) :=
  match PutGauss.meanLoop fmt10 mp.mean mp.dim.toNat 0 with
  | Except.error e => Except.error e
  | Except.ok tm =>
    match mp.dcovar with
    | some dcovar =>
      match PutGauss.rowLoop fmt10 dcovar mp.dim.toNat 0 with
      | Except.error e => Except.error e
      | Except.ok tc =>
        Except.ok ("GAUSS ".toList ++ mp.label ++ ' ' :: fmtInt mp.dim ++ ' ' :: tm ++ '\n' ::
          tc ++ ['\n'], if mp.type = DIAG then "Diag\n".toList else "Full\n".toList)
    | none =>
      match mp.covar with
      | some covar =>
        match PutGauss.covarLoop fmt10 covar mp.dim.toNat mp.dim.toNat 0 with
        | Except.error e => Except.error e
        | Except.ok tc =>
          Except.ok ("GAUSS ".toList ++ mp.label ++ ' ' :: fmtInt mp.dim ++ ' ' :: tm ++
            '\n' :: tc, if mp.type = DIAG then "Diag\n".toList else "Full\n".toList)
      | none =>
        if mp.dim.toNat = 0 then
          Except.ok ("GAUSS ".toList ++ mp.label ++ ' ' :: fmtInt mp.dim ++ ' ' :: tm ++
            ['\n'], if mp.type = DIAG then "Diag\n".toList else "Full\n".toList)
        else Except.error Abort.badAccess

end Writing

/-- The macro `MLL`. -/
def MLL : Nat := 16384

/-- The buffers that the successive calls `fgets(line,MLL,fp)` deliver on a
text: `cur` is the part of the current buffer already read, last character
first, and `room` the number of characters it can still take. -/
def fgetsLines.go : Nat → List Char → List Char → FILE
  | _, cur, [] => if cur = [] then [] else [cur.reverse]
  | room, cur, c :: s =>
    if c = '\n' ∨ room ≤ 1 then (c :: cur).reverse :: fgetsLines.go (MLL - 1) [] s
    else fgetsLines.go (room - 1) (c :: cur) s

/-- The stream that reads a text. -/
def fgetsLines (text : List Char) : FILE := fgetsLines.go (MLL - 1) [] text

/-- The digits of `n` in base 10, on at least `w` places. -/
def padDigits (w n : Nat) : List Char :=
  List.replicate (w - (Nat.toDigits 10 n).length) '0' ++ Nat.toDigits 10 n

/-- The conversion `%f` of a rational: six decimals, rounded to the nearest
(halves up). -/
def fmtf6 (q : ℚ) : List Char :=
  let n : Nat := (⌊|q| * 1000000 + 1 / 2⌋).toNat
  (if q < 0 then ['-'] else []) ++ Nat.toDigits 10 (n / 1000000) ++ '.' ::
    padDigits 6 (n % 1000000)

/-- The conversion `%10f` of a double over the rationals: the text of `%f`,
on at least ten places. -/
def fmt10f : Dbl ℚ → List Char
  | Dbl.fin q => List.replicate (10 - (fmtf6 q).length) ' ' ++ fmtf6 q
  | Dbl.pinf => "       inf".toList
  | Dbl.ninf => "      -inf".toList
  | Dbl.nan => "       nan".toList

/-- The conversion `%f` of a double over the rationals. -/
def fmtfQ : Dbl ℚ → List Char
  | Dbl.fin q => fmtf6 q
  | Dbl.pinf => "inf".toList
  | Dbl.ninf => "-inf".toList
  | Dbl.nan => "nan".toList

/-- An oracle of one training point in dimension 1, of coordinate `2^200`. -/
def oracleBig : oracle_t ℚ := ⟨1, 0, 1, [[Dbl.fin (2 ^ 200)]], [0]⟩

/-! ## Rounded arithmetic -/

section Rounded

variable {K : Type} [LinearOrderedField K]

/-- The rounding of the exact result of an operation: `rnd` gives the double
nearest to a number (an infinity on overflow); the specials are kept. -/
def Dbl.round (rnd : K → Dbl K) : Dbl K → Dbl K
  | Dbl.fin x => rnd x
  | Dbl.pinf => Dbl.pinf
  | Dbl.ninf => Dbl.ninf
  | Dbl.nan => Dbl.nan

/-- The loop `for (k=i-1;k>=0;k--) aux-=A[i][k]*A[j][k];` of `Cholesky` when
the product and the difference are each rounded by `rnd`. -/
def CholeskyR.kLoop (rnd : K → Dbl K) (A : Mat K) (i j : Nat) :
    Nat → Dbl K → Except Abort (Dbl K)
  | 0, aux => Except.ok aux
  | k + 1, aux =>
    match A.rd2 i k with
    | Except.ok a =>
      match A.rd2 j k with
      | Except.ok b =>
        CholeskyR.kLoop rnd A i j k
          (Dbl.round rnd (Dbl.sub aux (Dbl.round rnd (Dbl.mul a b))))
      | Except.error e => Except.error e
    | Except.error e => Except.error e

/-- The body of the loop over `j` in `Cholesky` in rounded arithmetic; `sq` is
the square root as the library rounds it. -/
def CholeskyR.body (rnd : K → Dbl K) (sq : K → K) (A : Mat K) (i j : Nat) :
    Except Abort (Mat K) :=
  match A.rd2 j i with
  | Except.ok a0 =>
    match CholeskyR.kLoop rnd A i j i a0 with
    | Except.ok aux =>
      if i = j then
        if Dbl.lt aux (Dbl.fin 0) then Except.error Abort.exitFailure
        else A.wr2 i i (Dbl.sqrt sq aux)
      else
        match A.rd2 i i with
        | Except.ok p => A.wr2 j i (Dbl.round rnd (Dbl.div aux p))
        | Except.error e => Except.error e
    | Except.error e => Except.error e
  | Except.error e => Except.error e

/-- The loop `for (j=i;j<d;j++)` of `Cholesky` in rounded arithmetic, with `n`
iterations left. -/
def CholeskyR.jLoop (rnd : K → Dbl K) (sq : K → K) (d i : Nat) :
    Nat → Mat K → Except Abort (Mat K)
  | 0, A => Except.ok A
  | n + 1, A =>
    match CholeskyR.body rnd sq A i (d - (n + 1)) with
    | Except.ok A1 => CholeskyR.jLoop rnd sq d i n A1
    | Except.error e => Except.error e

/-- The loop `for (i=0;i<d;i++)` of `Cholesky` in rounded arithmetic, with `n`
iterations left. -/
def CholeskyR.iLoop (rnd : K → Dbl K) (sq : K → K) (d : Nat) :
    Nat → Mat K → Except Abort (Mat K)
  | 0, A => Except.ok A
  | n + 1, A =>
    match CholeskyR.jLoop rnd sq d (d - (n + 1)) (n + 1) A with
    | Except.ok A1 => CholeskyR.iLoop rnd sq d n A1
    | Except.error e => Except.error e

/-- The function `Cholesky(d,A)` when every operation rounds its exact result
by `rnd`; with `rnd = Dbl.fin` it is `Cholesky`. -/
def CholeskyR (rnd : K → Dbl K) (sq : K → K) (d : Nat) (A : Mat K) : Except Abort (Mat K) :=
  CholeskyR.iLoop rnd sq d d A

/-- The loop `for (k=0;k<dim;k++) { aux=*x++-*y++; aux*=aux; sum+=aux; }` of
`InqDist` when the difference, the square and the sum are each rounded by
`rnd`. -/
def InqDistR.loop (rnd : K → Dbl K) :
    Nat → List (Dbl K) → List (Dbl K) → Dbl K → Except Abort (Dbl K)
  | 0, _, _, sum => Except.ok sum
  | n + 1, a :: x, b :: y, sum =>
    InqDistR.loop rnd n x y
      (Dbl.round rnd (Dbl.add sum
        (Dbl.round rnd (Dbl.mul (Dbl.round rnd (Dbl.sub a b)) (Dbl.round rnd (Dbl.sub a b))))))
  | _ + 1, _, _, _ => Except.error Abort.badAccess

/-- The function `InqDist` when every operation rounds its exact result by
`rnd`; with `rnd = Dbl.fin` it is `InqDist`. -/
def InqDistR (rnd : K → Dbl K) (sq : K → K) (o : oracle_t K) (p1 p2 : Int) :
    Except Abort (Dbl K) :=
  match rd o.sample p1 with
  | Except.ok x =>
    match rd o.sample p2 with
    | Except.ok y =>
      if p1 < 0 ∨ p1 ≥ o.npoints + o.nquery then Except.ok (Dbl.fin (-1))
      else if p2 < 0 ∨ p2 ≥ o.npoints + o.nquery then Except.ok (Dbl.fin (-1))
      else
        match InqDistR.loop rnd o.dim.toNat x y (Dbl.fin 0) with
        | Except.ok sum => Except.ok (Dbl.sqrt sq sum)
        | Except.error e => Except.error e
    | Except.error e => Except.error e
  | Except.error e => Except.error e

end Rounded

/-! ## The arithmetic of binary64 -/

/-- The power `2^e` for an integer `e`. -/
def pow2 (e : Int) : ℚ :=
  if 0 ≤ e then ((2 ^ e.toNat : Nat) : ℚ) else 1 / ((2 ^ (-e).toNat : Nat) : ℚ)

/-- The search, bit by bit from bit `b - 1` down, of the greatest `e ≥ acc`
with `2^e ≤ n`. -/
def log2Bits (n : Nat) : Nat → Nat → Nat
  | 0, acc => acc
  | b + 1, acc =>
    if 2 ^ (acc + 2 ^ b) ≤ n then log2Bits n b (acc + 2 ^ b) else log2Bits n b acc

/-- The least `k` from `k` on with `n < 2^(2^k)`, by a search of at most
`fuel` steps. -/
def log2Span (n : Nat) : Nat → Nat → Nat
  | 0, k => k
  | fuel + 1, k => if n < 2 ^ 2 ^ k then k else log2Span n fuel (k + 1)

/-- The number `e` with `2^e ≤ n < 2^(e+1)`, for `n ≥ 1`. -/
def log2N (n : Nat) : Nat := log2Bits n (log2Span n n 0) 0

/-- The integer `e` with `2^e ≤ q < 2^(e+1)`, for `q > 0`. -/
def ilog2 (q : ℚ) : Int :=
  let e0 : Int := (log2N q.num.toNat : Int) - (log2N q.den : Int)
  if q < pow2 e0 then e0 - 1 else e0

/-- The integer nearest to `m ≥ 0`, the even one of the two when `m` is half
way between them. -/
def roundEven (m : ℚ) : Nat :=
  let f : Nat := ⌊m⌋.toNat
  if m - (f : ℚ) < 1 / 2 then f
  else if 1 / 2 < m - (f : ℚ) then f + 1
  else if f % 2 = 0 then f else f + 1

/-- The binary64 number nearest to `q` (round to nearest, ties to even): 53
significant bits, exponents from `-1022`, an infinity from `2^1024` on. -/
def rnd64 (q : ℚ) : Dbl ℚ :=
  if q = 0 then Dbl.fin 0
  else
    let e : Int := max (ilog2 |q|) (-1022)
    let v : ℚ := (roundEven (|q| / pow2 (e - 52)) : ℚ) * pow2 (e - 52)
    if pow2 1024 ≤ v then (if q < 0 then Dbl.ninf else Dbl.pinf)
    else Dbl.fin (if q < 0 then -v else v)

/-- The search, bit by bit from bit `b - 1` down, of the greatest `r ≥ acc`
with `r * r ≤ n`. -/
def isqrtBits (n : Nat) : Nat → Nat → Nat
  | 0, acc => acc
  | b + 1, acc =>
    if (acc + 2 ^ b) * (acc + 2 ^ b) ≤ n then isqrtBits n b (acc + 2 ^ b)
    else isqrtBits n b acc

/-- The integer square root of `n`: the number `r` with
`r * r ≤ n < (r + 1) * (r + 1)`. -/
def isqrtBig (n : Nat) : Nat := isqrtBits n (log2N n / 2 + 1) 0

/-- The binary64 number nearest to the square root of `q ≥ 0`, as the library
function `sqrt` gives it on a binary64 argument. -/
def sqrt64 (q : ℚ) : ℚ :=
  if q ≤ 0 then 0
  else
    let e : Int := (ilog2 q) / 2
    let t : ℚ := q / (pow2 (e - 52) * pow2 (e - 52))
    let s : Nat := isqrtBig ⌊t⌋.toNat
    let n : Nat :=
      if t < ((s : ℚ) + 1 / 2) * ((s : ℚ) + 1 / 2) then s
      else if ((s : ℚ) + 1 / 2) * ((s : ℚ) + 1 / 2) < t then s + 1
      else if s % 2 = 0 then s else s + 1
    (n : ℚ) * pow2 (e - 52)

/-! ## Inputs of the runs in binary64 -/

/-- A symmetric positive definite matrix of binary64 numbers: the entries `3`,
`1` and `0.33333333333333337`, the binary64 number next above `1/3`. -/
def pdNearSingular : List (List ℚ) := [[3], [1, 6004799503160662 / 18014398509481984]]

/-- An oracle of three points in dimension 1: `1 + 2^-52`, `2^-53` and `0`. -/
def oracleTri : oracle_t ℚ :=
  ⟨3, 0, 1, [[Dbl.fin (1 + pow2 (-52))], [Dbl.fin (pow2 (-53))], [Dbl.fin 0]], [0, 0, 0]⟩

/-- An oracle of two points in dimension 1: `+inf`, which `strtod` reads from
the text `inf`, and `0`. -/
def oracleInf : oracle_t ℚ := ⟨2, 0, 1, [[Dbl.pinf], [Dbl.fin 0]], [0, 0]⟩

/-- The coordinates of the oracle are binary64 numbers that are `0` or of a
magnitude from `2^-448` to `2^500`. -/
def oracle_t.Moderate64 (o : oracle_t ℚ) : Prop :=
  ∀ v ∈ o.sample, ∀ x ∈ v, ∃ q : ℚ, x = Dbl.fin q ∧ rnd64 q = Dbl.fin q ∧
    (q = 0 ∨ pow2 (-448) ≤ |q|) ∧ |q| ≤ pow2 500

/-! ## The normalisation of the priors in rounded arithmetic -/

/-- The statement `sum=0.0; for (i=0;i<nmodels;i++) sum+=gauss[i]->prior_prob;`
of `main` when every sum is rounded by `rnd`. -/
def priorSumR {K : Type} [LinearOrderedField K] (rnd : K → Dbl K)
    (gauss : List (gauss_t K)) : Dbl K :=
  gauss.foldl (fun sum g => Dbl.round rnd (Dbl.add sum g.prior_prob)) (Dbl.fin 0)

/-- The normalisation of the priors in `main` when the result of every
operation is rounded by `rnd`; with `rnd = Dbl.fin` it is `normalizePriors`. -/
def normalizePriorsR {K : Type} [LinearOrderedField K] (rnd : K → Dbl K)
    (gauss : List (gauss_t K)) : List (gauss_t K) :=
  let sum : Dbl K :=
    Dbl.round rnd (Dbl.div (Dbl.round rnd (Dbl.sub (Dbl.fin 1) (priorSumR rnd gauss)))
      (Dbl.fin (gauss.length : K)))
  gauss.map (fun g => { g with prior_prob := Dbl.round rnd (Dbl.add g.prior_prob sum) })

/-! ## Array reads -/

theorem rd_eq_ok_iff {α : Type} (a : List α) (i : Int) (x : α) :
    rd a i = Except.ok x ↔ 0 ≤ i ∧ a.get? i.toNat = some x := by
  unfold rd
  by_cases h : i < 0
  · simp [h]
  · simp only [h, if_false]
    cases hg : a.get? i.toNat <;> simp; omega

theorem rd_in_range {α : Type} (a : List α) (i : Int) (h0 : 0 ≤ i) (h1 : i < a.length) :
    ∃ x, rd a i = Except.ok x ∧ a.get? i.toNat = some x := by
  have hlt : i.toNat < a.length := by omega
  refine ⟨a.get ⟨i.toNat, hlt⟩, ?_, ?_⟩
  · rw [rd_eq_ok_iff]; exact ⟨h0, List.get?_eq_get hlt⟩
  · exact List.get?_eq_get hlt

theorem rd_out_of_range {α : Type} (a : List α) (i : Int)
    (h : i < 0 ∨ (a.length : Int) ≤ i) : rd a i = Except.error Abort.badAccess := by
  unfold rd
  by_cases h0 : i < 0
  · simp [h0]
  · have : a.length ≤ i.toNat := by omega
    rw [if_neg h0, List.get?_eq_none.mpr this]

theorem rd_error {α : Type} (a : List α) (i : Int) (e : Abort)
    (h : rd a i = Except.error e) : e = Abort.badAccess := by
  unfold rd at h
  split at h
  · cases h; rfl
  · split at h
    · cases h
    · cases h; rfl

/-! ## Cholesky on a zero pivot -/

/-- The factor of `[[4,2],[2,10]]` is `[[2,0],[1,3]]`. -/
theorem Cholesky_example :
    Cholesky sqrtQ 2 (Mat.ofReals [[(4 : ℚ)], [2, 10]]) =
      Except.ok [[Dbl.fin 2], [Dbl.fin 1, Dbl.fin 3]] ∧
    IsFactor 2 [[Dbl.fin 2], [Dbl.fin 1, Dbl.fin 3]] [[(4 : ℚ)], [2, 10]] := by
  constructor
  · with_unfolding_all rfl
  · intro i j hji hi
    have hi2 : i = 0 ∨ i = 1 := by omega
    rcases hi2 with rfl | rfl
    · have : j = 0 := by omega
      subst this
      simp [rowDot, Dbl.add, Dbl.mul, symEntry]; norm_num
    · have hj2 : j = 0 ∨ j = 1 := by omega
      rcases hj2 with rfl | rfl
      · simp [rowDot, Dbl.add, Dbl.mul, symEntry]
      · simp [rowDot, Dbl.add, Dbl.mul, symEntry]; norm_num

/-- A negative pivot takes `Cholesky` to its failure branch. -/
theorem Cholesky_negative_pivot_exits :
    Cholesky sqrtQ 2 (Mat.ofReals [[(1 : ℚ)], [2, 1]]) = Except.error Abort.exitFailure := by
  with_unfolding_all rfl

/-- On a Full block with a negative variance `GetGauss` exits. -/
theorem GetGauss_full_negative_variance_exits :
    GetGauss (K := ℚ) strtod10 sqrtQ
      ["GAUSS A 1 Full\n".toList, "0\n".toList, "-1\n".toList] =
      Except.error Abort.exitFailure := by
  with_unfolding_all rfl

/-- C1 (the code at a failing input): the matrix `[[0,0],[0,1]]` is symmetric
positive semi-definite; `Cholesky` accepts the zero pivot of its first column,
divides `0` by it, and returns a triangle that holds `NaN` where the factor
should hold `0` and `1`: what it leaves is not a factor of the matrix. -/
theorem Cholesky_psd_zero_pivot_nan :
    IsPSD 2 [[(0 : ℚ)], [0, 1]] ∧
    Cholesky sqrtQ 2 (Mat.ofReals [[(0 : ℚ)], [0, 1]]) =
      Except.ok [[Dbl.fin 0], [Dbl.nan, Dbl.nan]] ∧
    ¬ IsFactor 2 [[Dbl.fin 0], [Dbl.nan, Dbl.nan]] [[(0 : ℚ)], [0, 1]] := by
  refine ⟨?_, ?_, ?_⟩
  · intro x
    simp [quadForm, Finset.sum_range_succ, symEntry]
    exact mul_self_nonneg _
  · with_unfolding_all rfl
  · intro h
    have h10 := h 1 0 (by decide) (by decide)
    simp [rowDot, Dbl.add, Dbl.mul] at h10

/-- C2 (the code at a failing input): the matrix `[[0,0],[0,-1]]` is symmetric
and not positive semi-definite; `Cholesky` does not reach its failure branch
on it: the `NaN` that the division by the zero pivot leaves is not `< 0.0`,
and the function returns. -/
theorem Cholesky_not_psd_zero_pivot_returns :
    ¬ IsPSD 2 [[(0 : ℚ)], [0, -1]] ∧
    Cholesky sqrtQ 2 (Mat.ofReals [[(0 : ℚ)], [0, -1]]) =
      Except.ok [[Dbl.fin 0], [Dbl.nan, Dbl.nan]] := by
  constructor
  · intro h
    have := h (fun i => if i = 1 then 1 else 0)
    simp [quadForm, Finset.sum_range_succ, symEntry] at this
    linarith
  · with_unfolding_all rfl

/-- C3 (the code at a failing input): on a Diagonal block whose variance line
is `-1`, `GetGauss` returns a component; its `dCholesky` is `sqrt(-1)`, a
`NaN`. -/
theorem GetGauss_diag_negative_variance_returned :
    GetGauss (K := ℚ) strtod10 sqrtQ negVarianceBlock =
      Except.ok (some ⟨['A'], 1, DIAG, Dbl.fin 0, [Dbl.fin 0], some [Dbl.fin (-1)],
        some [Dbl.nan], none, none⟩, []) := by
  with_unfolding_all rfl

/-! ## The oracle -/

/-- C4: `InqNumFields(p)` is `0` when `p < 0` or `p >= npoints+nquery`, and
`dim+1` otherwise. -/
theorem InqNumFields_spec {K : Type} (o : oracle_t K) (p : Int) :
    InqNumFields o p = if p < 0 ∨ p ≥ o.npoints + o.nquery then 0 else o.dim + 1 := by
  unfold InqNumFields
  split <;> simp [add_comm]

theorem fmtInt_eq_toString (n : Int) : fmtInt n = (toString n).toList := by
  have key : String.mk (fmtInt n) = toString n := by
    unfold fmtInt
    cases n with
    | ofNat m =>
      have : ¬ (Int.ofNat m < 0) := by simp
      rw [if_neg this]
      rfl
    | negSucc m =>
      have : Int.negSucc m < 0 := Int.negSucc_lt_zero m
      rw [if_pos this]
      show _ = "-" ++ Nat.repr (m + 1)
      simp [Nat.repr, Int.natAbs]
      rfl
  rw [← key]; rfl

theorem oracle_t.WF.dim_nonneg {K : Type} {o : oracle_t K} (hwf : o.WF) (p : Int)
    (h0 : 0 ≤ p) (h1 : p < o.npoints + o.nquery) : 0 ≤ o.dim := by
  obtain ⟨hs, _, hd⟩ := hwf
  obtain ⟨v, _, hv⟩ := rd_in_range o.sample p h0 (by omega)
  have := hd v (List.get?_mem hv)
  omega

/-- C5: for a point index `p` in range, `InqField(p,0)` is the decimal string
of `color[p]` when `p < npoints`, and the string `?` when `npoints <= p`,
whatever `color[p]` is. -/
theorem InqField_label {K : Type} (fmtf : Dbl K → List Char) (o : oracle_t K)
    (hwf : o.WF) (p : Int) (h0 : 0 ≤ p) (h1 : p < o.npoints + o.nquery) :
    (p < o.npoints → ∃ c, o.color.get? p.toNat = some c ∧
      InqField fmtf o p 0 = Except.ok (some (toString c).toList)) ∧
    (o.npoints ≤ p → InqField fmtf o p 0 = Except.ok (some ['?'])) := by
  have hdim := hwf.dim_nonneg p h0 h1
  have hr : ¬ (p < 0 ∨ p ≥ o.npoints + o.nquery) := by omega
  have hf : ¬ ((0:Int) < 0 ∨ (0:Int) > o.dim) := by omega
  constructor
  · intro hp
    obtain ⟨c, hc, hg⟩ := rd_in_range o.color p h0 (by rw [hwf.2.1]; exact h1)
    refine ⟨c, hg, ?_⟩
    have hnp : ¬ (p ≥ o.npoints) := by omega
    simp only [InqField, hr, hf, if_false, if_true, hnp, hc, fmtInt_eq_toString]
  · intro hp
    have hnp : p ≥ o.npoints := hp
    simp only [InqField, hr, hf, if_false, if_true, hnp]

theorem oracle0_WF : oracle0.WF := by
  simp [oracle_t.WF, oracle0]

theorem InqField_label_witness :
    ((0 : Int) < oracle0.npoints → ∃ c, oracle0.color.get? (0 : Int).toNat = some c ∧
      InqField (fun _ => []) oracle0 0 0 = Except.ok (some (toString c).toList)) ∧
    (oracle0.npoints ≤ 0 →
      InqField (fun _ => []) oracle0 0 0 = Except.ok (some ['?'])) :=
  InqField_label (fun _ => []) oracle0 oracle0_WF 0 (by decide) (by decide)

theorem InqField_out_of_range {K : Type} (fmtf : Dbl K → List Char) (o : oracle_t K)
    (p f : Int) (h : p < 0 ∨ p ≥ o.npoints + o.nquery ∨ f < 0 ∨ f > o.dim) :
    InqField fmtf o p f = Except.ok none := by
  unfold InqField
  by_cases hp : p < 0 ∨ p ≥ o.npoints + o.nquery
  · rw [if_pos hp]
  · have hf : f < 0 ∨ f > o.dim := by omega
    rw [if_neg hp, if_pos hf]

theorem InqField_in_range {K : Type} (fmtf : Dbl K → List Char) (o : oracle_t K)
    (hwf : o.WF) (hfit : ∀ v ∈ o.sample, ∀ x ∈ v, (fmtf x).length < 64) (p f : Int)
    (h : ¬ (p < 0 ∨ p ≥ o.npoints + o.nquery ∨ f < 0 ∨ f > o.dim)) :
    ∃ s, InqField fmtf o p f = Except.ok (some s) := by
  have hp : ¬ (p < 0 ∨ p ≥ o.npoints + o.nquery) := by omega
  have hf : ¬ (f < 0 ∨ f > o.dim) := by omega
  unfold InqField
  rw [if_neg hp, if_neg hf]
  by_cases hf0 : f = 0
  · rw [if_pos hf0]
    by_cases hq : p ≥ o.npoints
    · rw [if_pos hq]; exact ⟨_, rfl⟩
    · obtain ⟨c, hc, -⟩ := rd_in_range o.color p (by omega) (by rw [hwf.2.1]; omega)
      rw [if_neg hq, hc]; exact ⟨_, rfl⟩
  · obtain ⟨v, hv, hg⟩ := rd_in_range o.sample p (by omega) (by rw [hwf.1]; omega)
    have hlen := hwf.2.2 v (List.get?_mem hg)
    obtain ⟨x, hx, gx⟩ := rd_in_range v (f - 1) (by omega) (by omega)
    rw [if_neg hf0, hv]
    simp only [hx]
    rw [if_pos (hfit v (List.get?_mem hg) x (List.get?_mem gx))]
    exact ⟨_, rfl⟩

/-- On an oracle state whose coordinates all have a text of `%f` that fits in
the buffer of 64 characters, `InqField(p,f)` gives `NULL` if and only if `p` is
outside `[0, npoints+nquery)` or `f` is outside `[0, dim]`, it gives a string on
every other pair, and the run is not cut short. -/
theorem InqField_null_iff_of_fit {K : Type} (fmtf : Dbl K → List Char) (o : oracle_t K)
    (hwf : o.WF) (hfit : ∀ v ∈ o.sample, ∀ x ∈ v, (fmtf x).length < 64) (p f : Int) :
    (InqField fmtf o p f = Except.ok none ↔
      (p < 0 ∨ p ≥ o.npoints + o.nquery ∨ f < 0 ∨ f > o.dim)) ∧
    (¬ (p < 0 ∨ p ≥ o.npoints + o.nquery ∨ f < 0 ∨ f > o.dim) →
      ∃ s, InqField fmtf o p f = Except.ok (some s)) ∧
    (∀ e, InqField fmtf o p f ≠ Except.error e) := by
  by_cases h : p < 0 ∨ p ≥ o.npoints + o.nquery ∨ f < 0 ∨ f > o.dim
  · have := InqField_out_of_range fmtf o p f h
    simp [this, h]
  · obtain ⟨s, hs⟩ := InqField_in_range fmtf o hwf hfit p f h
    simp only [hs, h]
    simp

theorem oracleBig_WF : oracleBig.WF := by
  simp [oracle_t.WF, oracleBig]

set_option maxRecDepth 20000 in
/-- C6 (the code at a failing input): `InqField` prints a coordinate with
`sprintf(aux,"%f",...)` into `char aux[64]`.  The text of the coordinate
`2^200` has 68 characters: on the pair `(0,1)`, which is in range, the call
writes past the end of the buffer; no string is returned and the run is cut
short. -/
theorem InqField_long_field_overflows :
    oracleBig.WF ∧
    ¬ ((0 : Int) < 0 ∨ (0 : Int) ≥ oracleBig.npoints + oracleBig.nquery ∨
        (1 : Int) < 0 ∨ (1 : Int) > oracleBig.dim) ∧
    fmtfQ (Dbl.fin (2 ^ 200)) =
      "1606938044258990275541962092341162602522202993782792835301376.000000".toList ∧
    (fmtfQ (Dbl.fin (2 ^ 200))).length = 68 ∧
    InqField fmtfQ oracleBig 0 1 = Except.error Abort.badAccess := by
  refine ⟨oracleBig_WF, by decide, ?_, ?_, ?_⟩ <;> with_unfolding_all rfl

/-- C7 (the code at a failing input): `InqDist` loads `o->sample[p1]` and
`o->sample[p2]` before it checks the range of `p1` and `p2`; with an index
outside `[0, npoints+nquery)` the load is outside the array of samples and
the sentinel `-1.0` is not what the run gives. -/
theorem InqDist_loads_before_range_check :
    InqDist sqrtQ oracle0 2147483647 0 = Except.error Abort.badAccess ∧
    InqDist sqrtQ oracle0 0 (-1) = Except.error Abort.badAccess := by
  constructor <;> with_unfolding_all rfl

theorem Dbl.sq_sub_comm {K : Type} [LinearOrderedField K] (a b : Dbl K) :
    Dbl.mul (Dbl.sub a b) (Dbl.sub a b) = Dbl.mul (Dbl.sub b a) (Dbl.sub b a) := by
  cases a <;> cases b <;> simp [Dbl.mul, Dbl.sub, Dbl.add, Dbl.neg]
  ring

theorem InqDist.loop_comm {K : Type} [LinearOrderedField K] (n : Nat) :
    ∀ (x y : List (Dbl K)) (s : Dbl K), InqDist.loop n x y s = InqDist.loop n y x s := by
  induction n with
  | zero => intro x y s; simp [InqDist.loop]
  | succ n ih =>
    intro x y s
    cases x with
    | nil => cases y <;> simp [InqDist.loop]
    | cons a x =>
      cases y with
      | nil => simp [InqDist.loop]
      | cons b y => simp only [InqDist.loop]; rw [Dbl.sq_sub_comm a b, ih]

/-- C8: `InqDist(a,b) = InqDist(b,a)` for every oracle state and all integers
`a`, `b`, in range or not. -/
theorem InqDist_comm {K : Type} [LinearOrderedField K] (sq : K → K) (o : oracle_t K)
    (a b : Int) : InqDist sq o a b = InqDist sq o b a := by
  unfold InqDist
  cases ha : rd o.sample a with
  | error e1 =>
    cases hb : rd o.sample b with
    | error e2 => simp only []; rw [rd_error _ _ _ ha, rd_error _ _ _ hb]
    | ok y => simp only []
  | ok x =>
    cases hb : rd o.sample b with
    | error e2 => simp only []
    | ok y =>
      simp only []
      by_cases h1 : a < 0 ∨ a ≥ o.npoints + o.nquery
      · by_cases h2 : b < 0 ∨ b ≥ o.npoints + o.nquery
        · simp only [h1, h2, if_true]
        · simp only [h1, h2, if_true, if_false]
      · by_cases h2 : b < 0 ∨ b ≥ o.npoints + o.nquery
        · simp only [h1, h2, if_true, if_false]
        · simp only [h1, h2, if_false]
          rw [InqDist.loop_comm]

/-! ## The distance of two points in range -/

theorem distSq_nonneg {K : Type} [LinearOrderedField K] :
    ∀ x y : List (Dbl K), 0 ≤ distSq x y
  | [], _ => by simp [distSq]
  | _ :: _, [] => by simp [distSq]
  | a :: x, b :: y => by
    simp only [distSq]
    have := distSq_nonneg x y
    positivity

theorem Dbl.isFin_iff {K : Type} [LinearOrderedField K] (a : Dbl K) :
    Dbl.isFin a = true ↔ a = Dbl.fin (Dbl.toK a) := by
  cases a <;> simp [Dbl.isFin, Dbl.toK]

theorem distSq_eq_zero_iff {K : Type} [LinearOrderedField K] :
    ∀ (x y : List (Dbl K)), x.length = y.length →
      (∀ a ∈ x, Dbl.isFin a = true) → (∀ b ∈ y, Dbl.isFin b = true) →
      (distSq x y = 0 ↔ x = y)
  | [], [], _, _, _ => by simp [distSq]
  | [], _ :: _, h, _, _ => by simp at h
  | _ :: _, [], h, _, _ => by simp at h
  | a :: x, b :: y, h, hx, hy => by
    have hl : x.length = y.length := by simpa using h
    have ih := distSq_eq_zero_iff x y hl (fun c hc => hx c (List.mem_cons_of_mem _ hc))
      (fun c hc => hy c (List.mem_cons_of_mem _ hc))
    have ha := (Dbl.isFin_iff a).mp (hx a (List.mem_cons_self _ _))
    have hb := (Dbl.isFin_iff b).mp (hy b (List.mem_cons_self _ _))
    have h1 : 0 ≤ (Dbl.toK a - Dbl.toK b) ^ 2 := sq_nonneg _
    have h2 := distSq_nonneg x y
    simp only [distSq, List.cons.injEq]
    constructor
    · intro h0
      have e1 : (Dbl.toK a - Dbl.toK b) ^ 2 = 0 := by linarith
      have e2 : distSq x y = 0 := by linarith
      have e3 : Dbl.toK a = Dbl.toK b := by
        have := pow_eq_zero_iff (two_ne_zero) |>.mp e1
        linarith
      exact ⟨by rw [ha, hb, e3], ih.mp e2⟩
    · rintro ⟨hab, hxy⟩
      rw [ih.mpr hxy, hab]; simp

theorem InqDist.loop_fin {K : Type} [LinearOrderedField K] (n : Nat) :
    ∀ (x y : List (Dbl K)) (s : K), x.length = n → y.length = n →
      (∀ a ∈ x, Dbl.isFin a = true) → (∀ b ∈ y, Dbl.isFin b = true) →
      InqDist.loop n x y (Dbl.fin s) = Except.ok (Dbl.fin (s + distSq x y)) := by
  induction n with
  | zero =>
    intro x y s hx hy _ _
    have : x = [] := List.length_eq_zero.mp hx
    subst this
    simp [InqDist.loop, distSq]
  | succ n ih =>
    intro x y s hx hy fx fy
    cases x with
    | nil => simp at hx
    | cons a x =>
      cases y with
      | nil => simp at hy
      | cons b y =>
        have ha := (Dbl.isFin_iff a).mp (fx a (List.mem_cons_self _ _))
        have hb := (Dbl.isFin_iff b).mp (fy b (List.mem_cons_self _ _))
        simp only [InqDist.loop]
        rw [ha, hb]
        simp only [Dbl.sub, Dbl.neg, Dbl.add, Dbl.mul]
        rw [ih x y _ (by simpa using hx) (by simpa using hy)
          (fun c hc => fx c (List.mem_cons_of_mem _ hc))
          (fun c hc => fy c (List.mem_cons_of_mem _ hc))]
        simp only [distSq, Dbl.toK]
        congr 2
        ring

/-- With both indices in range and finite coordinates, `InqDist` is the square
root of the sum of the squared coordinate differences. -/
theorem InqDist_in_range {K : Type} [LinearOrderedField K] (sq : K → K) (o : oracle_t K)
    (hwf : o.WF) (hfin : o.Finite) (a b : Int)
    (ha0 : 0 ≤ a) (ha1 : a < o.npoints + o.nquery)
    (hb0 : 0 ≤ b) (hb1 : b < o.npoints + o.nquery) :
    ∃ x y, o.sample.get? a.toNat = some x ∧ o.sample.get? b.toNat = some y ∧
      x.length = y.length ∧
      (∀ c ∈ x, Dbl.isFin c = true) ∧ (∀ c ∈ y, Dbl.isFin c = true) ∧
      InqDist sq o a b = Except.ok (Dbl.fin (sq (distSq x y))) := by
  obtain ⟨x, hx, gx⟩ := rd_in_range o.sample a ha0 (by rw [hwf.1]; omega)
  obtain ⟨y, hy, gy⟩ := rd_in_range o.sample b hb0 (by rw [hwf.1]; omega)
  have lx := hwf.2.2 x (List.get?_mem gx)
  have ly := hwf.2.2 y (List.get?_mem gy)
  have fx := hfin x (List.get?_mem gx)
  have fy := hfin y (List.get?_mem gy)
  refine ⟨x, y, gx, gy, by omega, fx, fy, ?_⟩
  have h1 : ¬ (a < 0 ∨ a ≥ o.npoints + o.nquery) := by omega
  have h2 : ¬ (b < 0 ∨ b ≥ o.npoints + o.nquery) := by omega
  unfold InqDist
  rw [hx, hy]
  simp only [h1, h2, if_false]
  rw [InqDist.loop_fin o.dim.toNat x y 0 (by omega) (by omega) fx fy]
  simp only [zero_add, Dbl.sqrt]
  rw [if_neg (not_lt.mpr (distSq_nonneg x y))]

theorem IsSqrt.eq_zero_iff {K : Type} [LinearOrderedField K] {sq : K → K} (h : IsSqrt sq)
    {x : K} (hx : 0 ≤ x) : sq x = 0 ↔ x = 0 := by
  obtain ⟨_, h2⟩ := h x hx
  constructor
  · intro h0; rw [h0] at h2; simpa using h2.symm
  · intro h0; subst h0; simpa using h2

theorem isSqrt_real : IsSqrt Real.sqrt :=
  fun x hx => ⟨Real.sqrt_nonneg x, Real.mul_self_sqrt hx⟩

/-- In exact arithmetic, on an oracle state with finite coordinates and for
indices `a`, `b` in range, `InqDist(a,b) = 0` if and only if the points `a` and
`b` have the same coordinates.  (In binary64 the square of a small difference
rounds to `0`, and the points `2^-600` and `0` are at distance `0`.) -/
theorem InqDist_exact_eq_zero_iff {K : Type} [LinearOrderedField K] (sq : K → K)
    (hsq : IsSqrt sq) (o : oracle_t K) (hwf : o.WF) (hfin : o.Finite) (a b : Int)
    (ha0 : 0 ≤ a) (ha1 : a < o.npoints + o.nquery)
    (hb0 : 0 ≤ b) (hb1 : b < o.npoints + o.nquery) :
    (InqDist sq o a b = Except.ok (Dbl.fin 0) ↔
      o.sample.get? a.toNat = o.sample.get? b.toNat) ∧
    InqDist sq o a a = Except.ok (Dbl.fin 0) := by
  obtain ⟨x, y, gx, gy, hl, fx, fy, hd⟩ := InqDist_in_range sq o hwf hfin a b ha0 ha1 hb0 hb1
  obtain ⟨x1, y1, gx1, gy1, hl1, fx1, fy1, hd1⟩ :=
    InqDist_in_range sq o hwf hfin a a ha0 ha1 ha0 ha1
  constructor
  · rw [hd, gx, gy]
    simp only [Except.ok.injEq, Dbl.fin.injEq, Option.some.injEq]
    rw [hsq.eq_zero_iff (distSq_nonneg x y), distSq_eq_zero_iff x y hl fx fy]
  · rw [hd1]
    rw [gx1] at gy1
    cases gy1
    simp only [Except.ok.injEq, Dbl.fin.injEq]
    rw [hsq.eq_zero_iff (distSq_nonneg x1 x1), distSq_eq_zero_iff x1 x1 rfl fx1 fx1]

/-! ## GetVector -/

theorem GetVector.count_le {K : Type} (strtod : List Char → Dbl K × List Char) :
    ∀ (n : Nat) (np : List Char), GetVector.count strtod n np ≤ n
  | 0, _ => by simp [GetVector.count]
  | n + 1, np => by
    unfold GetVector.count
    split
    · have := GetVector.count_le strtod n (strtod np).2; omega
    · omega

theorem GetVector.fill_length {K : Type} (strtod : List Char → Dbl K × List Char) :
    ∀ (n : Nat) (np : List Char), (GetVector.fill strtod n np).length = n
  | 0, _ => by simp [GetVector.fill]
  | n + 1, np => by simp [GetVector.fill, GetVector.fill_length strtod n]

theorem GetVector.count_min {K : Type} (strtod : List Char → Dbl K × List Char) :
    ∀ (n m : Nat) (np : List Char), n ≤ m →
      GetVector.count strtod n np = min n (GetVector.count strtod m np)
  | 0, _, _, _ => by simp [GetVector.count]
  | n + 1, 0, _, h => by omega
  | n + 1, m + 1, np, h => by
    unfold GetVector.count
    split
    · rw [GetVector.count_min strtod n m _ (by omega)]
      omega
    · simp

/-- A line of exactly `k` numeric fields begins with `d` numeric fields for
every `d ≤ k`, and with no more than `k`. -/
theorem ExactlyFields.startsWith_iff {K : Type} (strtod : List Char → Dbl K × List Char)
    (k d : Nat) (line : List Char) (h : ExactlyFields strtod k line) :
    StartsWithFields strtod d line ↔ d ≤ k := by
  unfold ExactlyFields at h
  unfold StartsWithFields
  by_cases hd : d ≤ k
  · rw [GetVector.count_min strtod d (k + 1) line (by omega), h]
    simp [hd]
  · have := GetVector.count_min strtod (k + 1) d line (by omega)
    rw [h] at this
    constructor
    · intro h1; rw [h1] at this; omega
    · intro h1; omega

theorem GetVector_none_iff {K : Type} (strtod : List Char → Dbl K × List Char) (d : Nat) :
    ∀ fp : FILE, (GetVector strtod fp d).1 = none ↔
      ∀ l ∈ fp, ¬ StartsWithFields strtod d l
  | [] => by simp [GetVector]
  | line :: fp => by
    have ih := GetVector_none_iff strtod d fp
    unfold GetVector
    simp only [Int.toNat_ofNat, ne_eq, Nat.cast_inj, List.mem_cons, forall_eq_or_imp,
      StartsWithFields] at ih ⊢
    by_cases h : GetVector.count strtod d line = d
    · simp [h]
    · simp only [h, not_false_eq_true, if_true, ih, true_and]

theorem GetVector_some {K : Type} (strtod : List Char → Dbl K × List Char) (d : Nat) :
    ∀ (pre : FILE) (line : List Char) (rest : FILE),
      (∀ l ∈ pre, ¬ StartsWithFields strtod d l) → StartsWithFields strtod d line →
      GetVector strtod (pre ++ line :: rest) d = (some (GetVector.fill strtod d line), rest)
  | [], line, rest, _, h => by
    simp only [StartsWithFields] at h
    simp [GetVector, h]
  | l :: pre, line, rest, hpre, h => by
    have hl : GetVector.count strtod d l ≠ d := hpre l (List.mem_cons_self _ _)
    have ih := GetVector_some strtod d pre line rest
      (fun m hm => hpre m (List.mem_cons_of_mem _ hm)) h
    simp only [List.cons_append, GetVector, Int.toNat_ofNat, ne_eq, Nat.cast_inj, hl,
      not_false_eq_true, if_true]
    exact ih

theorem GetVector_some_inv {K : Type} (strtod : List Char → Dbl K × List Char) (d : Nat) :
    ∀ (fp : FILE) (v : List (Dbl K)) (rest : FILE),
      GetVector strtod fp d = (some v, rest) →
      ∃ pre line, fp = pre ++ line :: rest ∧
        (∀ l ∈ pre, ¬ StartsWithFields strtod d l) ∧ StartsWithFields strtod d line ∧
        v = GetVector.fill strtod d line
  | [], v, rest, h => by simp [GetVector] at h
  | l :: fp, v, rest, h => by
    unfold GetVector at h
    simp only [Int.toNat_ofNat, ne_eq, Nat.cast_inj] at h
    by_cases hl : GetVector.count strtod d l = d
    · simp only [hl, not_true_eq_false, if_false, Prod.mk.injEq, Option.some.injEq] at h
      exact ⟨[], l, by simp [h.2], by simp, hl, h.1.symm⟩
    · simp only [hl, not_false_eq_true, if_true] at h
      obtain ⟨pre, line, e, hp, hc, hv⟩ := GetVector_some_inv strtod d fp v rest h
      refine ⟨l :: pre, line, by simp [e], ?_, hc, hv⟩
      intro m hm
      rcases List.mem_cons.mp hm with rfl | hm
      · exact hl
      · exact hp m hm

/-- C10 (as stated, refuted): the only line of the stream has three numeric
fields, so no line has exactly two; `GetVector(fp,2,v)` does not skip it and
does not return `NULL`: it returns the first two values of that line. -/
theorem GetVector_accepts_longer_line :
    ExactlyFields (K := ℚ) strtod10 3 "1 2 3\n".toList ∧
    (∀ l ∈ ["1 2 3\n".toList], ¬ ExactlyFields (K := ℚ) strtod10 2 l) ∧
    GetVector (K := ℚ) strtod10 ["1 2 3\n".toList] 2 =
      (some [Dbl.fin 1, Dbl.fin 2], []) := by
  refine ⟨by decide, by decide, ?_⟩
  with_unfolding_all rfl

/-- C10 (amended): `GetVector(fp,d,v)` returns the first `d` values of the
first remaining line that begins with `d` numeric fields (a line of `d` fields
or more), skips every line before it, which all have fewer than `d` numeric
fields, and leaves the stream after that line; it returns `NULL` if and only
if no remaining line begins with `d` numeric fields. -/
theorem GetVector_first_line_with_d_fields {K : Type}
    (strtod : List Char → Dbl K × List Char) (d : Nat) (fp : FILE) :
    ((GetVector strtod fp d).1 = none ↔ ∀ l ∈ fp, ¬ StartsWithFields strtod d l) ∧
    (∀ (v : List (Dbl K)) (rest : FILE),
      GetVector strtod fp d = (some v, rest) ↔
        ∃ pre line, fp = pre ++ line :: rest ∧
          (∀ l ∈ pre, GetVector.count strtod d l < d) ∧
          StartsWithFields strtod d line ∧
          v = GetVector.fill strtod d line ∧ v.length = d) := by
  refine ⟨GetVector_none_iff strtod d fp, ?_⟩
  intro v rest
  constructor
  · intro h
    obtain ⟨pre, line, e, hp, hc, hv⟩ := GetVector_some_inv strtod d fp v rest h
    refine ⟨pre, line, e, ?_, hc, hv, by rw [hv, GetVector.fill_length]⟩
    intro l hl
    have h1 := GetVector.count_le strtod d l
    have h2 : GetVector.count strtod d l ≠ d := hp l hl
    omega
  · rintro ⟨pre, line, e, hp, hc, hv, -⟩
    rw [e, hv]
    refine GetVector_some strtod d pre line rest ?_ hc
    intro l hl h
    have h1 := hp l hl
    unfold StartsWithFields at h
    omega

/-! ## The normalisation of the priors -/

theorem Dbl.add_fin_of_isFin {K : Type} [LinearOrderedField K] (s : K) (b : Dbl K)
    (h : Dbl.isFin b = true) : Dbl.add (Dbl.fin s) b = Dbl.fin (s + Dbl.toK b) := by
  cases b with
  | fin x => simp [Dbl.add, Dbl.toK]
  | pinf => simp [Dbl.isFin] at h
  | ninf => simp [Dbl.isFin] at h
  | nan => simp [Dbl.isFin] at h

theorem priorSum_foldl_fin {K : Type} [LinearOrderedField K] :
    ∀ (gauss : List (gauss_t K)) (s : K), (∀ g ∈ gauss, Dbl.isFin g.prior_prob = true) →
      gauss.foldl (fun sum g => Dbl.add sum g.prior_prob) (Dbl.fin s) =
        Dbl.fin (s + weightSum gauss)
  | [], s, _ => by simp [weightSum]
  | g :: gauss, s, h => by
    have ih := priorSum_foldl_fin gauss (s + Dbl.toK g.prior_prob)
      (fun g1 h1 => h g1 (List.mem_cons_of_mem _ h1))
    rw [List.foldl_cons, Dbl.add_fin_of_isFin s _ (h g (List.mem_cons_self _ _)), ih]
    simp only [weightSum, priorVal, List.map_cons, List.sum_cons]
    rw [add_assoc]

theorem priorSum_fin {K : Type} [LinearOrderedField K] (gauss : List (gauss_t K))
    (h : ∀ g ∈ gauss, Dbl.isFin g.prior_prob = true) :
    priorSum gauss = Dbl.fin (weightSum gauss) := by
  unfold priorSum
  rw [priorSum_foldl_fin gauss 0 h, zero_add]

/-- The priors after the normalisation, for finite parsed weights. -/
theorem normalizePriors_prior {K : Type} [LinearOrderedField K] (gauss : List (gauss_t K))
    (hne : gauss ≠ []) (hfin : ∀ g ∈ gauss, Dbl.isFin g.prior_prob = true) :
    (normalizePriors gauss).map (fun g => g.prior_prob) =
      gauss.map (fun g =>
        Dbl.fin (priorVal g + (1 - weightSum gauss) / (gauss.length : K))) := by
  have hn : (gauss.length : K) ≠ 0 := by
    have : gauss.length ≠ 0 := fun h0 => hne (List.length_eq_zero.mp h0)
    exact_mod_cast this
  unfold normalizePriors
  rw [priorSum_fin gauss hfin]
  simp only [List.map_map]
  apply List.map_congr_left
  intro g hg
  simp only [Function.comp, Dbl.sub, Dbl.neg, Dbl.add, Dbl.div, hn, if_false, priorVal]
  cases hp : g.prior_prob with
  | fin w => simp only [Dbl.add, Dbl.toK]; congr 1; ring
  | pinf => have := hfin g hg; rw [hp] at this; simp [Dbl.isFin] at this
  | ninf => have := hfin g hg; rw [hp] at this; simp [Dbl.isFin] at this
  | nan => have := hfin g hg; rw [hp] at this; simp [Dbl.isFin] at this

theorem weightSum_normalized {K : Type} [LinearOrderedField K] (l : List (gauss_t K)) (r : K) :
    (l.map (fun g => priorVal g + r)).sum = weightSum l + (l.length : K) * r := by
  induction l with
  | nil => simp [weightSum]
  | cons g l ih =>
    simp only [List.map_cons, List.sum_cons, ih, weightSum, List.length_cons]
    push_cast
    ring

/-- C13: for a non-empty list of `n` components with parsed weights `w_i` of
sum `S`, the normalisation of `main` sets the prior of every component to
`w_i + (1 - S)/n`; when all the weights are `0` every prior becomes `1/n`. -/
theorem normalizePriors_spec {K : Type} [LinearOrderedField K] (gauss : List (gauss_t K))
    (hne : gauss ≠ []) (hfin : ∀ g ∈ gauss, Dbl.isFin g.prior_prob = true) :
    (normalizePriors gauss).map (fun g => g.prior_prob) =
      gauss.map (fun g =>
        Dbl.fin (priorVal g + (1 - weightSum gauss) / (gauss.length : K))) ∧
    ((∀ g ∈ gauss, g.prior_prob = Dbl.fin 0) →
      ∀ g ∈ normalizePriors gauss, g.prior_prob = Dbl.fin (1 / (gauss.length : K))) := by
  have h1 := normalizePriors_prior gauss hne hfin
  refine ⟨h1, ?_⟩
  intro h0 g hg
  have hw : weightSum gauss = 0 := by
    unfold weightSum
    apply List.sum_eq_zero
    intro x hx
    obtain ⟨g1, hg1, rfl⟩ := List.mem_map.mp hx
    simp [priorVal, h0 g1 hg1, Dbl.toK]
  have hm : g.prior_prob ∈ (normalizePriors gauss).map (fun g => g.prior_prob) :=
    List.mem_map_of_mem _ hg
  rw [h1] at hm
  obtain ⟨g1, hg1, e⟩ := List.mem_map.mp hm
  rw [← e, hw]
  simp [priorVal, h0 g1 hg1, Dbl.toK]

theorem normalizePriors_spec_witness :
    (normalizePriors [gaussOfPrior 0, gaussOfPrior 3]).map (fun g => g.prior_prob) =
      [gaussOfPrior 0, gaussOfPrior 3].map (fun g =>
        Dbl.fin (priorVal g + (1 - weightSum [gaussOfPrior 0, gaussOfPrior 3]) /
          (([gaussOfPrior 0, gaussOfPrior 3] : List (gauss_t ℚ)).length : ℚ))) ∧
    ((∀ g ∈ [gaussOfPrior 0, gaussOfPrior 3], g.prior_prob = Dbl.fin 0) →
      ∀ g ∈ normalizePriors [gaussOfPrior 0, gaussOfPrior 3],
        g.prior_prob =
          Dbl.fin (1 / (([gaussOfPrior 0, gaussOfPrior 3] : List (gauss_t ℚ)).length : ℚ))) :=
  normalizePriors_spec [gaussOfPrior 0, gaussOfPrior 3] (by simp)
    (by simp [gaussOfPrior, Dbl.isFin])

/-- In exact arithmetic, for a non-empty list of `n` components with finite
parsed weights `w_i` of sum `S`, the prior that the normalisation leaves in
component `i` is a finite number, which is non-negative exactly when
`S - 1 ≤ n * w_i`. -/
theorem normalizePriors_sign {K : Type} [LinearOrderedField K] (gauss : List (gauss_t K))
    (hne : gauss ≠ []) (hfin : ∀ g ∈ gauss, Dbl.isFin g.prior_prob = true) :
    (normalizePriors gauss).length = gauss.length ∧
    (∀ (i : Nat) (g : gauss_t K), gauss.get? i = some g →
      ∃ v : K,
        ((normalizePriors gauss).get? i).map (fun g1 => g1.prior_prob) = some (Dbl.fin v) ∧
        (0 ≤ v ↔ weightSum gauss - 1 ≤ (gauss.length : K) * priorVal g)) ∧
    ((∀ g ∈ gauss, 0 ≤ priorVal g) → weightSum gauss ≤ 1 →
      ∀ g ∈ normalizePriors gauss, ∃ v : K, g.prior_prob = Dbl.fin v ∧ 0 ≤ v) := by
  have hn : (0 : K) < (gauss.length : K) := by
    have : gauss.length ≠ 0 := fun h0 => hne (List.length_eq_zero.mp h0)
    exact_mod_cast Nat.pos_of_ne_zero this
  have hiff : ∀ g : gauss_t K,
      (0 ≤ priorVal g + (1 - weightSum gauss) / (gauss.length : K) ↔
        weightSum gauss - 1 ≤ (gauss.length : K) * priorVal g) := by
    intro g
    have e : priorVal g + (1 - weightSum gauss) / (gauss.length : K) =
        ((gauss.length : K) * priorVal g - (weightSum gauss - 1)) / (gauss.length : K) := by
      field_simp
      ring
    rw [e, div_nonneg_iff]
    constructor
    · rintro (⟨h1, _⟩ | ⟨_, h2⟩)
      · linarith
      · linarith
    · intro h
      exact Or.inl ⟨by linarith, le_of_lt hn⟩
  have hmap := normalizePriors_prior gauss hne hfin
  refine ⟨by simp [normalizePriors], ?_, ?_⟩
  · intro i g hg
    refine ⟨priorVal g + (1 - weightSum gauss) / (gauss.length : K), ?_, hiff g⟩
    have h1 := congrArg (fun l => l.get? i) hmap
    simp only [List.get?_eq_getElem?, List.getElem?_map] at h1
    rw [List.get?_eq_getElem?] at hg ⊢
    rw [h1, hg]
    rfl
  · intro hw hS g hg
    have hm : g.prior_prob ∈ (normalizePriors gauss).map (fun g => g.prior_prob) :=
      List.mem_map_of_mem _ hg
    rw [hmap] at hm
    obtain ⟨g1, hg1, e⟩ := List.mem_map.mp hm
    refine ⟨_, e.symm, ?_⟩
    rw [hiff g1]
    have := hw g1 hg1
    have : 0 ≤ (gauss.length : K) * priorVal g1 := mul_nonneg (le_of_lt hn) this
    linarith

/-- The priors that the normalisation leaves for the parsed weights `1/4`,
`1/2` and `2`, of sum `11/4`: the residual `-7/12` makes the first two
negative. -/
theorem normalizePriors_example :
    (normalizePriors [gaussOfPrior (1/4), gaussOfPrior (1/2), gaussOfPrior 2]).map
        (fun g => g.prior_prob) =
      [Dbl.fin (-1/3), Dbl.fin (-1/12), Dbl.fin (17/12)] := by
  with_unfolding_all rfl

/-- C18: for a non-empty list of components with finite parsed weights, the
priors after the normalisation are finite and their sum is exactly `1`. -/
theorem normalizePriors_sum_one {K : Type} [LinearOrderedField K] (gauss : List (gauss_t K))
    (hne : gauss ≠ []) (hfin : ∀ g ∈ gauss, Dbl.isFin g.prior_prob = true) :
    (∀ g ∈ normalizePriors gauss, Dbl.isFin g.prior_prob = true) ∧
    weightSum (normalizePriors gauss) = 1 ∧
    priorSum (normalizePriors gauss) = Dbl.fin 1 := by
  have hn : (gauss.length : K) ≠ 0 := by
    have : gauss.length ≠ 0 := fun h0 => hne (List.length_eq_zero.mp h0)
    exact_mod_cast this
  have h1 := normalizePriors_prior gauss hne hfin
  have hf : ∀ g ∈ normalizePriors gauss, Dbl.isFin g.prior_prob = true := by
    intro g hg
    have hm : g.prior_prob ∈ (normalizePriors gauss).map (fun g => g.prior_prob) :=
      List.mem_map_of_mem _ hg
    rw [h1] at hm
    obtain ⟨g1, _, e⟩ := List.mem_map.mp hm
    rw [← e]; rfl
  have hs : weightSum (normalizePriors gauss) = 1 := by
    have e : (normalizePriors gauss).map priorVal =
        ((normalizePriors gauss).map (fun g => g.prior_prob)).map Dbl.toK := by
      rw [List.map_map]; rfl
    unfold weightSum
    rw [e, h1, List.map_map]
    have e2 : (Dbl.toK ∘ fun g : gauss_t K =>
        Dbl.fin (priorVal g + (1 - weightSum gauss) / (gauss.length : K))) =
        fun g => priorVal g + (1 - weightSum gauss) / (gauss.length : K) := by
      funext g; rfl
    rw [e2, weightSum_normalized]
    field_simp
  refine ⟨hf, hs, ?_⟩
  rw [priorSum_fin _ hf, hs]

theorem normalizePriors_sum_one_witness :
    (∀ g ∈ normalizePriors [gaussOfPrior 0, gaussOfPrior 3],
      Dbl.isFin g.prior_prob = true) ∧
    weightSum (normalizePriors [gaussOfPrior 0, gaussOfPrior 3]) = 1 ∧
    priorSum (normalizePriors [gaussOfPrior 0, gaussOfPrior 3]) = Dbl.fin 1 :=
  normalizePriors_sum_one [gaussOfPrior 0, gaussOfPrior 3] (by simp)
    (by simp [gaussOfPrior, Dbl.isFin])

/-! ## The choice of a component -/

theorem selectLoop_spec {K : Type} [LinearOrderedField K] (n : Int) (p : Dbl K) :
    ∀ (rest : List (gauss_t K)) (j : Nat) (sum : Dbl K), rest ≠ [] →
      n = (j : Int) + rest.length →
      ∃ k : Nat, k < rest.length ∧ selectLoop n p rest j sum = Except.ok (j + k) ∧
        (∀ i < k, Dbl.lt p ((rest.take (i + 1)).foldl
          (fun s g => Dbl.add s g.prior_prob) sum) = false) ∧
        (Dbl.lt p ((rest.take (k + 1)).foldl
          (fun s g => Dbl.add s g.prior_prob) sum) = true ∨ k + 1 = rest.length)
  | [], _, _, h, _ => absurd rfl h
  | g :: rest, j, sum, _, hn => by
    unfold selectLoop
    by_cases hc : Dbl.lt p (Dbl.add sum g.prior_prob) = true ∨ (j : Int) = n - 1
    · rw [if_pos hc]
      refine ⟨0, by simp, by simp, by simp, ?_⟩
      rcases hc with h1 | h2
      · left; simpa using h1
      · right
        simp only [List.length_cons] at hn ⊢
        push_cast at hn
        omega
    · rw [if_neg hc]
      have hlt : Dbl.lt p (Dbl.add sum g.prior_prob) = false := by
        cases h : Dbl.lt p (Dbl.add sum g.prior_prob)
        · rfl
        · exact absurd (Or.inl h) hc
      have hj : ¬ ((j : Int) = n - 1) := fun h => hc (Or.inr h)
      have hrest : rest ≠ [] := by
        intro h0
        subst h0
        simp only [List.length_cons, List.length_nil] at hn
        push_cast at hn
        omega
      have hn1 : n = ((j + 1 : Nat) : Int) + rest.length := by
        simp only [List.length_cons] at hn
        push_cast at hn ⊢
        omega
      obtain ⟨k, hk, hsel, hlo, hhi⟩ :=
        selectLoop_spec n p rest (j + 1) (Dbl.add sum g.prior_prob) hrest hn1
      refine ⟨k + 1, by simp [hk], ?_, ?_, ?_⟩
      · rw [hsel]; congr 1; omega
      · intro i hi
        cases i with
        | zero => simpa using hlt
        | succ i => simpa using hlo i (by omega)
      · rcases hhi with h1 | h2
        · left; simpa using h1
        · right; simp [h2]

theorem InqField_color {K : Type} (fmtf : Dbl K → List Char) (o : oracle_t K)
    (hwf : o.WF) (p : Int) (h0 : 0 ≤ p) (h1 : p < o.npoints) (h2 : p < o.npoints + o.nquery)
    (c : Int) (hc : o.color.get? p.toNat = some c) :
    InqField fmtf o p 0 = Except.ok (some (toString c).toList) := by
  have hdim := hwf.dim_nonneg p h0 h2
  have hr : ¬ (p < 0 ∨ p ≥ o.npoints + o.nquery) := by omega
  have hf : ¬ ((0:Int) < 0 ∨ (0:Int) > o.dim) := by omega
  have hnp : ¬ (p ≥ o.npoints) := by omega
  have hrd : rd o.color p = Except.ok c := (rd_eq_ok_iff _ _ _).mpr ⟨h0, hc⟩
  simp only [InqField, hr, hf, if_false, if_true, hnp, hrd, fmtInt_eq_toString]

/-- C15: for a list of `n ≥ 1` components and a draw `p`, the loop of `main`
stops at an index `j < n`: the least `j` whose running sum
`prior_0 + ... + prior_j` exceeds `p` when there is one, and `n - 1`
otherwise; with a single component `j` is `0`, and field `0` of a training
point of colour `j` is then the string `0`. -/
theorem selectComponent_spec {K : Type} [LinearOrderedField K] (gauss : List (gauss_t K))
    (hne : gauss ≠ []) (p : Dbl K) :
    ∃ j : Nat, selectComponent gauss p = Except.ok j ∧ j < gauss.length ∧
      (∀ i < j, Dbl.lt p (runningSum gauss i) = false) ∧
      (Dbl.lt p (runningSum gauss j) = true ∨ j + 1 = gauss.length) ∧
      (gauss.length = 1 → j = 0 ∧
        ∀ (fmtf : Dbl K → List Char) (o : oracle_t K), o.WF → 0 < o.npoints →
          0 < o.npoints + o.nquery → o.color.get? 0 = some (j : Int) →
          InqField fmtf o 0 0 = Except.ok (some ['0'])) := by
  obtain ⟨k, hk, hsel, hlo, hhi⟩ :=
    selectLoop_spec (gauss.length : Int) p gauss 0 (Dbl.fin 0) hne (by simp)
  refine ⟨k, ?_, hk, hlo, hhi, ?_⟩
  · unfold selectComponent
    rw [hsel]; simp
  · intro h1
    have hk0 : k = 0 := by omega
    refine ⟨hk0, ?_⟩
    intro fmtf o hwf hnp hns hc
    subst hk0
    have := InqField_color fmtf o hwf 0 (le_refl _) hnp hns 0 (by simpa using hc)
    rw [this]
    rfl

theorem selectComponent_spec_witness :
    ∃ j : Nat, selectComponent [gaussOfPrior 1] (Dbl.fin (1/2)) = Except.ok j ∧
      j < [gaussOfPrior 1].length ∧
      (∀ i < j, Dbl.lt (Dbl.fin (1/2)) (runningSum [gaussOfPrior 1] i) = false) ∧
      (Dbl.lt (Dbl.fin (1/2)) (runningSum [gaussOfPrior 1] j) = true ∨
        j + 1 = [gaussOfPrior 1].length) ∧
      ([gaussOfPrior 1].length = 1 → j = 0 ∧
        ∀ (fmtf : Dbl ℚ → List Char) (o : oracle_t ℚ), o.WF → 0 < o.npoints →
          0 < o.npoints + o.nquery → o.color.get? 0 = some (j : Int) →
          InqField fmtf o 0 0 = Except.ok (some ['0'])) :=
  selectComponent_spec [gaussOfPrior 1] (by simp) (Dbl.fin (1/2))

/-! ## Sampling -/

theorem rdN_of_lt {α : Type} (a : List α) (i : Nat) (x0 : α) (h : i < a.length) :
    rdN a i = Except.ok (a.getD i x0) := by
  unfold rdN
  rw [List.get?_eq_get h]
  simp [List.getD_eq_getElem?_getD, List.getElem?_eq_getElem h]

theorem rdN_of_ge {α : Type} (a : List α) (i : Nat) (h : a.length ≤ i) :
    rdN a i = Except.error Abort.badAccess := by
  unfold rdN
  rw [List.get?_eq_none.mpr h]

theorem wrN_of_lt {α : Type} (a : List α) (i : Nat) (v : α) (h : i < a.length) :
    wrN a i v = Except.ok (a.set i v) := by
  unfold wrN
  rw [if_pos h]

theorem getD_set_eq {α : Type} (a : List α) (i k : Nat) (v x0 : α) (h : i < a.length) :
    (a.set i v).getD k x0 = if k = i then v else a.getD k x0 := by
  by_cases hk : k = i
  · subst hk
    rw [if_pos rfl, List.getD_eq_getElem?_getD, List.getElem?_set_self h]
    rfl
  · rw [if_neg hk, List.getD_eq_getElem?_getD, List.getD_eq_getElem?_getD,
      List.getElem?_set_ne (Ne.symm hk)]

theorem dbl_add_assoc {K : Type} [LinearOrderedField K] (a b c : Dbl K) :
    Dbl.add (Dbl.add a b) c = Dbl.add a (Dbl.add b c) := by
  cases a <;> cases b <;> cases c <;> simp [Dbl.add, add_assoc]

theorem dbl_add_zero {K : Type} [LinearOrderedField K] (a : Dbl K) :
    Dbl.add a (Dbl.fin 0) = a := by
  cases a <;> simp [Dbl.add]

theorem SampleGauss.init_spec {K : Type} (mean : List (Dbl K)) :
    ∀ (n i : Nat), i + n ≤ mean.length →
      SampleGauss.init mean n i = Except.ok ((mean.drop i).take n)
  | 0, i, _ => by simp [SampleGauss.init]
  | n + 1, i, h => by
    have hi : i < mean.length := by omega
    unfold SampleGauss.init
    rw [rdN_of_lt mean i (mean.get ⟨i, hi⟩) hi, SampleGauss.init_spec mean n (i + 1) (by omega)]
    simp only []
    have e : mean.getD i (mean.get ⟨i, hi⟩) = mean[i] := by
      simp [List.getD_eq_getElem?_getD, List.getElem?_eq_getElem hi]
    rw [e, List.drop_eq_getElem_cons hi, List.take_succ_cons]

theorem SampleGauss.diagLoop_spec {K : Type} [LinearOrderedField K] (dc aux : List (Dbl K))
    (d : Nat) (hdc : dc.length = d) (haux : aux.length = d) :
    ∀ (n i : Nat) (v : List (Dbl K)), i + n = d → v.length = d →
      ∃ v1, SampleGauss.diagLoop dc aux n i v = Except.ok v1 ∧ v1.length = d ∧
        ∀ k, v1.getD k Dbl.nan =
          if i ≤ k ∧ k < d then
            Dbl.add (v.getD k Dbl.nan) (Dbl.mul (dc.getD k Dbl.nan) (aux.getD k Dbl.nan))
          else v.getD k Dbl.nan
  | 0, i, v, hi, hv => by
    refine ⟨v, by simp [SampleGauss.diagLoop], hv, ?_⟩
    intro k
    have : ¬ (i ≤ k ∧ k < d) := by omega
    rw [if_neg this]
  | n + 1, i, v, hi, hv => by
    have hid : i < d := by omega
    unfold SampleGauss.diagLoop
    rw [rdN_of_lt v i Dbl.nan (by omega), rdN_of_lt dc i Dbl.nan (by omega),
      rdN_of_lt aux i Dbl.nan (by omega)]
    simp only []
    rw [wrN_of_lt v i _ (by omega)]
    simp only []
    obtain ⟨v1, h1, hl, hk⟩ := SampleGauss.diagLoop_spec dc aux d hdc haux n (i + 1)
      (v.set i (Dbl.add (v.getD i Dbl.nan)
        (Dbl.mul (dc.getD i Dbl.nan) (aux.getD i Dbl.nan)))) (by omega) (by simp [hv])
    refine ⟨v1, h1, hl, ?_⟩
    intro k
    rw [hk k, getD_set_eq v i k _ _ (by omega)]
    by_cases hki : k = i
    · subst hki
      have h1 : ¬ (k + 1 ≤ k ∧ k < d) := by omega
      have h2 : k ≤ k ∧ k < d := ⟨le_refl _, hid⟩
      rw [if_neg h1, if_pos rfl, if_pos h2]
    · by_cases hlt : i + 1 ≤ k ∧ k < d
      · have h2 : i ≤ k ∧ k < d := by omega
        rw [if_pos hlt, if_neg hki, if_pos h2]
      · have h2 : ¬ (i ≤ k ∧ k < d) := by omega
        rw [if_neg hlt, if_neg hki, if_neg h2]

theorem Mat.rd2_of_lt {K : Type} (L : Mat K) (i j : Nat) (hi : i < L.length)
    (hj : j < (L.getD i []).length) :
    L.rd2 i j = Except.ok ((L.getD i []).getD j Dbl.nan) := by
  unfold Mat.rd2
  rw [rdN_of_lt L i [] hi]
  simp only []
  rw [rdN_of_lt _ j Dbl.nan hj]

theorem SampleGauss.fullInner_spec {K : Type} [LinearOrderedField K] (L : Mat K)
    (aux : List (Dbl K)) (d i : Nat) (hid : i < d) (hL : i < L.length)
    (hrow : (L.getD i []).length = i + 1) (haux : aux.length = d) (x0 : Dbl K) :
    ∀ (n j : Nat) (v : List (Dbl K)), j + n = i + 1 → v.length = d →
      v.getD i Dbl.nan = Dbl.add x0
        (dsum (fun t => Dbl.mul ((L.getD i []).getD t Dbl.nan) (aux.getD t Dbl.nan)) j) →
      ∃ v1, SampleGauss.fullInner L aux i n j v = Except.ok v1 ∧ v1.length = d ∧
        v1.getD i Dbl.nan = Dbl.add x0
          (dsum (fun t => Dbl.mul ((L.getD i []).getD t Dbl.nan) (aux.getD t Dbl.nan))
            (i + 1)) ∧
        ∀ k, k ≠ i → v1.getD k Dbl.nan = v.getD k Dbl.nan
  | 0, j, v, hj, hv, hx => by
    have : j = i + 1 := by omega
    subst this
    exact ⟨v, by simp [SampleGauss.fullInner], hv, hx, fun _ _ => rfl⟩
  | n + 1, j, v, hj, hv, hx => by
    unfold SampleGauss.fullInner
    rw [rdN_of_lt v i Dbl.nan (by omega), Mat.rd2_of_lt L i j hL (by omega),
      rdN_of_lt aux j Dbl.nan (by omega)]
    simp only []
    rw [wrN_of_lt v i _ (by omega)]
    simp only []
    obtain ⟨v1, h1, hl, hi1, hk⟩ := SampleGauss.fullInner_spec L aux d i hid hL hrow haux x0 n
      (j + 1) (v.set i (Dbl.add (v.getD i Dbl.nan)
        (Dbl.mul ((L.getD i []).getD j Dbl.nan) (aux.getD j Dbl.nan)))) (by omega)
      (by simp [hv])
      (by rw [getD_set_eq v i i _ _ (by omega), if_pos rfl, hx, dbl_add_assoc]; rfl)
    refine ⟨v1, h1, hl, hi1, ?_⟩
    intro k hki
    rw [hk k hki, getD_set_eq v i k _ _ (by omega), if_neg hki]

theorem SampleGauss.fullLoop_spec {K : Type} [LinearOrderedField K] (L : Mat K)
    (aux : List (Dbl K)) (d : Nat) (hL : L.length = d)
    (hrow : ∀ i < L.length, (L.getD i []).length = i + 1) (haux : aux.length = d) :
    ∀ (n i : Nat) (v : List (Dbl K)), i + n = d → v.length = d →
      ∃ v1, SampleGauss.fullLoop L aux n i v = Except.ok v1 ∧ v1.length = d ∧
        ∀ k, v1.getD k Dbl.nan =
          if i ≤ k ∧ k < d then
            Dbl.add (v.getD k Dbl.nan)
              (dsum (fun t => Dbl.mul ((L.getD k []).getD t Dbl.nan) (aux.getD t Dbl.nan))
                (k + 1))
          else v.getD k Dbl.nan
  | 0, i, v, hi, hv => by
    refine ⟨v, by simp [SampleGauss.fullLoop], hv, ?_⟩
    intro k
    have : ¬ (i ≤ k ∧ k < d) := by omega
    rw [if_neg this]
  | n + 1, i, v, hi, hv => by
    have hid : i < d := by omega
    unfold SampleGauss.fullLoop
    obtain ⟨v1, h1, hl1, hi1, hk1⟩ := SampleGauss.fullInner_spec L aux d i hid (by omega)
      (hrow i (by omega)) haux (v.getD i Dbl.nan) (i + 1) 0 v (by omega) hv
      (by simp [dsum, dbl_add_zero])
    rw [h1]
    simp only []
    obtain ⟨v2, h2, hl2, hk2⟩ :=
      SampleGauss.fullLoop_spec L aux d hL hrow haux n (i + 1) v1 (by omega) hl1
    refine ⟨v2, h2, hl2, ?_⟩
    intro k
    rw [hk2 k]
    by_cases hki : k = i
    · subst hki
      have c1 : ¬ (k + 1 ≤ k ∧ k < d) := by omega
      have c2 : k ≤ k ∧ k < d := ⟨le_refl _, hid⟩
      rw [if_neg c1, if_pos c2, hi1]
    · by_cases hlt : i + 1 ≤ k ∧ k < d
      · have c2 : i ≤ k ∧ k < d := by omega
        rw [if_pos hlt, if_pos c2, hk1 k hki]
      · have c2 : ¬ (i ≤ k ∧ k < d) := by omega
        rw [if_neg hlt, if_neg c2, hk1 k hki]

theorem getD_map_range {K : Type} (z : Nat → Dbl K) (d t : Nat) (h : t < d) :
    ((List.range d).map z).getD t Dbl.nan = z t := by
  simp [List.getD_eq_getElem?_getD, h]

/-- C17: for a component of dimension `d` that satisfies the data model and
the draws `z 0`, ..., `z (d-1)` of `BoxMuller`, `SampleGauss` returns a vector
`v` of length `d` with `v[i] = mean[i] + dCholesky[i]*z[i]` for a Diagonal
component and `v[i] = mean[i] + (Cholesky[i][0]*z[0] + ... + Cholesky[i][i]*z[i])`
for a Full component. -/
theorem SampleGauss_spec {K : Type} [LinearOrderedField K] (mp : gauss_t K)
    (hwf : mp.WF) (z : Nat → Dbl K) :
    ∃ v, SampleGauss mp z = Except.ok v ∧ (v.length : Int) = mp.dim ∧
      (mp.type = DIAG → ∀ dc, mp.dCholesky = some dc → ∀ i < v.length,
        v.getD i Dbl.nan =
          Dbl.add (mp.mean.getD i Dbl.nan) (Dbl.mul (dc.getD i Dbl.nan) (z i))) ∧
      (mp.type ≠ DIAG → ∀ L : Mat K, mp.Cholesky = some L → ∀ i < v.length,
        v.getD i Dbl.nan =
          Dbl.add (mp.mean.getD i Dbl.nan)
            (dsum (fun j => Dbl.mul ((L.getD i []).getD j Dbl.nan) (z j)) (i + 1))) := by
  obtain ⟨hd0, hmean, hdiag, hfull⟩ := hwf
  have hneg : ¬ (mp.dim < 0) := by omega
  have hml : mp.mean.length = mp.dim.toNat := by omega
  have hinit := SampleGauss.init_spec mp.mean mp.dim.toNat 0 (by omega)
  have hv0 : (mp.mean.drop 0).take mp.dim.toNat = mp.mean := by
    rw [List.drop_zero, ← hml, List.take_length]
  rw [hv0] at hinit
  have haux : ((List.range mp.dim.toNat).map z).length = mp.dim.toNat := by simp
  unfold SampleGauss
  rw [if_neg hneg, hinit]
  simp only []
  by_cases ht : mp.type = DIAG
  · obtain ⟨dc, hdc, hlen⟩ := hdiag ht
    rw [if_pos ht, hdc]
    simp only []
    obtain ⟨v1, h1, hl, hk⟩ := SampleGauss.diagLoop_spec dc ((List.range mp.dim.toNat).map z)
      mp.dim.toNat (by omega) haux mp.dim.toNat 0 mp.mean (by omega) hml
    refine ⟨v1, h1, by omega, ?_, fun h => absurd ht h⟩
    intro _ dc1 hdc1 i hi
    have e : dc1 = dc := (Option.some.inj hdc1).symm
    subst e
    have c : 0 ≤ i ∧ i < mp.dim.toNat := by omega
    rw [hk i, if_pos c, getD_map_range z _ i (by omega)]
  · obtain ⟨L, hL, hlen, hrow⟩ := hfull ht
    rw [if_neg ht, hL]
    simp only []
    obtain ⟨v1, h1, hl, hk⟩ := SampleGauss.fullLoop_spec L ((List.range mp.dim.toNat).map z)
      mp.dim.toNat (by omega) hrow haux mp.dim.toNat 0 mp.mean (by omega) hml
    refine ⟨v1, h1, by omega, fun h => absurd h ht, ?_⟩
    intro _ L1 hL1 i hi
    have e : L1 = L := (Option.some.inj hL1).symm
    subst e
    have c : 0 ≤ i ∧ i < mp.dim.toNat := by omega
    rw [hk i, if_pos c]
    congr 1
    have hsum : ∀ n, n ≤ i + 1 →
        dsum (fun t => Dbl.mul ((L1.getD i []).getD t Dbl.nan)
          (((List.range mp.dim.toNat).map z).getD t Dbl.nan)) n =
        dsum (fun j => Dbl.mul ((L1.getD i []).getD j Dbl.nan) (z j)) n := by
      intro n
      induction n with
      | zero => intro _; rfl
      | succ n ih =>
        intro hn
        simp only [dsum]
        rw [ih (by omega), getD_map_range z _ n (by omega)]
    exact hsum (i + 1) (le_refl _)

theorem gaussOfPrior_WF (w : ℚ) : (gaussOfPrior w).WF := by
  refine ⟨by simp [gaussOfPrior], by simp [gaussOfPrior], ?_, ?_⟩
  · intro _
    exact ⟨[Dbl.fin 1], rfl, by simp [gaussOfPrior]⟩
  · intro h
    exact absurd rfl h

theorem SampleGauss_spec_witness :
    ∃ v, SampleGauss (gaussOfPrior 1) (fun _ => Dbl.fin 2) = Except.ok v ∧
      (v.length : Int) = (gaussOfPrior 1).dim ∧
      ((gaussOfPrior 1).type = DIAG → ∀ dc, (gaussOfPrior 1).dCholesky = some dc →
        ∀ i < v.length,
          v.getD i Dbl.nan =
            Dbl.add ((gaussOfPrior 1).mean.getD i Dbl.nan)
              (Dbl.mul (dc.getD i Dbl.nan) ((fun _ => Dbl.fin 2) i))) ∧
      ((gaussOfPrior 1).type ≠ DIAG → ∀ L : Mat ℚ, (gaussOfPrior 1).Cholesky = some L →
        ∀ i < v.length,
          v.getD i Dbl.nan =
            Dbl.add ((gaussOfPrior 1).mean.getD i Dbl.nan)
              (dsum (fun j => Dbl.mul ((L.getD i []).getD j Dbl.nan)
                ((fun _ => Dbl.fin 2) j)) (i + 1))) :=
  SampleGauss_spec (gaussOfPrior 1) (gaussOfPrior_WF 1) (fun _ => Dbl.fin 2)

/-- The sample of a Full component of factor `[[2],[1,3]]` and mean `(0,1)`
on the draws `1` and `1`. -/
theorem SampleGauss_full_example :
    SampleGauss (⟨['A'], 2, FULL, Dbl.fin 0, [Dbl.fin 0, Dbl.fin 1], none, none,
      some [[Dbl.fin 4], [Dbl.fin 2, Dbl.fin 10]],
      some [[Dbl.fin 2], [Dbl.fin 1, Dbl.fin 3]]⟩ : gauss_t ℚ) (fun _ => Dbl.fin 1) =
      Except.ok [Dbl.fin 2, Dbl.fin 5] := by
  with_unfolding_all rfl

/-! ## The triangle inequality -/

theorem IsSqrt.le_of_sq_le {K : Type} [LinearOrderedField K] {sq : K → K} (h : IsSqrt sq)
    {x y : K} (hx : 0 ≤ x) (hy : 0 ≤ y) (hxy : x ≤ y * y) : sq x ≤ y := by
  obtain ⟨h1, h2⟩ := h x hx
  by_contra hc
  push_neg at hc
  have : y * y < sq x * sq x := by nlinarith
  linarith

theorem plane_triangle {K : Type} [LinearOrderedField K] (u w B D E P Q : K)
    (hB : 0 ≤ B) (hD : 0 ≤ D) (hE0 : 0 ≤ E) (hP0 : 0 ≤ P) (hQ0 : 0 ≤ Q)
    (hP : P * P = u ^ 2 + B * B) (hQ : Q * Q = w ^ 2 + D * D) (hE : E ≤ B + D) :
    (u + w) ^ 2 + E * E ≤ (P + Q) * (P + Q) := by
  have hPQ : 0 ≤ P * Q := mul_nonneg hP0 hQ0
  have e1 : (P * Q) * (P * Q) = (u ^ 2 + B * B) * (w ^ 2 + D * D) := by
    rw [← hP, ← hQ]; ring
  have e2 : (u ^ 2 + B * B) * (w ^ 2 + D * D) - (u * w + B * D) * (u * w + B * D) =
      (u * D - w * B) ^ 2 := by ring
  have hsqle : (u * w + B * D) * (u * w + B * D) ≤ (P * Q) * (P * Q) := by
    have := sq_nonneg (u * D - w * B)
    linarith
  have hcs : u * w + B * D ≤ P * Q := by
    by_contra hc
    push_neg at hc
    have : (P * Q) * (P * Q) < (u * w + B * D) * (u * w + B * D) :=
      mul_lt_mul'' hc hc hPQ hPQ
    linarith
  have hEE : E * E ≤ (B + D) * (B + D) := mul_le_mul hE hE hE0 (by linarith)
  have e3 : (P + Q) * (P + Q) = P * P + Q * Q + 2 * (P * Q) := by ring
  have e4 : (u + w) ^ 2 + (B + D) * (B + D) =
      (u ^ 2 + B * B) + (w ^ 2 + D * D) + 2 * (u * w + B * D) := by ring
  rw [e3, hP, hQ]
  linarith

theorem distSq_triangle {K : Type} [LinearOrderedField K] (sq : K → K) (hsq : IsSqrt sq) :
    ∀ (x y z : List (Dbl K)), x.length = y.length → y.length = z.length →
      sq (distSq x z) ≤ sq (distSq x y) + sq (distSq y z)
  | [], y, z, _, _ => by
    have e : sq (0 : K) = 0 := (hsq.eq_zero_iff (le_refl _)).mpr rfl
    have h1 := (hsq _ (distSq_nonneg y z)).1
    have e0 : ∀ l : List (Dbl K), distSq [] l = 0 := fun l => by simp [distSq]
    rw [e0, e0, e]
    linarith
  | _ :: _, [], _, h, _ => by simp at h
  | _ :: _, _ :: _, [], _, h => by simp at h
  | a :: x, b :: y, c :: z, h1, h2 => by
    have ih := distSq_triangle sq hsq x y z (by simpa using h1) (by simpa using h2)
    simp only [distSq]
    obtain ⟨hB0, hB⟩ := hsq _ (distSq_nonneg x y)
    obtain ⟨hD0, hD⟩ := hsq _ (distSq_nonneg y z)
    obtain ⟨hE0, hE⟩ := hsq _ (distSq_nonneg x z)
    have hxy := distSq_nonneg x y
    have hyz := distSq_nonneg y z
    have hxz := distSq_nonneg x z
    obtain ⟨hP0, hP⟩ := hsq ((Dbl.toK a - Dbl.toK b) ^ 2 + distSq x y) (by positivity)
    obtain ⟨hQ0, hQ⟩ := hsq ((Dbl.toK b - Dbl.toK c) ^ 2 + distSq y z) (by positivity)
    have huw : Dbl.toK a - Dbl.toK c = (Dbl.toK a - Dbl.toK b) + (Dbl.toK b - Dbl.toK c) := by
      ring
    rw [huw]
    apply hsq.le_of_sq_le (by positivity) (by linarith)
    have key := plane_triangle (Dbl.toK a - Dbl.toK b) (Dbl.toK b - Dbl.toK c)
      (sq (distSq x y)) (sq (distSq y z)) (sq (distSq x z)) _ _ hB0 hD0 hE0 hP0 hQ0
      (by rw [hP, hB]) (by rw [hQ, hD]) ih
    rw [hE] at key
    exact key

/-! ## Positive definite matrices: the pivots -/

theorem symEntry_comm {K : Type} [LinearOrderedField K] (A : List (List K)) (r c : Nat) :
    symEntry A r c = symEntry A c r := by
  unfold symEntry
  rw [max_comm, min_comm]

theorem schur_comm {K : Type} [LinearOrderedField K] (sq : K → K) (A : List (List K)) :
    ∀ (i r c : Nat), schur sq A i r c = schur sq A i c r
  | 0, r, c => by simp only [schur]; exact symEntry_comm A r c
  | i + 1, r, c => by
    simp only [schur]
    rw [schur_comm sq A i r c, mul_comm]

theorem bil_add_left {K : Type} [LinearOrderedField K] (T : Nat → Nat → K) (d : Nat)
    (u u1 v : Nat → K) :
    bil T d (fun r => u r + u1 r) v = bil T d u v + bil T d u1 v := by
  simp only [bil, add_mul, Finset.sum_add_distrib]

theorem bil_add_right {K : Type} [LinearOrderedField K] (T : Nat → Nat → K) (d : Nat)
    (u v v1 : Nat → K) :
    bil T d u (fun r => v r + v1 r) = bil T d u v + bil T d u v1 := by
  simp only [bil, mul_add, Finset.sum_add_distrib]

theorem bil_smul_left {K : Type} [LinearOrderedField K] (T : Nat → Nat → K) (d : Nat)
    (a : K) (u v : Nat → K) :
    bil T d (fun r => a * u r) v = a * bil T d u v := by
  simp only [bil, Finset.mul_sum, mul_assoc]

theorem bil_smul_right {K : Type} [LinearOrderedField K] (T : Nat → Nat → K) (d : Nat)
    (a : K) (u v : Nat → K) :
    bil T d u (fun r => a * v r) = a * bil T d u v := by
  simp only [bil, Finset.mul_sum]
  apply Finset.sum_congr rfl
  intro r _
  apply Finset.sum_congr rfl
  intro c _
  ring

theorem bil_ind_left {K : Type} [LinearOrderedField K] (T : Nat → Nat → K) (d i : Nat)
    (hi : i < d) (v : Nat → K) :
    bil T d (fun r => if r = i then 1 else 0) v = ∑ c in Finset.range d, T i c * v c := by
  simp only [bil, ite_mul, one_mul, zero_mul]
  rw [Finset.sum_eq_single i]
  · simp
  · intro b _ hb
    simp [hb]
  · intro h
    exact absurd (Finset.mem_range.mpr hi) h

theorem bil_ind_right {K : Type} [LinearOrderedField K] (T : Nat → Nat → K) (d i : Nat)
    (hi : i < d) (u : Nat → K) :
    bil T d u (fun c => if c = i then 1 else 0) = ∑ r in Finset.range d, u r * T r i := by
  simp only [bil, mul_ite, mul_one, mul_zero]
  apply Finset.sum_congr rfl
  intro r _
  rw [Finset.sum_eq_single i]
  · simp
  · intro b _ hb
    simp [hb]
  · intro h
    exact absurd (Finset.mem_range.mpr hi) h

theorem bil_schur_succ {K : Type} [LinearOrderedField K] (sq : K → K) (A : List (List K))
    (d i : Nat) (y : Nat → K) (hs : 0 < schur sq A i i i) (hsq : IsSqrt sq) :
    bil (schur sq A (i + 1)) d y y =
      bil (schur sq A i) d y y -
        (∑ r in Finset.range d, y r * schur sq A i r i) *
          (∑ c in Finset.range d, schur sq A i c i * y c) / schur sq A i i i := by
  obtain ⟨hq0, hq⟩ := hsq (schur sq A i i i) (le_of_lt hs)
  have hqne : sq (schur sq A i i i) ≠ 0 := by
    intro h0
    rw [h0] at hq
    simp at hq
    linarith
  have hsne : schur sq A i i i ≠ 0 := ne_of_gt hs
  rw [Finset.sum_mul_sum, Finset.sum_div]
  simp only [bil]
  rw [← Finset.sum_sub_distrib]
  apply Finset.sum_congr rfl
  intro r _
  rw [Finset.sum_div, ← Finset.sum_sub_distrib]
  apply Finset.sum_congr rfl
  intro c _
  simp only [schur]
  have e : schur sq A i r i / sq (schur sq A i i i) * (schur sq A i c i / sq (schur sq A i i i))
      = schur sq A i r i * schur sq A i c i / schur sq A i i i := by
    rw [div_mul_div_comm, hq]
  rw [e]
  field_simp
  ring

theorem bil_schur_zero {K : Type} [LinearOrderedField K] (sq : K → K) (A : List (List K))
    (d : Nat) (y : Nat → K) : bil (schur sq A 0) d y y = quadForm d A y := by
  simp only [bil, quadForm, schur]

theorem bil_ind_ind {K : Type} [LinearOrderedField K] (T : Nat → Nat → K) (d i : Nat)
    (hi : i < d) :
    bil T d (fun r => if r = i then 1 else 0) (fun r => if r = i then 1 else 0) = T i i := by
  rw [bil_ind_left T d i hi, Finset.sum_eq_single i]
  · simp
  · intro b _ hb
    simp [hb]
  · intro h
    exact absurd (Finset.mem_range.mpr hi) h

theorem schur_pd {K : Type} [LinearOrderedField K] (sq : K → K) (hsq : IsSqrt sq)
    (A : List (List K)) (d : Nat) (hpd : IsPD d A) :
    ∀ i, i ≤ d → ∀ y : Nat → K, (∀ r < i, y r = 0) → (∃ r, r < d ∧ y r ≠ 0) →
      0 < bil (schur sq A i) d y y := by
  intro i
  induction i with
  | zero =>
    intro _ y _ hy
    rw [bil_schur_zero]
    exact hpd y hy
  | succ i ih =>
    intro hid y hy0 hyne
    have hi : i < d := by omega
    have ihi := ih (by omega)
    -- the pivot is positive
    have hs : 0 < schur sq A i i i := by
      have := ihi (fun r => if r = i then 1 else 0)
        (by intro r hr; have : r ≠ i := by omega
            simp [this])
        ⟨i, hi, by simp⟩
      rwa [bil_ind_ind _ d i hi] at this
    have hsne : schur sq A i i i ≠ 0 := ne_of_gt hs
    have hβ : (∑ r in Finset.range d, y r * schur sq A i r i) =
        ∑ c in Finset.range d, schur sq A i i c * y c := by
      apply Finset.sum_congr rfl
      intro r _
      rw [schur_comm sq A i r i, mul_comm]
    have hβ2 : (∑ c in Finset.range d, schur sq A i c i * y c) =
        ∑ c in Finset.range d, schur sq A i i c * y c := by
      apply Finset.sum_congr rfl
      intro c _
      rw [schur_comm sq A i c i]
    rw [bil_schur_succ sq A d i y hs hsq, hβ, hβ2]
    set β := ∑ c in Finset.range d, schur sq A i i c * y c with hβdef
    set e : Nat → K := fun r => if r = i then 1 else 0 with he
    set α : K := -β / schur sq A i i i with hα
    have hx := ihi (fun r => y r + α * e r)
      (by intro r hr
          have h1 : y r = 0 := hy0 r (by omega)
          have h2 : r ≠ i := by omega
          simp [h1, he, h2])
      (by obtain ⟨r, hr, hne⟩ := hyne
          have hri : r ≠ i := by
            intro h
            subst h
            exact hne (hy0 r (by omega))
          exact ⟨r, hr, by simp [he, hri, hne]⟩)
    have e1 : bil (schur sq A i) d (fun r => y r + α * e r) (fun r => y r + α * e r) =
        bil (schur sq A i) d y y + α * β + (α * β + α * (α * schur sq A i i i)) := by
      have a1 := bil_add_left (schur sq A i) d y (fun r => α * e r) (fun r => y r + α * e r)
      have a2 := bil_add_right (schur sq A i) d y y (fun r => α * e r)
      have a3 := bil_add_right (schur sq A i) d (fun r => α * e r) y (fun r => α * e r)
      have a4 := bil_smul_right (schur sq A i) d α y e
      have a5 := bil_smul_left (schur sq A i) d α e y
      have a6 := bil_smul_left (schur sq A i) d α e (fun r => α * e r)
      have a7 := bil_smul_right (schur sq A i) d α e e
      have a8 := bil_ind_left (schur sq A i) d i hi y
      have a9 := bil_ind_right (schur sq A i) d i hi y
      have a10 := bil_ind_ind (schur sq A i) d i hi
      simp only [] at a1 a2 a3
      rw [a1, a2, a3, a4, a5, a6, a7, a8, a9, a10, hβ]
    rw [e1] at hx
    have e2 : bil (schur sq A i) d y y + α * β + (α * β + α * (α * schur sq A i i i)) =
        bil (schur sq A i) d y y - β * β / schur sq A i i i := by
      rw [hα]
      field_simp
      ring
    rw [e2] at hx
    exact hx

theorem schur_pivot_pos {K : Type} [LinearOrderedField K] (sq : K → K) (hsq : IsSqrt sq)
    (A : List (List K)) (d : Nat) (hpd : IsPD d A) (i : Nat) (hi : i < d) :
    0 < schur sq A i i i := by
  have := schur_pd sq hsq A d hpd i (by omega) (fun r => if r = i then 1 else 0)
    (by intro r hr; have : r ≠ i := by omega
        simp [this])
    ⟨i, hi, by simp⟩
  rwa [bil_ind_ind _ d i hi] at this

theorem sqrt_pivot_pos {K : Type} [LinearOrderedField K] (sq : K → K) (hsq : IsSqrt sq)
    (A : List (List K)) (d : Nat) (hpd : IsPD d A) (i : Nat) (hi : i < d) :
    0 < sq (schur sq A i i i) := by
  have hs := schur_pivot_pos sq hsq A d hpd i hi
  obtain ⟨h0, h1⟩ := hsq _ (le_of_lt hs)
  rcases lt_or_eq_of_le h0 with h | h
  · exact h
  · rw [← h] at h1
    simp at h1
    linarith

/-! ## Cholesky on a positive definite matrix -/

theorem Mat.wr2_spec {K : Type} (M : Mat K) (d i j : Nat) (v : Dbl K) (hs : TriShape d M)
    (hij : i ≤ j) (hj : j < d) :
    ∃ M1 : Mat K, M.wr2 j i v = Except.ok M1 ∧ TriShape d M1 ∧
      ∀ r c, (M1.getD r []).getD c Dbl.nan =
        if r = j ∧ c = i then v else (M.getD r []).getD c Dbl.nan := by
  obtain ⟨hlen, hrow⟩ := hs
  have hjl : j < M.length := by omega
  have hil : i < (M.getD j []).length := by rw [hrow j hj]; omega
  refine ⟨M.set j ((M.getD j []).set i v), ?_, ⟨by simp [hlen], ?_⟩, ?_⟩
  · unfold Mat.wr2
    rw [rdN_of_lt M j [] hjl]
    simp only []
    rw [wrN_of_lt _ i v hil]
    simp only []
    rw [wrN_of_lt M j _ hjl]
  · intro r hr
    rw [getD_set_eq M j r _ _ hjl]
    by_cases hrj : r = j
    · subst hrj
      rw [if_pos rfl, List.length_set, hrow r hr]
    · rw [if_neg hrj, hrow r hr]
  · intro r c
    rw [getD_set_eq M j r _ _ hjl]
    by_cases hrj : r = j
    · subst hrj
      rw [if_pos rfl, getD_set_eq _ i c _ _ hil]
      by_cases hci : c = i
      · rw [if_pos hci, if_pos ⟨rfl, hci⟩]
      · have : ¬ (r = r ∧ c = i) := fun h => hci h.2
        rw [if_neg hci, if_neg this]
    · have : ¬ (r = j ∧ c = i) := fun h => hrj h.1
      rw [if_neg hrj, if_neg this]

theorem HoldsTri.rd2 {K : Type} [LinearOrderedField K] {d : Nat} {M : Mat K}
    {f : Nat → Nat → K} (h : HoldsTri d M f) (r c : Nat) (hc : c ≤ r) (hr : r < d) :
    M.rd2 r c = Except.ok (Dbl.fin (f r c)) := by
  obtain ⟨⟨hlen, hrow⟩, hval⟩ := h
  rw [Mat.rd2_of_lt M r c (by omega) (by rw [hrow r hr]; omega), hval r c hc hr]

theorem schur_succ {K : Type} [LinearOrderedField K] (sq : K → K) (A : List (List K))
    (i r c : Nat) :
    schur sq A (i + 1) r c = schur sq A i r c - factorEntry sq A r i * factorEntry sq A c i := by
  simp only [schur, factorEntry]

theorem Cholesky.kLoop_spec {K : Type} [LinearOrderedField K] (sq : K → K)
    (A : List (List K)) (d i j jj : Nat) (M : Mat K)
    (hM : HoldsTri d M (cholState sq A i jj)) (hij : i ≤ j) (hj : j < d) :
    ∀ (n : Nat) (a : K), n ≤ i →
      Cholesky.kLoop M i j n (Dbl.fin a) =
        Except.ok (Dbl.fin (a + schur sq A n j i - symEntry A j i))
  | 0, a, _ => by
    simp [Cholesky.kLoop, schur]
  | n + 1, a, hn => by
    unfold Cholesky.kLoop
    rw [hM.rd2 i n (by omega) (by omega), hM.rd2 j n (by omega) (by omega)]
    simp only []
    have c1 : cholState sq A i jj i n = factorEntry sq A i n := by
      unfold cholState
      rw [if_pos (Or.inl (by omega))]
    have c2 : cholState sq A i jj j n = factorEntry sq A j n := by
      unfold cholState
      rw [if_pos (Or.inl (by omega))]
    rw [c1, c2]
    simp only [Dbl.sub, Dbl.neg, Dbl.mul, Dbl.add]
    rw [Cholesky.kLoop_spec sq A d i j jj M hM hij hj n _ (by omega), schur_succ]
    congr 2
    ring

theorem factorEntry_diag {K : Type} [LinearOrderedField K] (sq : K → K) (hsq : IsSqrt sq)
    (A : List (List K)) (i : Nat) (hs : 0 < schur sq A i i i) :
    factorEntry sq A i i = sq (schur sq A i i i) := by
  obtain ⟨h0, h1⟩ := hsq _ (le_of_lt hs)
  have hne : sq (schur sq A i i i) ≠ 0 := by
    intro h
    rw [h] at h1
    simp at h1
    linarith
  unfold factorEntry
  rw [div_eq_iff hne]
  exact h1.symm

theorem Cholesky.body_spec {K : Type} [LinearOrderedField K] (sq : K → K) (hsq : IsSqrt sq)
    (A : List (List K)) (d : Nat) (hpd : IsPD d A) (i j : Nat) (M : Mat K)
    (hM : HoldsTri d M (cholState sq A i j)) (hij : i ≤ j) (hj : j < d) :
    ∃ M1 : Mat K, Cholesky.body sq M i j = Except.ok M1 ∧
      HoldsTri d M1 (cholState sq A i (j + 1)) := by
  have hs := schur_pivot_pos sq hsq A d hpd i (by omega)
  have hq := sqrt_pivot_pos sq hsq A d hpd i (by omega)
  have hdiag := factorEntry_diag sq hsq A i hs
  have r0 : cholState sq A i j j i = symEntry A j i := by
    unfold cholState
    rw [if_neg (by omega)]
  unfold Cholesky.body
  rw [hM.rd2 j i hij hj]
  simp only []
  rw [r0, Cholesky.kLoop_spec sq A d i j j M hM hij hj i _ (le_refl _)]
  simp only []
  have haux : symEntry A j i + schur sq A i j i - symEntry A j i = schur sq A i j i := by ring
  rw [haux]
  -- the state after the write
  have hnew : ∀ (v : K), v = factorEntry sq A j i →
      ∃ M1 : Mat K, M.wr2 j i (Dbl.fin v) = Except.ok M1 ∧
        HoldsTri d M1 (cholState sq A i (j + 1)) := by
    intro v hv
    obtain ⟨M1, h1, hsh, hent⟩ := Mat.wr2_spec M d i j (Dbl.fin v) hM.1 hij hj
    refine ⟨M1, h1, hsh, ?_⟩
    intro r c hcr hr
    rw [hent r c]
    by_cases hrc : r = j ∧ c = i
    · obtain ⟨rfl, rfl⟩ := hrc
      rw [if_pos ⟨rfl, rfl⟩, hv]
      unfold cholState
      rw [if_pos (Or.inr ⟨rfl, by omega⟩)]
    · rw [if_neg hrc, hM.2 r c hcr hr]
      unfold cholState
      have : (c < i ∨ c = i ∧ r < j) ↔ (c < i ∨ c = i ∧ r < j + 1) := by
        constructor
        · rintro (h | ⟨h1, h2⟩)
          · exact Or.inl h
          · exact Or.inr ⟨h1, by omega⟩
        · rintro (h | ⟨h1, h2⟩)
          · exact Or.inl h
          · have : r ≠ j := fun e => hrc ⟨e, h1⟩
            exact Or.inr ⟨h1, by omega⟩
      by_cases hc : c < i ∨ c = i ∧ r < j
      · rw [if_pos hc, if_pos (this.mp hc)]
      · rw [if_neg hc, if_neg (fun h => hc (this.mpr h))]
  by_cases hieq : i = j
  · subst hieq
    rw [if_pos rfl]
    have hlt : Dbl.lt (Dbl.fin (schur sq A i i i)) (Dbl.fin 0) = false := by
      simp only [Dbl.lt, decide_eq_false_iff_not, not_lt]
      exact le_of_lt hs
    rw [hlt]
    simp only [Bool.false_eq_true, if_false, Dbl.sqrt]
    rw [if_neg (not_lt.mpr (le_of_lt hs))]
    exact hnew _ hdiag.symm
  · rw [if_neg hieq]
    have hii : cholState sq A i j i i = factorEntry sq A i i := by
      unfold cholState
      rw [if_pos (Or.inr ⟨rfl, by omega⟩)]
    rw [hM.rd2 i i (le_refl _) (by omega), hii, hdiag]
    simp only [Dbl.div]
    rw [if_neg (ne_of_gt hq)]
    exact hnew _ rfl

theorem Cholesky.jLoop_spec {K : Type} [LinearOrderedField K] (sq : K → K) (hsq : IsSqrt sq)
    (A : List (List K)) (d : Nat) (hpd : IsPD d A) (i : Nat) :
    ∀ (n : Nat) (M : Mat K), i + n ≤ d →
      HoldsTri d M (cholState sq A i (d - n)) →
      ∃ M1 : Mat K, Cholesky.jLoop sq d i n M = Except.ok M1 ∧
        HoldsTri d M1 (cholState sq A i d)
  | 0, M, _, hM => ⟨M, by simp [Cholesky.jLoop], by simpa using hM⟩
  | n + 1, M, hn, hM => by
    unfold Cholesky.jLoop
    obtain ⟨M1, h1, hM1⟩ := Cholesky.body_spec sq hsq A d hpd i (d - (n + 1)) M hM
      (by omega) (by omega)
    rw [h1]
    simp only []
    have e : d - (n + 1) + 1 = d - n := by omega
    rw [e] at hM1
    exact Cholesky.jLoop_spec sq hsq A d hpd i n M1 (by omega) hM1

theorem Cholesky.iLoop_spec {K : Type} [LinearOrderedField K] (sq : K → K) (hsq : IsSqrt sq)
    (A : List (List K)) (d : Nat) (hpd : IsPD d A) :
    ∀ (n : Nat) (M : Mat K), n ≤ d →
      HoldsTri d M (cholState sq A (d - n) (d - n)) →
      ∃ M1 : Mat K, Cholesky.iLoop sq d n M = Except.ok M1 ∧
        HoldsTri d M1 (cholState sq A d d)
  | 0, M, _, hM => ⟨M, by simp [Cholesky.iLoop], by simpa using hM⟩
  | n + 1, M, hn, hM => by
    unfold Cholesky.iLoop
    have e0 : d - (d - (n + 1)) = n + 1 := by omega
    obtain ⟨M1, h1, hM1⟩ := Cholesky.jLoop_spec sq hsq A d hpd (d - (n + 1)) (n + 1) M
      (by omega) (by rw [← e0] at hM; simpa [e0] using hM)
    rw [h1]
    simp only []
    apply Cholesky.iLoop_spec sq hsq A d hpd n M1 (by omega)
    refine ⟨hM1.1, ?_⟩
    intro r c hcr hr
    rw [hM1.2 r c hcr hr]
    unfold cholState
    have : (c < d - (n + 1) ∨ c = d - (n + 1) ∧ r < d) ↔
        (c < d - n ∨ c = d - n ∧ r < d - n) := by
      constructor
      · rintro (h | ⟨h1, _⟩)
        · exact Or.inl (by omega)
        · exact Or.inl (by omega)
      · rintro (h | ⟨h1, h2⟩)
        · by_cases hc : c < d - (n + 1)
          · exact Or.inl hc
          · exact Or.inr ⟨by omega, hr⟩
        · omega
    by_cases hc : c < d - (n + 1) ∨ c = d - (n + 1) ∧ r < d
    · rw [if_pos hc, if_pos (this.mp hc)]
    · rw [if_neg hc, if_neg (fun h => hc (this.mpr h))]

theorem getD_map_fin {K : Type} (row : List K) (c : Nat) (x0 : K) (hc : c < row.length) :
    (row.map Dbl.fin).getD c Dbl.nan = Dbl.fin (row.getD c x0) := by
  simp [List.getD_eq_getElem?_getD, List.getElem?_eq_getElem hc]

theorem Mat.ofReals_holds {K : Type} [LinearOrderedField K] (sq : K → K) (A : List (List K))
    (d : Nat) (hA : TriShape d A) : HoldsTri d (Mat.ofReals A) (cholState sq A 0 0) := by
  obtain ⟨hlen, hrow⟩ := hA
  have hrowmap : ∀ r, (Mat.ofReals A).getD r [] = (A.getD r []).map Dbl.fin := by
    intro r
    unfold Mat.ofReals
    by_cases hr : r < A.length
    · simp [List.getD_eq_getElem?_getD, List.getElem?_eq_getElem hr]
    · have : A.length ≤ r := by omega
      simp [List.getD_eq_getElem?_getD, List.getElem?_eq_none this]
  refine ⟨⟨by simp [Mat.ofReals, hlen], ?_⟩, ?_⟩
  · intro r hr
    rw [hrowmap, List.length_map, hrow r hr]
  · intro r c hcr hr
    rw [hrowmap]
    have hc : c < (A.getD r []).length := by rw [hrow r hr]; omega
    have e : cholState sq A 0 0 r c = (A.getD r []).getD c 0 := by
      unfold cholState symEntry
      rw [if_neg (by omega), max_eq_left hcr, min_eq_right hcr]
    rw [e, getD_map_fin _ c 0 hc]

theorem schur_succ_self {K : Type} [LinearOrderedField K] (sq : K → K) (hsq : IsSqrt sq)
    (A : List (List K)) (i j : Nat) (hs : 0 < schur sq A j j j) :
    schur sq A (j + 1) i j = 0 := by
  obtain ⟨h0, h1⟩ := hsq _ (le_of_lt hs)
  have hne : sq (schur sq A j j j) ≠ 0 := by
    intro h
    rw [h] at h1
    simp at h1
    linarith
  rw [schur_succ, factorEntry_diag sq hsq A j hs]
  unfold factorEntry
  field_simp

theorem rowDot_factor {K : Type} [LinearOrderedField K] (sq : K → K) (A : List (List K))
    (d : Nat) (L : Mat K) (hL : HoldsTri d L (factorEntry sq A)) (i j : Nat) (hji : j ≤ i)
    (hi : i < d) :
    ∀ n, n ≤ j + 1 → rowDot L i j n = Dbl.fin (symEntry A i j - schur sq A n i j)
  | 0, _ => by simp [rowDot, schur]
  | n + 1, hn => by
    simp only [rowDot]
    rw [rowDot_factor sq A d L hL i j hji hi n (by omega), hL.2 i n (by omega) hi,
      hL.2 j n (by omega) (by omega), schur_succ]
    simp only [Dbl.mul, Dbl.add]
    congr 1
    ring

/-- The run of `Cholesky` on a positive definite matrix: the factor it
leaves. -/
theorem Cholesky_pd_factor {K : Type} [LinearOrderedField K] (sq : K → K) (hsq : IsSqrt sq)
    (d : Nat) (A : List (List K)) (hA : TriShape d A) (hpd : IsPD d A) :
    ∃ L : Mat K, Cholesky sq d (Mat.ofReals A) = Except.ok L ∧
      HoldsTri d L (factorEntry sq A) ∧
      (∀ i < d, 0 < factorEntry sq A i i) ∧ IsFactor d L A := by
  obtain ⟨L, h1, hL⟩ := Cholesky.iLoop_spec sq hsq A d hpd d (Mat.ofReals A) (le_refl _)
    (by simpa using Mat.ofReals_holds sq A d hA)
  have hL1 : HoldsTri d L (factorEntry sq A) := by
    refine ⟨hL.1, ?_⟩
    intro r c hcr hr
    rw [hL.2 r c hcr hr]
    unfold cholState
    rw [if_pos (Or.inl (by omega))]
  refine ⟨L, h1, hL1, ?_, ?_⟩
  · intro i hi
    rw [factorEntry_diag sq hsq A i (schur_pivot_pos sq hsq A d hpd i hi)]
    exact sqrt_pivot_pos sq hsq A d hpd i hi
  · intro i j hji hi
    rw [rowDot_factor sq A d L hL1 i j hji hi (j + 1) (le_refl _),
      schur_succ_self sq hsq A i j (schur_pivot_pos sq hsq A d hpd j (by omega)), sub_zero]

/-! ## The header of a Gaussian -/

theorem headerTokens_of_no_token (line : List Char) (h1 : strtok line = none) :
    headerTokens line = none := by
  unfold headerTokens
  rw [h1]

theorem headerTokens_of_other (line t1 r1 : List Char) (h1 : strtok line = some (t1, r1))
    (hg : t1 ≠ "GAUSS".toList) : headerTokens line = none := by
  unfold headerTokens
  rw [h1]
  simp only []
  rw [if_pos hg]

theorem headerTokens_of_no_label (line t1 r1 : List Char)
    (h1 : strtok line = some (t1, r1)) (hg : ¬ t1 ≠ "GAUSS".toList)
    (h2 : strtok r1 = none) : headerTokens line = none := by
  unfold headerTokens
  rw [h1]
  simp only []
  rw [if_neg hg, h2]

theorem headerTokens_of_no_dim (line t1 r1 lab r2 : List Char)
    (h1 : strtok line = some (t1, r1)) (hg : ¬ t1 ≠ "GAUSS".toList)
    (h2 : strtok r1 = some (lab, r2)) (h3 : strtok r2 = none) :
    headerTokens line = some (lab, none) := by
  unfold headerTokens
  rw [h1]
  simp only []
  rw [if_neg hg, h2]
  simp only []
  rw [h3]

theorem headerTokens_of_dim (line t1 r1 lab r2 t3 r3 : List Char)
    (h1 : strtok line = some (t1, r1)) (hg : ¬ t1 ≠ "GAUSS".toList)
    (h2 : strtok r1 = some (lab, r2)) (h3 : strtok r2 = some (t3, r3)) :
    headerTokens line = some (lab, some t3) := by
  unfold headerTokens
  rw [h1]
  simp only []
  rw [if_neg hg, h2]
  simp only []
  rw [h3]

theorem GetGauss.header_some {K : Type} [LinearOrderedField K]
    (strtod : List Char → Dbl K × List Char) :
    ∀ (fp : FILE) (dim : Int) (h : GetGauss.Head K) (rest : FILE),
      GetGauss.header strtod dim fp = (some h, rest) →
      ∃ pre line, fp = pre ++ line :: rest ∧
        (∀ l ∈ pre, headerTokens l = none ∨
          ∃ lab t, headerTokens l = some (lab, some t) ∧ atoi t < 1) ∧
        ((∃ t, headerTokens line = some (h.label, some t) ∧ 1 ≤ atoi t ∧ h.dim = atoi t) ∨
          (headerTokens line = some (h.label, none) ∧
            ((∀ l ∈ pre, headerTokens l = none) → h.dim = dim)))
  | [], dim, h, rest, hh => by simp [GetGauss.header] at hh
  | line :: fp, dim, h, rest, hh => by
    -- a line that is skipped
    have skip : ∀ dim1, GetGauss.header strtod dim1 fp = (some h, rest) →
        (headerTokens line = none ∧ dim1 = dim ∨
          ∃ lab t, headerTokens line = some (lab, some t) ∧ atoi t < 1) →
        ∃ pre line1, line :: fp = pre ++ line1 :: rest ∧
          (∀ l ∈ pre, headerTokens l = none ∨
            ∃ lab t, headerTokens l = some (lab, some t) ∧ atoi t < 1) ∧
          ((∃ t, headerTokens line1 = some (h.label, some t) ∧ 1 ≤ atoi t ∧ h.dim = atoi t) ∨
            (headerTokens line1 = some (h.label, none) ∧
              ((∀ l ∈ pre, headerTokens l = none) → h.dim = dim))) := by
      intro dim1 h1 hl
      obtain ⟨pre, line1, e, hp, hc⟩ := GetGauss.header_some strtod fp dim1 h rest h1
      refine ⟨line :: pre, line1, by rw [e]; rfl, ?_, ?_⟩
      · intro l hl1
        rcases List.mem_cons.mp hl1 with rfl | hm
        · rcases hl with ⟨h0, _⟩ | h0
          · exact Or.inl h0
          · exact Or.inr h0
        · exact hp l hm
      · rcases hc with hc | ⟨hc1, hc2⟩
        · exact Or.inl hc
        · refine Or.inr ⟨hc1, ?_⟩
          intro hall
          rcases hl with ⟨_, hd⟩ | ⟨lab, t, ht, _⟩
          · rw [← hd]
            exact hc2 (fun l hl1 => hall l (List.mem_cons_of_mem _ hl1))
          · have := hall line (List.mem_cons_self _ _)
            rw [ht] at this
            cases this
    unfold GetGauss.header at hh
    cases h1 : strtok line with
    | none =>
      rw [h1] at hh
      exact skip dim hh (Or.inl ⟨headerTokens_of_no_token line h1, rfl⟩)
    | some p1 =>
      obtain ⟨t1, r1⟩ := p1
      rw [h1] at hh
      simp only [] at hh
      by_cases hg : t1 ≠ "GAUSS".toList
      · rw [if_pos hg] at hh
        exact skip dim hh (Or.inl ⟨headerTokens_of_other line t1 r1 h1 hg, rfl⟩)
      · rw [if_neg hg] at hh
        cases h2 : strtok r1 with
        | none =>
          rw [h2] at hh
          exact skip dim hh (Or.inl ⟨headerTokens_of_no_label line t1 r1 h1 hg h2, rfl⟩)
        | some p2 =>
          obtain ⟨lab, r2⟩ := p2
          rw [h2] at hh
          simp only [] at hh
          cases h3 : strtok r2 with
          | none =>
            rw [h3] at hh
            simp only [Prod.mk.injEq, Option.some.injEq] at hh
            obtain ⟨hh1, hh2⟩ := hh
            subst hh1 hh2
            exact ⟨[], line, rfl, by simp,
              Or.inr ⟨headerTokens_of_no_dim line t1 r1 lab r2 h1 hg h2 h3, fun _ => rfl⟩⟩
          | some p3 =>
            obtain ⟨t3, r3⟩ := p3
            rw [h3] at hh
            simp only [] at hh
            have htok : headerTokens line = some (lab, some t3) :=
              headerTokens_of_dim line t1 r1 lab r2 t3 r3 h1 hg h2 h3
            by_cases hd : atoi t3 < 1
            · rw [if_pos hd] at hh
              exact skip (atoi t3) hh (Or.inr ⟨lab, t3, htok, hd⟩)
            · rw [if_neg hd] at hh
              cases h4 : strtok r3 with
              | none =>
                rw [h4] at hh
                simp only [Prod.mk.injEq, Option.some.injEq] at hh
                obtain ⟨hh1, hh2⟩ := hh
                subst hh1 hh2
                exact ⟨[], line, rfl, by simp, Or.inl ⟨t3, htok, by omega, rfl⟩⟩
              | some p4 =>
                obtain ⟨t4, r4⟩ := p4
                rw [h4] at hh
                simp only [Prod.mk.injEq, Option.some.injEq] at hh
                obtain ⟨hh1, hh2⟩ := hh
                subst hh1 hh2
                exact ⟨[], line, rfl, by simp, Or.inl ⟨t3, htok, by omega, rfl⟩⟩

theorem GetGauss_some_head {K : Type} [LinearOrderedField K]
    (strtod : List Char → Dbl K × List Char) (sq : K → K) (fp : FILE) (g : gauss_t K)
    (rest : FILE) (hg : GetGauss strtod sq fp = Except.ok (some g, rest)) :
    ∃ (h : GetGauss.Head K) (fp1 : FILE), GetGauss.header strtod 1 fp = (some h, fp1) ∧
      g.label = h.label ∧ g.dim = h.dim ∧ g.type = h.type ∧ g.prior_prob = h.prior_prob := by
  unfold GetGauss at hg
  cases hh : GetGauss.header strtod 1 fp with
  | mk oh fp1 =>
    rw [hh] at hg
    cases oh with
    | none => simp at hg
    | some h =>
      refine ⟨h, fp1, rfl, ?_⟩
      simp only [] at hg
      split at hg
      · cases hg
      · split at hg
        · cases hg
        · split at hg
          · split at hg
            · cases hg
            · simp only [Except.ok.injEq, Prod.mk.injEq, Option.some.injEq] at hg
              obtain ⟨hg1, _⟩ := hg
              subst hg1
              exact ⟨rfl, rfl, rfl, rfl⟩
          · split at hg
            · cases hg
            · split at hg
              · cases hg
              · simp only [Except.ok.injEq, Prod.mk.injEq, Option.some.injEq] at hg
                obtain ⟨hg1, _⟩ := hg
                subst hg1
                exact ⟨rfl, rfl, rfl, rfl⟩

/-- A component whose header has no `<dim>` token and follows a `GAUSS` line
with the rejected `<dim>` `0`: the rejected value is the dimension of the
component. -/
theorem GetGauss_rejected_dim_kept :
    GetGauss (K := ℚ) strtod10 sqrtQ ["GAUSS A 0\n".toList, "GAUSS B\n".toList, "x\n".toList] =
      Except.ok (some ⟨['B'], 0, FULL, Dbl.fin 0, [], none, none, some [], some []⟩, []) := by
  with_unfolding_all rfl

/-- C11 (as stated, refuted): the header `GAUSS B` has no `<dim>` token, and
`GetGauss` returns a component of dimension `1` from it. -/
theorem GetGauss_header_without_dim :
    headerTokens "GAUSS B\n".toList = some (['B'], none) ∧
    GetGauss (K := ℚ) strtod10 sqrtQ ["GAUSS B\n".toList, "5\n".toList, "4\n".toList] =
      Except.ok (some ⟨['B'], 1, FULL, Dbl.fin 0, [Dbl.fin 5], none, none,
        some [[Dbl.fin 4]], some [[Dbl.fin 2]]⟩, []) := by
  constructor
  · decide
  · with_unfolding_all rfl

/-- C11 (amended): a component that `GetGauss` returns comes from the first
line of the stream that is `GAUSS <label>` followed by a `<dim>` token of
value at least `1`, or by nothing; the lines before it are skipped, among them
the `GAUSS` lines whose `<dim>` is less than `1`.  When the header has a
`<dim>` token, the dimension of the component is its value, at least `1`; when
it has none and no `GAUSS` line with a label precedes it, the dimension is
`1`. -/
theorem GetGauss_dim {K : Type} [LinearOrderedField K]
    (strtod : List Char → Dbl K × List Char) (sq : K → K) (fp : FILE) (g : gauss_t K)
    (rest : FILE) (hg : GetGauss strtod sq fp = Except.ok (some g, rest)) :
    ∃ pre line post, fp = pre ++ line :: post ∧
      (∀ l ∈ pre, headerTokens l = none ∨
        ∃ lab t, headerTokens l = some (lab, some t) ∧ atoi t < 1) ∧
      ((∃ t, headerTokens line = some (g.label, some t) ∧ 1 ≤ atoi t ∧ g.dim = atoi t) ∨
        (headerTokens line = some (g.label, none) ∧
          ((∀ l ∈ pre, headerTokens l = none) → g.dim = 1))) := by
  obtain ⟨h, fp1, hh, e1, e2, _, _⟩ := GetGauss_some_head strtod sq fp g rest hg
  obtain ⟨pre, line, e, hp, hc⟩ := GetGauss.header_some strtod fp 1 h fp1 hh
  rw [e1, e2]
  exact ⟨pre, line, fp1, e, hp, hc⟩

theorem GetGauss_dim_witness :
    ∃ pre line post, diagStream = pre ++ line :: post ∧
      (∀ l ∈ pre, headerTokens l = none ∨
        ∃ lab t, headerTokens l = some (lab, some t) ∧ atoi t < 1) ∧
      ((∃ t, headerTokens line = some (diagGauss.label, some t) ∧ 1 ≤ atoi t ∧
          diagGauss.dim = atoi t) ∨
        (headerTokens line = some (diagGauss.label, none) ∧
          ((∀ l ∈ pre, headerTokens l = none) → diagGauss.dim = 1))) :=
  GetGauss_dim strtod10 sqrtQ diagStream diagGauss [] (by with_unfolding_all rfl)

/-! ## A Full block with complete rows -/

theorem StartsWithFields.mono {K : Type} (strtod : List Char → Dbl K × List Char)
    (d n : Nat) (line : List Char) (h : StartsWithFields strtod d line) (hn : n ≤ d) :
    StartsWithFields strtod n line := by
  unfold StartsWithFields at h ⊢
  rw [GetVector.count_min strtod n d line hn, h]
  exact min_eq_left hn

theorem GetVector_head {K : Type} (strtod : List Char → Dbl K × List Char) (n : Nat)
    (line : List Char) (fp : FILE) (h : StartsWithFields strtod n line) :
    GetVector strtod (line :: fp) n = (some (GetVector.fill strtod n line), fp) :=
  GetVector_some strtod n [] line fp (by simp) h

theorem GetVector.fill_take {K : Type} (strtod : List Char → Dbl K × List Char) :
    ∀ (n m : Nat) (np : List Char), n ≤ m →
      GetVector.fill strtod n np = (GetVector.fill strtod m np).take n
  | 0, _, _, _ => by simp [GetVector.fill]
  | n + 1, 0, _, h => by omega
  | n + 1, m + 1, np, h => by
    simp only [GetVector.fill, List.take_succ_cons]
    rw [GetVector.fill_take strtod n m _ (by omega)]

theorem GetGauss.rows_complete {K : Type} (strtod : List Char → Dbl K × List Char)
    (d : Nat) (rest : FILE) :
    ∀ (rows : List (List Char)) (acc : Mat K), acc.length + rows.length ≤ d →
      (∀ r ∈ rows, StartsWithFields strtod d r) →
      GetGauss.rows strtod rows.length acc (rows ++ rest) =
        Except.ok (acc ++ covarOfRows strtod acc.length rows, rest)
  | [], acc, _, _ => by simp [GetGauss.rows, covarOfRows]
  | r :: rows, acc, hlen, hrows => by
    have hr := hrows r (List.mem_cons_self _ _)
    have hlen1 : acc.length + 1 ≤ d := by simp only [List.length_cons] at hlen; omega
    have hv := GetVector_head strtod (acc.length + 1) r (rows ++ rest)
      (StartsWithFields.mono strtod d _ r hr hlen1)
    simp only [List.length_cons, List.cons_append, GetGauss.rows]
    have hc : ((acc.length : Int) + 1) = ((acc.length + 1 : Nat) : Int) := by push_cast; rfl
    rw [hc, hv]
    simp only []
    rw [GetGauss.rows_complete strtod d rest rows (acc ++ [GetVector.fill strtod (acc.length + 1) r])
      (by simp only [List.length_append, List.length_cons, List.length_nil,
            List.length_cons] at hlen ⊢
          omega)
      (fun r1 h1 => hrows r1 (List.mem_cons_of_mem _ h1))]
    simp [covarOfRows]

theorem covarOfRows_getD {K : Type} (strtod : List Char → Dbl K × List Char) :
    ∀ (rows : List (List Char)) (k i : Nat), i < rows.length →
      (covarOfRows strtod k rows).getD i [] =
        GetVector.fill strtod (k + i + 1) (rows.getD i [])
  | [], _, _, h => by simp at h
  | r :: rows, k, 0, _ => by simp [covarOfRows]
  | r :: rows, k, i + 1, h => by
    simp only [covarOfRows, List.getD_cons_succ]
    rw [covarOfRows_getD strtod rows (k + 1) i (by simpa using h)]
    congr 1
    omega

theorem covarOfRows_length {K : Type} (strtod : List Char → Dbl K × List Char) :
    ∀ (rows : List (List Char)) (k : Nat), (covarOfRows strtod k rows).length = rows.length
  | [], _ => by simp [covarOfRows]
  | r :: rows, k => by simp [covarOfRows, covarOfRows_length strtod rows]

theorem GetGauss.header_full {K : Type} [LinearOrderedField K]
    (strtod : List Char → Dbl K × List Char) (dim : Int)
    (hline r1 lab r2 t3 r3 t4 r4 : List Char) (fp : FILE)
    (h1 : strtok hline = some ("GAUSS".toList, r1)) (h2 : strtok r1 = some (lab, r2))
    (h3 : strtok r2 = some (t3, r3)) (hd : 1 ≤ atoi t3)
    (h4 : strtok r3 = some (t4, r4)) (hF : t4.head? ≠ some 'D') :
    GetGauss.header strtod dim (hline :: fp) =
      (some ⟨lab, atoi t3, FULL, headerPrior strtod r4⟩, fp) := by
  unfold GetGauss.header
  rw [h1]
  simp only []
  rw [if_neg (by simp), h2]
  simp only []
  rw [h3]
  simp only []
  rw [if_neg (by omega), h4]
  simp only []
  rw [if_neg hF]
  unfold headerPrior
  cases strtok r4 <;> rfl

/-- C16 (as stated, refuted): the block is in the documented format and its
rows are those of the symmetric matrix `[[1,2],[2,1]]`; `GetGauss` returns no
component: `Cholesky` finds the pivot `1 - 2*2 < 0` and exits. -/
theorem GetGauss_full_indefinite_exits :
    GetGauss (K := ℚ) strtod10 sqrtQ indefiniteBlock = Except.error Abort.exitFailure := by
  with_unfolding_all rfl

/-- C16 (amended): on a Full block in the documented format (a header
`GAUSS <label> <d> <kind> ...` with `d ≥ 1` and a kind that does not begin
with `D`, a mean line of `d` numeric fields, `d` lines that each begin with
the `d` entries of a row), `GetGauss` stores as mean the values of the mean
line and as `covar[i][j]`, for `j ≤ i < d`, the entry `j` of row line `i`; it
returns the Full component with this mean and covariance when `Cholesky`
returns on that lower triangle, and fails as `Cholesky` fails otherwise. -/
theorem GetGauss_full_block {K : Type} [LinearOrderedField K]
    (strtod : List Char → Dbl K × List Char) (sq : K → K)
    (hline r1 lab r2 t3 r3 t4 r4 : List Char) (d : Nat) (m : List Char)
    (rows : List (List Char)) (rest : FILE)
    (h1 : strtok hline = some ("GAUSS".toList, r1)) (h2 : strtok r1 = some (lab, r2))
    (h3 : strtok r2 = some (t3, r3)) (hd : atoi t3 = (d : Int)) (hd1 : 1 ≤ d)
    (h4 : strtok r3 = some (t4, r4)) (hF : t4.head? ≠ some 'D')
    (hm : StartsWithFields strtod d m) (hlen : rows.length = d)
    (hrows : ∀ r ∈ rows, StartsWithFields strtod d r) :
    (∀ L, Cholesky sq d (covarOfRows strtod 0 rows) = Except.ok L →
      GetGauss strtod sq (hline :: m :: (rows ++ rest)) =
        Except.ok (some ⟨lab, (d : Int), FULL, headerPrior strtod r4,
          GetVector.fill strtod d m, none, none,
          some (covarOfRows strtod 0 rows), some L⟩, rest)) ∧
    (∀ e, Cholesky sq d (covarOfRows strtod 0 rows) = Except.error e →
      GetGauss strtod sq (hline :: m :: (rows ++ rest)) = Except.error e) ∧
    (∀ i j, j ≤ i → i < d →
      ((covarOfRows strtod 0 rows).getD i []).getD j Dbl.nan =
        (GetVector.fill strtod d (rows.getD i [])).getD j Dbl.nan) := by
  have key : GetGauss strtod sq (hline :: m :: (rows ++ rest)) =
      (match Cholesky sq d (covarOfRows strtod 0 rows) with
        | Except.ok L =>
          Except.ok (some ⟨lab, (d : Int), FULL, headerPrior strtod r4,
            GetVector.fill strtod d m, none, none,
            some (covarOfRows strtod 0 rows), some L⟩, rest)
        | Except.error e => Except.error e) := by
    unfold GetGauss
    rw [GetGauss.header_full strtod 1 hline r1 lab r2 t3 r3 t4 r4 _ h1 h2 h3 (by omega) h4 hF]
    simp only [hd]
    rw [if_neg (by omega), GetVector_head strtod d m _ hm]
    simp only []
    rw [if_neg (by decide)]
    have hrw := GetGauss.rows_complete strtod d rest rows [] (by simp [hlen]) hrows
    rw [hlen] at hrw
    simp only [Int.toNat_ofNat]
    rw [hrw]
    simp only [List.nil_append, List.length_nil]
    cases Cholesky sq d (covarOfRows strtod 0 rows) <;> rfl
  refine ⟨?_, ?_, ?_⟩
  · intro L hL
    rw [key, hL]
  · intro e he
    rw [key, he]
  · intro i j hji hi
    rw [covarOfRows_getD strtod rows 0 i (by omega), zero_add,
      GetVector.fill_take strtod (i + 1) d _ (by omega)]
    simp only [List.getD_eq_getElem?_getD]
    rw [List.getElem?_take_of_lt (by omega)]

theorem GetGauss_full_block_witness :
    (∀ L, Cholesky sqrtQ 2
        (covarOfRows (K := ℚ) strtod10 0 ["4 2\n".toList, "2 10\n".toList]) = Except.ok L →
      GetGauss (K := ℚ) strtod10 sqrtQ
          ("GAUSS A 2 Full 0.5\n".toList :: "0 1\n".toList ::
            (["4 2\n".toList, "2 10\n".toList] ++ [])) =
        Except.ok (some ⟨['A'], ((2 : Nat) : Int), FULL, headerPrior strtod10 "0.5\n".toList,
          GetVector.fill strtod10 2 "0 1\n".toList, none, none,
          some (covarOfRows strtod10 0 ["4 2\n".toList, "2 10\n".toList]), some L⟩, [])) ∧
    (∀ e, Cholesky sqrtQ 2
        (covarOfRows (K := ℚ) strtod10 0 ["4 2\n".toList, "2 10\n".toList]) =
          Except.error e →
      GetGauss (K := ℚ) strtod10 sqrtQ
          ("GAUSS A 2 Full 0.5\n".toList :: "0 1\n".toList ::
            (["4 2\n".toList, "2 10\n".toList] ++ [])) = Except.error e) ∧
    (∀ i j, j ≤ i → i < 2 →
      ((covarOfRows (K := ℚ) strtod10 0 ["4 2\n".toList, "2 10\n".toList]).getD i []).getD j
          Dbl.nan =
        (GetVector.fill strtod10 2
          (["4 2\n".toList, "2 10\n".toList].getD i [])).getD j Dbl.nan) :=
  GetGauss_full_block strtod10 sqrtQ "GAUSS A 2 Full 0.5\n".toList "A 2 Full 0.5\n".toList
    ['A'] "2 Full 0.5\n".toList ['2'] "Full 0.5\n".toList "Full".toList "0.5\n".toList 2
    "0 1\n".toList ["4 2\n".toList, "2 10\n".toList] []
    (by decide) (by decide) (by decide) (by decide) (by decide) (by decide) (by decide)
    (by decide) (by decide) (by decide)

/-- The component that `GetGauss` reads from a Full block with complete
rows. -/
theorem GetGauss_full_example :
    GetGauss (K := ℚ) strtod10 sqrtQ fullBlock =
      Except.ok (some ⟨['A'], 2, FULL, Dbl.fin (1/2), [Dbl.fin 0, Dbl.fin 1], none, none,
        some [[Dbl.fin 4], [Dbl.fin 2, Dbl.fin 10]],
        some [[Dbl.fin 2], [Dbl.fin 1, Dbl.fin 3]]⟩, []) := by
  with_unfolding_all rfl

/-! ## Writing a Gaussian and reading it back -/

/-- C12 (the code at a failing input): `PutGauss` writes the kind of the
component to `stderr`, not to `fp`; for a Diagonal component of dimension 1
the text in `fp` has the mean on the header line, and `GetGauss` on that text
takes the first mean for the kind, the variance line for the mean, finds no
covariance and exits. -/
theorem PutGauss_GetGauss_diag_fails :
    PutGauss fmt10f diagGauss =
      Except.ok ("GAUSS A 1    0.000000\n  4.000000\n".toList, "Diag\n".toList) ∧
    fgetsLines "GAUSS A 1    0.000000\n  4.000000\n".toList =
      ["GAUSS A 1    0.000000\n".toList, "  4.000000\n".toList] ∧
    GetGauss (K := ℚ) strtod10 sqrtQ
      (fgetsLines "GAUSS A 1    0.000000\n  4.000000\n".toList) =
      Except.error Abort.exitFailure := by
  refine ⟨?_, ?_, ?_⟩
  · with_unfolding_all rfl
  · with_unfolding_all rfl
  · with_unfolding_all rfl

/-- On a Full component `PutGauss` reads `covar[i][j]` for `j` up to `dim`,
past the end of row `i`. -/
theorem PutGauss_full_reads_past_row :
    PutGauss fmt10f (⟨['A'], 1, FULL, Dbl.fin 0, [Dbl.fin 0], none, none,
      some [[Dbl.fin 4]], some [[Dbl.fin 2]]⟩ : gauss_t ℚ) =
      Except.error Abort.badAccess := by
  with_unfolding_all rfl

/-! ## Cholesky in rounded arithmetic -/

theorem Dbl.round_fin {K : Type} (d : Dbl K) : Dbl.round Dbl.fin d = d := by
  cases d <;> rfl

theorem CholeskyR.kLoop_exact {K : Type} [LinearOrderedField K] (A : Mat K) (i j : Nat) :
    ∀ (k : Nat) (aux : Dbl K),
      CholeskyR.kLoop Dbl.fin A i j k aux = Cholesky.kLoop A i j k aux
  | 0, aux => rfl
  | k + 1, aux => by
    unfold CholeskyR.kLoop Cholesky.kLoop
    cases A.rd2 i k with
    | error e => rfl
    | ok a =>
      cases A.rd2 j k with
      | error e => rfl
      | ok b =>
        simp only [Dbl.round_fin]
        exact CholeskyR.kLoop_exact A i j k _

theorem CholeskyR.body_exact {K : Type} [LinearOrderedField K] (sq : K → K) (A : Mat K)
    (i j : Nat) : CholeskyR.body Dbl.fin sq A i j = Cholesky.body sq A i j := by
  unfold CholeskyR.body Cholesky.body
  simp only [CholeskyR.kLoop_exact, Dbl.round_fin]

theorem CholeskyR.jLoop_exact {K : Type} [LinearOrderedField K] (sq : K → K) (d i : Nat) :
    ∀ (n : Nat) (A : Mat K), CholeskyR.jLoop Dbl.fin sq d i n A = Cholesky.jLoop sq d i n A
  | 0, A => rfl
  | n + 1, A => by
    unfold CholeskyR.jLoop Cholesky.jLoop
    rw [CholeskyR.body_exact]
    cases Cholesky.body sq A i (d - (n + 1)) with
    | error e => rfl
    | ok A1 => exact CholeskyR.jLoop_exact sq d i n A1

theorem CholeskyR.iLoop_exact {K : Type} [LinearOrderedField K] (sq : K → K) (d : Nat) :
    ∀ (n : Nat) (A : Mat K), CholeskyR.iLoop Dbl.fin sq d n A = Cholesky.iLoop sq d n A
  | 0, A => rfl
  | n + 1, A => by
    unfold CholeskyR.iLoop Cholesky.iLoop
    rw [CholeskyR.jLoop_exact]
    cases Cholesky.jLoop sq d (d - (n + 1)) (n + 1) A with
    | error e => rfl
    | ok A1 => exact CholeskyR.iLoop_exact sq d n A1

/-- With the rounding that leaves every number as it is, `CholeskyR` is
`Cholesky`. -/
theorem CholeskyR_exact {K : Type} [LinearOrderedField K] (sq : K → K) (d : Nat)
    (A : Mat K) : CholeskyR Dbl.fin sq d A = Cholesky sq d A :=
  CholeskyR.iLoop_exact sq d d A

theorem CholeskyR.kLoop_safe {K : Type} [LinearOrderedField K] (rnd : K → Dbl K)
    (M : Mat K) (d i j : Nat) (hs : TriShape d M) (hij : i ≤ j) (hj : j < d) :
    ∀ (k : Nat) (aux : Dbl K), k ≤ i →
      ∃ r : Dbl K, CholeskyR.kLoop rnd M i j k aux = Except.ok r
  | 0, aux, _ => ⟨aux, rfl⟩
  | k + 1, aux, hk => by
    obtain ⟨hlen, hrow⟩ := hs
    unfold CholeskyR.kLoop
    rw [Mat.rd2_of_lt M i k (by omega) (by rw [hrow i (by omega)]; omega),
      Mat.rd2_of_lt M j k (by omega) (by rw [hrow j hj]; omega)]
    exact CholeskyR.kLoop_safe rnd M d i j ⟨hlen, hrow⟩ hij hj k _ (by omega)

theorem CholeskyR.body_safe {K : Type} [LinearOrderedField K] (rnd : K → Dbl K)
    (sq : K → K) (M : Mat K) (d i j : Nat) (hs : TriShape d M) (hij : i ≤ j) (hj : j < d) :
    (∃ M1 : Mat K, CholeskyR.body rnd sq M i j = Except.ok M1 ∧ TriShape d M1) ∨
    CholeskyR.body rnd sq M i j = Except.error Abort.exitFailure := by
  obtain ⟨r, hr⟩ := CholeskyR.kLoop_safe rnd M d i j hs hij hj i
    ((M.getD j []).getD i Dbl.nan) (le_refl _)
  unfold CholeskyR.body
  rw [Mat.rd2_of_lt M j i (by rw [hs.1]; exact hj) (by rw [hs.2 j hj]; omega)]
  simp only [hr]
  by_cases hd : i = j
  · subst hd
    rw [if_pos rfl]
    by_cases hneg : Dbl.lt r (Dbl.fin 0) = true
    · right
      rw [if_pos hneg]
    · left
      rw [if_neg hneg]
      obtain ⟨M1, h1, h2, _⟩ := Mat.wr2_spec M d i i (Dbl.sqrt sq r) hs (le_refl _) hj
      exact ⟨M1, h1, h2⟩
  · left
    rw [if_neg hd, Mat.rd2_of_lt M i i (by rw [hs.1]; omega) (by rw [hs.2 i (by omega)]; omega)]
    simp only []
    obtain ⟨M1, h1, h2, _⟩ := Mat.wr2_spec M d i j
      (Dbl.round rnd (Dbl.div r ((M.getD i []).getD i Dbl.nan))) hs hij hj
    exact ⟨M1, h1, h2⟩

theorem CholeskyR.jLoop_safe {K : Type} [LinearOrderedField K] (rnd : K → Dbl K)
    (sq : K → K) (d i : Nat) :
    ∀ (n : Nat) (M : Mat K), i + n ≤ d → TriShape d M →
      (∃ M1 : Mat K, CholeskyR.jLoop rnd sq d i n M = Except.ok M1 ∧ TriShape d M1) ∨
      CholeskyR.jLoop rnd sq d i n M = Except.error Abort.exitFailure
  | 0, M, _, hs => Or.inl ⟨M, rfl, hs⟩
  | n + 1, M, hn, hs => by
    unfold CholeskyR.jLoop
    rcases CholeskyR.body_safe rnd sq M d i (d - (n + 1)) hs (by omega) (by omega) with
      ⟨M1, h1, hs1⟩ | h1
    · rw [h1]
      exact CholeskyR.jLoop_safe rnd sq d i n M1 (by omega) hs1
    · right
      rw [h1]

theorem CholeskyR.iLoop_safe {K : Type} [LinearOrderedField K] (rnd : K → Dbl K)
    (sq : K → K) (d : Nat) :
    ∀ (n : Nat) (M : Mat K), n ≤ d → TriShape d M →
      (∃ M1 : Mat K, CholeskyR.iLoop rnd sq d n M = Except.ok M1 ∧ TriShape d M1) ∨
      CholeskyR.iLoop rnd sq d n M = Except.error Abort.exitFailure
  | 0, M, _, hs => Or.inl ⟨M, rfl, hs⟩
  | n + 1, M, hn, hs => by
    unfold CholeskyR.iLoop
    rcases CholeskyR.jLoop_safe rnd sq d (d - (n + 1)) (n + 1) M (by omega) hs with
      ⟨M1, h1, hs1⟩ | h1
    · rw [h1]
      exact CholeskyR.iLoop_safe rnd sq d n M1 (by omega) hs1
    · right
      rw [h1]

/-- Whatever the rounding, a run of `Cholesky` on a lower triangle of `d` rows
stays inside the triangle: it returns a lower triangle of `d` rows or takes
the failure branch. -/
theorem CholeskyR_in_bounds {K : Type} [LinearOrderedField K] (rnd : K → Dbl K)
    (sq : K → K) (d : Nat) (M : Mat K) (hs : TriShape d M) :
    (∃ L : Mat K, CholeskyR rnd sq d M = Except.ok L ∧ TriShape d L) ∨
    CholeskyR rnd sq d M = Except.error Abort.exitFailure :=
  CholeskyR.iLoop_safe rnd sq d d M (le_refl _) hs

theorem quadForm_two {K : Type} [LinearOrderedField K] (a b c : K) (x : Nat → K) :
    quadForm 2 [[a], [b, c]] x = a * x 0 * x 0 + 2 * b * x 0 * x 1 + c * x 1 * x 1 := by
  have h00 : symEntry [[a], [b, c]] 0 0 = a := by simp [symEntry]
  have h01 : symEntry [[a], [b, c]] 0 1 = b := by simp [symEntry]
  have h10 : symEntry [[a], [b, c]] 1 0 = b := by simp [symEntry]
  have h11 : symEntry [[a], [b, c]] 1 1 = c := by simp [symEntry]
  simp only [quadForm, Finset.sum_range_succ, Finset.sum_range_zero, zero_add, h00, h01, h10,
    h11]
  ring

/-- A symmetric `2 × 2` matrix with a positive first entry and a positive
determinant is positive definite. -/
theorem isPD_two {K : Type} [LinearOrderedField K] (a b c : K) (ha : 0 < a)
    (hdet : b * b < a * c) : IsPD 2 [[a], [b, c]] := by
  intro x hx
  rw [quadForm_two]
  have key : a * (a * x 0 * x 0 + 2 * b * x 0 * x 1 + c * x 1 * x 1) =
      (a * x 0 + b * x 1) * (a * x 0 + b * x 1) + (a * c - b * b) * (x 1 * x 1) := by ring
  have hpos : 0 < a * (a * x 0 * x 0 + 2 * b * x 0 * x 1 + c * x 1 * x 1) := by
    rw [key]
    by_cases h1 : x 1 = 0
    · obtain ⟨i, hi, hne⟩ := hx
      have h0 : x 0 ≠ 0 := by
        have : i = 0 ∨ i = 1 := by omega
        rcases this with rfl | rfl
        · exact hne
        · exact absurd h1 hne
      rw [h1]
      have : 0 < (a * x 0) * (a * x 0) := mul_self_pos.mpr (mul_ne_zero (ne_of_gt ha) h0)
      simpa using this
    · have h2 : 0 < x 1 * x 1 := mul_self_pos.mpr h1
      have h3 : 0 < (a * c - b * b) * (x 1 * x 1) := mul_pos (by linarith) h2
      have h4 : 0 ≤ (a * x 0 + b * x 1) * (a * x 0 + b * x 1) := mul_self_nonneg _
      linarith
  exact (mul_pos_iff_of_pos_left ha).mp hpos

/-! ## The distance in rounded arithmetic -/

set_option exponentiation.threshold 5000 in
set_option maxRecDepth 20000 in
theorem rnd64_zero : rnd64 0 = Dbl.fin 0 ∧ sqrt64 0 = 0 := by
  constructor <;> with_unfolding_all rfl

set_option exponentiation.threshold 5000 in
set_option maxRecDepth 20000 in
/-- The run of `Cholesky` in binary64 on `pdNearSingular`: column 0 leaves
`sqrt(3)` and `1/sqrt(3)` as binary64 gives them, and the pivot of column 1,
`0.33333333333333337` less the rounded square of the latter, is `-2^-54`. -/
theorem CholeskyR_near_singular_pivot :
    CholeskyR.jLoop rnd64 sqrt64 2 0 2 (Mat.ofReals pdNearSingular) =
      Except.ok [[Dbl.fin (3900231685776981 / 2251799813685248)],
        [Dbl.fin (5200308914369309 / 9007199254740992),
          Dbl.fin (6004799503160662 / 18014398509481984)]] ∧
    CholeskyR.kLoop rnd64 [[Dbl.fin (3900231685776981 / 2251799813685248)],
        [Dbl.fin (5200308914369309 / 9007199254740992),
          Dbl.fin (6004799503160662 / 18014398509481984)]] 1 1 1
        (Dbl.fin (6004799503160662 / 18014398509481984)) =
      Except.ok (Dbl.fin (-1 / 18014398509481984)) := by
  constructor <;> with_unfolding_all rfl

set_option exponentiation.threshold 5000 in
set_option maxRecDepth 20000 in
/-- C20 (as stated, refuted): the matrix `pdNearSingular` is a lower triangle
of binary64 numbers and is symmetric positive definite, and the run of
`Cholesky` on it in binary64 computes a negative pivot in column 1 and takes
the failure branch `exit(EXIT_FAILURE)`. -/
theorem Cholesky_pd_exits_rounded :
    TriShape 2 pdNearSingular ∧ IsPD 2 pdNearSingular ∧
    (∀ r ∈ pdNearSingular, ∀ x ∈ r, rnd64 x = Dbl.fin x) ∧
    CholeskyR rnd64 sqrt64 2 (Mat.ofReals pdNearSingular) =
      Except.error Abort.exitFailure := by
  refine ⟨⟨rfl, ?_⟩, ?_, ?_, ?_⟩
  · intro i hi
    have : i = 0 ∨ i = 1 := by omega
    rcases this with rfl | rfl <;> rfl
  · exact isPD_two 3 1 (6004799503160662 / 18014398509481984) (by norm_num) (by norm_num)
  · intro r hr x hx
    simp only [pdNearSingular, List.mem_cons, List.mem_singleton, List.not_mem_nil,
      or_false] at hr
    rcases hr with rfl | rfl
    · simp only [List.mem_singleton] at hx
      subst hx
      with_unfolding_all rfl
    · simp only [List.mem_cons, List.mem_singleton, List.not_mem_nil, or_false] at hx
      rcases hx with rfl | rfl <;> with_unfolding_all rfl
  · with_unfolding_all rfl

/-- C20 (amended): for a `d × d` matrix stored as a lower triangle with row
`i` of length `i+1`: whatever the rounding of the operations, the run of
`Cholesky(d,A)` makes no access outside the triangle and its loops terminate:
it returns a lower triangle of `d` rows or takes the failure branch; and in
exact arithmetic, when the matrix is symmetric positive definite, the run
returns, the failure branch is not taken, every pivot is strictly positive (no
division by zero), every entry it leaves is finite, and the triangle it leaves
is a factor of the matrix. -/
theorem Cholesky_pd_safe {K : Type} [LinearOrderedField K] (d : Nat) (A : List (List K))
    (hA : TriShape d A) :
    (∀ (rnd : K → Dbl K) (sq : K → K),
      (∃ L : Mat K, CholeskyR rnd sq d (Mat.ofReals A) = Except.ok L ∧ TriShape d L) ∨
      CholeskyR rnd sq d (Mat.ofReals A) = Except.error Abort.exitFailure) ∧
    (∀ sq : K → K, IsSqrt sq → IsPD d A →
      ∃ L : Mat K, Cholesky sq d (Mat.ofReals A) = Except.ok L ∧ TriShape d L ∧
        (∀ i < d, ∃ p : K, 0 < p ∧ (L.getD i []).getD i Dbl.nan = Dbl.fin p) ∧
        (∀ r c, c ≤ r → r < d → Dbl.isFin ((L.getD r []).getD c Dbl.nan) = true) ∧
        IsFactor d L A) := by
  constructor
  · intro rnd sq
    exact CholeskyR_in_bounds rnd sq d (Mat.ofReals A) (Mat.ofReals_holds sq A d hA).1
  · intro sq hsq hpd
    obtain ⟨L, h1, hL, hpos, hfac⟩ := Cholesky_pd_factor sq hsq d A hA hpd
    refine ⟨L, h1, hL.1, ?_, ?_, hfac⟩
    · intro i hi
      exact ⟨_, hpos i hi, hL.2 i i (le_refl _) hi⟩
    · intro r c hcr hr
      rw [hL.2 r c hcr hr]
      rfl

theorem Cholesky_pd_safe_witness :
    (∀ (rnd : ℝ → Dbl ℝ) (sq : ℝ → ℝ),
      (∃ L : Mat ℝ, CholeskyR rnd sq 2 (Mat.ofReals [[(4 : ℝ)], [2, 10]]) = Except.ok L ∧
        TriShape 2 L) ∨
      CholeskyR rnd sq 2 (Mat.ofReals [[(4 : ℝ)], [2, 10]]) =
        Except.error Abort.exitFailure) ∧
    (∃ L : Mat ℝ, Cholesky Real.sqrt 2 (Mat.ofReals [[(4 : ℝ)], [2, 10]]) = Except.ok L ∧
      TriShape 2 L ∧
      (∀ i < 2, ∃ p : ℝ, 0 < p ∧ (L.getD i []).getD i Dbl.nan = Dbl.fin p) ∧
      (∀ r c, c ≤ r → r < 2 → Dbl.isFin ((L.getD r []).getD c Dbl.nan) = true) ∧
      IsFactor 2 L [[(4 : ℝ)], [2, 10]]) :=
  ⟨(Cholesky_pd_safe 2 [[(4 : ℝ)], [2, 10]]
      ⟨rfl, by intro i hi; have : i = 0 ∨ i = 1 := by omega
               rcases this with rfl | rfl <;> rfl⟩).1,
    (Cholesky_pd_safe 2 [[(4 : ℝ)], [2, 10]]
      ⟨rfl, by intro i hi; have : i = 0 ∨ i = 1 := by omega
               rcases this with rfl | rfl <;> rfl⟩).2 Real.sqrt isSqrt_real
      (isPD_two 4 2 10 (by norm_num) (by norm_num))⟩

set_option exponentiation.threshold 5000 in
set_option maxRecDepth 20000 in
/-- The run of `Cholesky` on the positive definite matrix `[[4,2],[2,10]]`,
which is exact in binary64 and in the rationals: the factor is
`[[2],[1,3]]`. -/
theorem Cholesky_pd_example :
    Cholesky sqrtQ 2 (Mat.ofReals [[(4 : ℚ)], [2, 10]]) =
      Except.ok [[Dbl.fin 2], [Dbl.fin 1, Dbl.fin 3]] ∧
    CholeskyR rnd64 sqrt64 2 (Mat.ofReals [[(4 : ℚ)], [2, 10]]) =
      Except.ok [[Dbl.fin 2], [Dbl.fin 1, Dbl.fin 3]] := by
  constructor <;> with_unfolding_all rfl

/-! ## The rounding to binary64 -/

theorem log2Bits_spec (n : Nat) :
    ∀ (b acc : Nat), 2 ^ acc ≤ n → n < 2 ^ (acc + 2 ^ b) →
      2 ^ log2Bits n b acc ≤ n ∧ n < 2 ^ (log2Bits n b acc + 1)
  | 0, acc, h1, h2 => by
    simp only [log2Bits]
    exact ⟨h1, by simpa using h2⟩
  | b + 1, acc, h1, h2 => by
    simp only [log2Bits]
    by_cases h : 2 ^ (acc + 2 ^ b) ≤ n
    · rw [if_pos h]
      apply log2Bits_spec n b (acc + 2 ^ b) h
      have e : acc + 2 ^ b + 2 ^ b = acc + 2 ^ (b + 1) := by rw [pow_succ]; omega
      rw [e]
      exact h2
    · rw [if_neg h]
      exact log2Bits_spec n b acc h1 (by omega)

theorem log2Span_spec (n : Nat) :
    ∀ (fuel k : Nat), n ≤ fuel + k → n < 2 ^ 2 ^ log2Span n fuel k
  | 0, k, h => by
    simp only [log2Span]
    have h1 : k < 2 ^ k := Nat.lt_two_pow k
    have h2 : 2 ^ k < 2 ^ 2 ^ k := Nat.pow_lt_pow_right (by norm_num) h1
    omega
  | fuel + 1, k, h => by
    simp only [log2Span]
    by_cases hk : n < 2 ^ 2 ^ k
    · rw [if_pos hk]; exact hk
    · rw [if_neg hk]
      exact log2Span_spec n fuel (k + 1) (by omega)

theorem log2N_spec (n : Nat) (hn : 1 ≤ n) : 2 ^ log2N n ≤ n ∧ n < 2 ^ (log2N n + 1) := by
  unfold log2N
  apply log2Bits_spec n _ 0 (by simpa using hn)
  simpa using log2Span_spec n n 0 (le_refl _)

theorem pow2_eq_zpow (e : Int) : pow2 e = (2 : ℚ) ^ e := by
  unfold pow2
  by_cases h : 0 ≤ e
  · rw [if_pos h]
    obtain ⟨k, rfl⟩ := Int.eq_ofNat_of_zero_le h
    simp
  · rw [if_neg h]
    obtain ⟨k, hk⟩ := Int.exists_eq_neg_ofNat (le_of_lt (not_le.mp h))
    subst hk
    simp

theorem pow2_pos (e : Int) : 0 < pow2 e := by
  rw [pow2_eq_zpow]; positivity

theorem pow2_add (a b : Int) : pow2 (a + b) = pow2 a * pow2 b := by
  simp only [pow2_eq_zpow]
  exact zpow_add₀ (by norm_num) a b

theorem pow2_le_pow2 {a b : Int} (h : a ≤ b) : pow2 a ≤ pow2 b := by
  simp only [pow2_eq_zpow]
  exact zpow_le_zpow_right₀ (by norm_num) h

/-- The number `ilog2 q` is the binary exponent of `q`. -/
theorem ilog2_spec (q : ℚ) (hq : 0 < q) : pow2 (ilog2 q) ≤ q ∧ q < pow2 (ilog2 q + 1) := by
  have hnum : 0 < q.num := Rat.num_pos.mpr hq
  have hden : 1 ≤ q.den := q.den_pos
  have hn1 : 1 ≤ q.num.toNat := by omega
  obtain ⟨a1, a2⟩ := log2N_spec q.num.toNat hn1
  obtain ⟨b1, b2⟩ := log2N_spec q.den hden
  have hdpos : (0 : ℚ) < (q.den : ℚ) := by exact_mod_cast q.den_pos
  have hmul : q * (q.den : ℚ) = (q.num.toNat : ℚ) := by
    have : ((q.num.toNat : ℤ) : ℚ) = (q.num : ℚ) := by
      rw [Int.toNat_of_nonneg (le_of_lt hnum)]
    have h2 : (q.num.toNat : ℚ) = (q.num : ℚ) := by exact_mod_cast this
    rw [h2]
    exact Rat.mul_den_eq_num q
  have A1 : ((2 : ℚ) ^ (log2N q.num.toNat)) ≤ (q.num.toNat : ℚ) := by exact_mod_cast a1
  have A2 : (q.num.toNat : ℚ) < (2 : ℚ) ^ (log2N q.num.toNat + 1) := by exact_mod_cast a2
  have B1 : ((2 : ℚ) ^ (log2N q.den)) ≤ (q.den : ℚ) := by exact_mod_cast b1
  have B2 : (q.den : ℚ) < (2 : ℚ) ^ (log2N q.den + 1) := by exact_mod_cast b2
  -- the two candidates
  have lower : pow2 ((log2N q.num.toNat : Int) - (log2N q.den : Int) - 1) ≤ q := by
    rw [pow2_eq_zpow, ← mul_le_mul_right hdpos, hmul]
    have e : (2 : ℚ) ^ ((log2N q.num.toNat : Int) - (log2N q.den : Int) - 1) *
        (2 : ℚ) ^ (log2N q.den + 1) = (2 : ℚ) ^ (log2N q.num.toNat) := by
      rw [← zpow_natCast (2 : ℚ) (log2N q.den + 1), ← zpow_add₀ (by norm_num),
        ← zpow_natCast (2 : ℚ) (log2N q.num.toNat)]
      congr 1
      push_cast
      ring
    have hp : (0 : ℚ) < (2 : ℚ) ^ ((log2N q.num.toNat : Int) - (log2N q.den : Int) - 1) := by
      positivity
    calc (2 : ℚ) ^ ((log2N q.num.toNat : Int) - (log2N q.den : Int) - 1) * (q.den : ℚ)
        ≤ (2 : ℚ) ^ ((log2N q.num.toNat : Int) - (log2N q.den : Int) - 1) *
            (2 : ℚ) ^ (log2N q.den + 1) := by
          exact mul_le_mul_of_nonneg_left (le_of_lt B2) (le_of_lt hp)
      _ = (2 : ℚ) ^ (log2N q.num.toNat) := e
      _ ≤ (q.num.toNat : ℚ) := A1
  have upper : q < pow2 ((log2N q.num.toNat : Int) - (log2N q.den : Int) + 1) := by
    rw [pow2_eq_zpow, ← mul_lt_mul_right hdpos, hmul]
    have e : (2 : ℚ) ^ ((log2N q.num.toNat : Int) - (log2N q.den : Int) + 1) *
        (2 : ℚ) ^ (log2N q.den) = (2 : ℚ) ^ (log2N q.num.toNat + 1) := by
      rw [← zpow_natCast (2 : ℚ) (log2N q.den), ← zpow_add₀ (by norm_num),
        ← zpow_natCast (2 : ℚ) (log2N q.num.toNat + 1)]
      congr 1
      push_cast
      ring
    have hp : (0 : ℚ) < (2 : ℚ) ^ ((log2N q.num.toNat : Int) - (log2N q.den : Int) + 1) := by
      positivity
    calc (q.num.toNat : ℚ) < (2 : ℚ) ^ (log2N q.num.toNat + 1) := A2
      _ = (2 : ℚ) ^ ((log2N q.num.toNat : Int) - (log2N q.den : Int) + 1) *
            (2 : ℚ) ^ (log2N q.den) := e.symm
      _ ≤ (2 : ℚ) ^ ((log2N q.num.toNat : Int) - (log2N q.den : Int) + 1) * (q.den : ℚ) :=
          mul_le_mul_of_nonneg_left B1 (le_of_lt hp)
  unfold ilog2
  simp only []
  by_cases h : q < pow2 ((log2N q.num.toNat : Int) - (log2N q.den : Int))
  · rw [if_pos h]
    refine ⟨lower, ?_⟩
    have : (log2N q.num.toNat : Int) - (log2N q.den : Int) - 1 + 1 =
        (log2N q.num.toNat : Int) - (log2N q.den : Int) := by ring
    rw [this]
    exact h
  · rw [if_neg h]
    exact ⟨not_lt.mp h, upper⟩

theorem pow2_lt_pow2_iff {a b : Int} : pow2 a < pow2 b ↔ a < b := by
  simp only [pow2_eq_zpow]
  exact zpow_lt_zpow_iff_right₀ (by norm_num)

theorem pow2_le_pow2_iff {a b : Int} : pow2 a ≤ pow2 b ↔ a ≤ b := by
  simp only [pow2_eq_zpow]
  exact zpow_le_zpow_iff_right₀ (by norm_num)

theorem pow2_one : pow2 1 = 2 := by simp [pow2]

theorem pow2_succ (e : Int) : pow2 (e + 1) = 2 * pow2 e := by
  rw [pow2_add, pow2_one, mul_comm]

theorem roundEven_spec (m : ℚ) (hm : 0 ≤ m) : |(roundEven m : ℚ) - m| ≤ 1 / 2 := by
  have hf0 : (0 : Int) ≤ ⌊m⌋ := Int.floor_nonneg.mpr hm
  have hf : ((⌊m⌋.toNat : Nat) : ℚ) = (⌊m⌋ : ℚ) := by
    have : ((⌊m⌋.toNat : Int)) = ⌊m⌋ := Int.toNat_of_nonneg hf0
    exact_mod_cast this
  have h1 : (⌊m⌋ : ℚ) ≤ m := Int.floor_le m
  have h2 : m < (⌊m⌋ : ℚ) + 1 := Int.lt_floor_add_one m
  unfold roundEven
  simp only []
  rw [hf]
  by_cases c1 : m - (⌊m⌋ : ℚ) < 1 / 2
  · rw [if_pos c1, hf, abs_le]
    constructor <;> linarith
  · rw [if_neg c1]
    by_cases c2 : 1 / 2 < m - (⌊m⌋ : ℚ)
    · rw [if_pos c2]
      push_cast
      rw [hf, abs_le]
      constructor <;> linarith
    · rw [if_neg c2]
      have e : m - (⌊m⌋ : ℚ) = 1 / 2 := le_antisymm (not_lt.mp c2) (not_lt.mp c1)
      by_cases c3 : ⌊m⌋.toNat % 2 = 0
      · rw [if_pos c3, hf, abs_le]
        constructor <;> linarith
      · rw [if_neg c3]
        push_cast
        rw [hf, abs_le]
        constructor <;> linarith

/-- The rounding to binary64 of a number in the range of the normal numbers is
a finite number within the relative error `2^-53`. -/
theorem rnd64_spec (q : ℚ) (h1 : pow2 (-1022) ≤ |q|) (h2 : |q| ≤ pow2 1023) :
    ∃ y : ℚ, rnd64 q = Dbl.fin y ∧ |y - q| ≤ pow2 (-53) * |q| := by
  have ha : 0 < |q| := lt_of_lt_of_le (pow2_pos _) h1
  have hq0 : q ≠ 0 := abs_pos.mp ha
  obtain ⟨l1, l2⟩ := ilog2_spec |q| ha
  have he1 : (-1022 : Int) ≤ ilog2 |q| := by
    have : pow2 (-1022) < pow2 (ilog2 |q| + 1) := lt_of_le_of_lt h1 l2
    have := pow2_lt_pow2_iff.mp this
    omega
  have he2 : ilog2 |q| ≤ 1023 := pow2_le_pow2_iff.mp (le_trans l1 h2)
  have hmax : max (ilog2 |q|) (-1022) = ilog2 |q| := max_eq_left he1
  have hw : 0 < pow2 (ilog2 |q| - 52) := pow2_pos _
  have hm : 0 ≤ |q| / pow2 (ilog2 |q| - 52) := div_nonneg (le_of_lt ha) (le_of_lt hw)
  have hr := roundEven_spec _ hm
  -- the rounded magnitude
  have hv : abs ((roundEven (|q| / pow2 (ilog2 |q| - 52)) : ℚ) * pow2 (ilog2 |q| - 52) -
      |q|) ≤ pow2 (ilog2 |q| - 52) / 2 := by
    have e : (roundEven (|q| / pow2 (ilog2 |q| - 52)) : ℚ) * pow2 (ilog2 |q| - 52) - |q| =
        ((roundEven (|q| / pow2 (ilog2 |q| - 52)) : ℚ) - |q| / pow2 (ilog2 |q| - 52)) *
          pow2 (ilog2 |q| - 52) := by
      field_simp
    rw [e, abs_mul, abs_of_pos hw]
    calc |(roundEven (|q| / pow2 (ilog2 |q| - 52)) : ℚ) - |q| / pow2 (ilog2 |q| - 52)| *
          pow2 (ilog2 |q| - 52) ≤ 1 / 2 * pow2 (ilog2 |q| - 52) :=
          mul_le_mul_of_nonneg_right hr (le_of_lt hw)
      _ = pow2 (ilog2 |q| - 52) / 2 := by ring
  have hw2 : pow2 (ilog2 |q| - 52) / 2 ≤ pow2 (-53) * |q| := by
    have e : pow2 (ilog2 |q| - 52) / 2 = pow2 (-53) * pow2 (ilog2 |q|) := by
      have : ilog2 |q| - 52 = (-53) + ilog2 |q| + 1 := by ring
      rw [this, pow2_succ, pow2_add]
      ring
    rw [e]
    exact mul_le_mul_of_nonneg_left l1 (le_of_lt (pow2_pos _))
  have hw3 : pow2 (ilog2 |q| - 52) / 2 ≤ pow2 970 := by
    have : pow2 (ilog2 |q| - 52) ≤ pow2 971 := pow2_le_pow2 (by omega)
    have e : pow2 971 = 2 * pow2 970 := pow2_succ 970
    linarith
  have hno : ¬ (pow2 1024 ≤
      (roundEven (|q| / pow2 (ilog2 |q| - 52)) : ℚ) * pow2 (ilog2 |q| - 52)) := by
    have e1 : pow2 1024 = 2 * pow2 1023 := pow2_succ 1023
    have e2 : pow2 970 < pow2 1023 := pow2_lt_pow2_iff.mpr (by norm_num)
    have := (abs_le.mp hv).2
    intro hc
    linarith
  unfold rnd64
  rw [if_neg hq0]
  simp only [hmax]
  rw [if_neg hno]
  by_cases hneg : q < 0
  · refine ⟨_, by rw [if_pos hneg], ?_⟩
    have hab : |q| = -q := abs_of_neg hneg
    have e : -((roundEven (|q| / pow2 (ilog2 |q| - 52)) : ℚ) * pow2 (ilog2 |q| - 52)) - q =
        -((roundEven (|q| / pow2 (ilog2 |q| - 52)) : ℚ) * pow2 (ilog2 |q| - 52) - |q|) := by
      rw [hab]; ring
    rw [e, abs_neg]
    exact le_trans hv hw2
  · refine ⟨_, by rw [if_neg hneg], ?_⟩
    have hab : |q| = q := abs_of_nonneg (not_lt.mp hneg)
    have e : (roundEven (|q| / pow2 (ilog2 |q| - 52)) : ℚ) * pow2 (ilog2 |q| - 52) - q =
        (roundEven (|q| / pow2 (ilog2 |q| - 52)) : ℚ) * pow2 (ilog2 |q| - 52) - |q| := by
      rw [hab]
    rw [e]
    exact le_trans hv hw2

theorem isqrtBits_spec (n : Nat) :
    ∀ (b acc : Nat), acc * acc ≤ n → n < (acc + 2 ^ b) * (acc + 2 ^ b) →
      isqrtBits n b acc * isqrtBits n b acc ≤ n ∧
      n < (isqrtBits n b acc + 1) * (isqrtBits n b acc + 1)
  | 0, acc, h1, h2 => by
    simp only [isqrtBits]
    exact ⟨h1, by simpa using h2⟩
  | b + 1, acc, h1, h2 => by
    simp only [isqrtBits]
    by_cases h : (acc + 2 ^ b) * (acc + 2 ^ b) ≤ n
    · rw [if_pos h]
      apply isqrtBits_spec n b (acc + 2 ^ b) h
      have e : acc + 2 ^ b + 2 ^ b = acc + 2 ^ (b + 1) := by rw [pow_succ]; omega
      rw [e]
      exact h2
    · rw [if_neg h]
      exact isqrtBits_spec n b acc h1 (by omega)

theorem isqrtBig_spec (n : Nat) :
    isqrtBig n * isqrtBig n ≤ n ∧ n < (isqrtBig n + 1) * (isqrtBig n + 1) := by
  unfold isqrtBig
  apply isqrtBits_spec n _ 0 (by simp)
  rw [Nat.zero_add, ← pow_two, ← pow_mul]
  rcases Nat.eq_zero_or_pos n with h0 | hpos
  · subst h0
    positivity
  · obtain ⟨_, h2⟩ := log2N_spec n hpos
    refine lt_of_lt_of_le h2 (Nat.pow_le_pow_right (by norm_num) ?_)
    omega

/-- The square root in binary64 of a positive number is positive and within
the relative error `2^-53` of the square root. -/
theorem sqrt64_spec (q : ℚ) (hq : 0 < q) :
    0 < sqrt64 q ∧
    (1 - pow2 (-53)) * (1 - pow2 (-53)) * q ≤ sqrt64 q * sqrt64 q ∧
    sqrt64 q * sqrt64 q ≤ (1 + pow2 (-53)) * (1 + pow2 (-53)) * q := by
  obtain ⟨l1, l2⟩ := ilog2_spec q hq
  have hw : 0 < pow2 (ilog2 q / 2 - 52) := pow2_pos _
  have hww : 0 < pow2 (ilog2 q / 2 - 52) * pow2 (ilog2 q / 2 - 52) := mul_pos hw hw
  have hu : pow2 (-53) = 1 / 9007199254740992 := by
    rw [pow2_eq_zpow, zpow_neg]; norm_num
  -- the scaled argument lies in `[2^104, 2^106)`
  have ht1 : (2 : ℚ) ^ 104 ≤ q / (pow2 (ilog2 q / 2 - 52) * pow2 (ilog2 q / 2 - 52)) := by
    rw [le_div_iff₀ hww]
    have e : (2 : ℚ) ^ 104 * (pow2 (ilog2 q / 2 - 52) * pow2 (ilog2 q / 2 - 52)) =
        pow2 (2 * (ilog2 q / 2)) := by
      have h104 : (2 : ℚ) ^ 104 = pow2 104 := by rw [pow2_eq_zpow]; norm_cast
      rw [h104, ← pow2_add, ← pow2_add]
      congr 1
      ring
    rw [e]
    exact le_trans (pow2_le_pow2 (by omega)) l1
  have hs0 := isqrtBig_spec ⌊q / (pow2 (ilog2 q / 2 - 52) * pow2 (ilog2 q / 2 - 52))⌋.toNat
  have htpos : 0 ≤ q / (pow2 (ilog2 q / 2 - 52) * pow2 (ilog2 q / 2 - 52)) :=
    le_trans (by positivity) ht1
  have hfl0 : (0 : Int) ≤ ⌊q / (pow2 (ilog2 q / 2 - 52) * pow2 (ilog2 q / 2 - 52))⌋ :=
    Int.floor_nonneg.mpr htpos
  have hfl : ((⌊q / (pow2 (ilog2 q / 2 - 52) * pow2 (ilog2 q / 2 - 52))⌋.toNat : Nat) : ℚ) =
      (⌊q / (pow2 (ilog2 q / 2 - 52) * pow2 (ilog2 q / 2 - 52))⌋ : ℚ) := by
    have := Int.toNat_of_nonneg hfl0
    exact_mod_cast this
  have hfl1 := Int.floor_le (q / (pow2 (ilog2 q / 2 - 52) * pow2 (ilog2 q / 2 - 52)))
  have hfl2 := Int.lt_floor_add_one
    (q / (pow2 (ilog2 q / 2 - 52) * pow2 (ilog2 q / 2 - 52)))
  unfold sqrt64
  rw [if_neg (not_le.mpr hq)]
  simp only []
  generalize hs : isqrtBig ⌊q / (pow2 (ilog2 q / 2 - 52) * pow2 (ilog2 q / 2 - 52))⌋.toNat = s
    at hs0
  generalize ht : q / (pow2 (ilog2 q / 2 - 52) * pow2 (ilog2 q / 2 - 52)) = t
    at ht1 htpos hfl hfl0 hfl1 hfl2 hs0 hs
  have hqt : q = t * (pow2 (ilog2 q / 2 - 52) * pow2 (ilog2 q / 2 - 52)) := by
    rw [← ht]; field_simp
  generalize pow2 (ilog2 q / 2 - 52) = w at hw hww hqt
  obtain ⟨s1, s2⟩ := hs0
  have S1 : (s : ℚ) * s ≤ t := by
    have : ((s * s : Nat) : ℚ) ≤ ((⌊t⌋.toNat : Nat) : ℚ) := by exact_mod_cast s1
    push_cast at this
    rw [hfl] at this
    linarith
  have S2 : t < ((s : ℚ) + 1) * ((s : ℚ) + 1) := by
    have : ((⌊t⌋.toNat : Nat) : ℚ) + 1 ≤ (((s + 1) * (s + 1) : Nat) : ℚ) := by
      exact_mod_cast s2
    push_cast at this
    rw [hfl] at this
    linarith
  have hs52 : (2 : ℚ) ^ 52 ≤ (s : ℚ) := by
    by_contra hc
    have hc1 : (s : ℚ) < (2 : ℚ) ^ 52 := not_le.mp hc
    have hc2 : s < 2 ^ 52 := by exact_mod_cast hc1
    have hc3 : (s : ℚ) + 1 ≤ (2 : ℚ) ^ 52 := by exact_mod_cast hc2
    have hs0 : (0 : ℚ) ≤ (s : ℚ) := Nat.cast_nonneg s
    have : ((s : ℚ) + 1) * ((s : ℚ) + 1) ≤ (2 : ℚ) ^ 52 * (2 : ℚ) ^ 52 :=
      mul_le_mul hc3 hc3 (by linarith) (by positivity)
    have e : (2 : ℚ) ^ 52 * (2 : ℚ) ^ 52 = (2 : ℚ) ^ 104 := by norm_num
    linarith
  have hs0 : (0 : ℚ) < (s : ℚ) := lt_of_lt_of_le (by positivity) hs52
  have h52 : (2 : ℚ) ^ 52 = 4503599627370496 := by norm_num
  rw [h52] at hs52
  rw [hu]
  rw [hqt]
  have hU : (0 : ℚ) ≤ 1 / 9007199254740992 := by norm_num
  -- the two candidates
  have caseS : t ≤ ((s : ℚ) + 1 / 2) * ((s : ℚ) + 1 / 2) →
      0 < (s : ℚ) * w ∧
      (1 - 1 / 9007199254740992) * (1 - 1 / 9007199254740992) * (t * (w * w)) ≤
        (s : ℚ) * w * ((s : ℚ) * w) ∧
      (s : ℚ) * w * ((s : ℚ) * w) ≤
        (1 + 1 / 9007199254740992) * (1 + 1 / 9007199254740992) * (t * (w * w)) := by
    intro hle
    have a1 : (s : ℚ) + 1 / 2 ≤ (s : ℚ) * (1 + 1 / 9007199254740992) := by linarith
    have a2 : t ≤ (s : ℚ) * (1 + 1 / 9007199254740992) *
        ((s : ℚ) * (1 + 1 / 9007199254740992)) :=
      le_trans hle (mul_le_mul a1 a1 (by positivity) (by positivity))
    have a3 : (1 - 1 / 9007199254740992) * (1 - 1 / 9007199254740992) * t ≤ (s : ℚ) * s := by
      have b1 : (1 - 1 / 9007199254740992) * (1 - 1 / 9007199254740992) * t ≤
          (1 - 1 / 9007199254740992) * (1 - 1 / 9007199254740992) *
            ((s : ℚ) * (1 + 1 / 9007199254740992) *
              ((s : ℚ) * (1 + 1 / 9007199254740992))) :=
        mul_le_mul_of_nonneg_left a2 (by norm_num)
      have b2 : (1 - 1 / 9007199254740992) * (1 - 1 / 9007199254740992) *
          ((s : ℚ) * (1 + 1 / 9007199254740992) * ((s : ℚ) * (1 + 1 / 9007199254740992))) =
          ((1 - 1 / 9007199254740992) * (1 + 1 / 9007199254740992)) *
            ((1 - 1 / 9007199254740992) * (1 + 1 / 9007199254740992)) * ((s : ℚ) * s) := by
        ring
      have b3 : ((1 - 1 / 9007199254740992 : ℚ) * (1 + 1 / 9007199254740992)) *
          ((1 - 1 / 9007199254740992) * (1 + 1 / 9007199254740992)) ≤ 1 := by norm_num
      have b4 : (0 : ℚ) ≤ (s : ℚ) * s := by positivity
      calc (1 - 1 / 9007199254740992) * (1 - 1 / 9007199254740992) * t
          ≤ ((1 - 1 / 9007199254740992) * (1 + 1 / 9007199254740992)) *
            ((1 - 1 / 9007199254740992) * (1 + 1 / 9007199254740992)) * ((s : ℚ) * s) := by
            rw [← b2]; exact b1
        _ ≤ 1 * ((s : ℚ) * s) := mul_le_mul_of_nonneg_right b3 b4
        _ = (s : ℚ) * s := one_mul _
    have a4 : (s : ℚ) * s ≤ (1 + 1 / 9007199254740992) * (1 + 1 / 9007199254740992) * t := by
      have : (1 : ℚ) ≤ (1 + 1 / 9007199254740992) * (1 + 1 / 9007199254740992) := by norm_num
      have := mul_le_mul_of_nonneg_right this htpos
      linarith
    refine ⟨mul_pos hs0 hw, ?_, ?_⟩
    · have := mul_le_mul_of_nonneg_right a3 (le_of_lt hww)
      calc (1 - 1 / 9007199254740992) * (1 - 1 / 9007199254740992) * (t * (w * w))
          = (1 - 1 / 9007199254740992) * (1 - 1 / 9007199254740992) * t * (w * w) := by ring
        _ ≤ (s : ℚ) * s * (w * w) := this
        _ = (s : ℚ) * w * ((s : ℚ) * w) := by ring
    · have := mul_le_mul_of_nonneg_right a4 (le_of_lt hww)
      calc (s : ℚ) * w * ((s : ℚ) * w) = (s : ℚ) * s * (w * w) := by ring
        _ ≤ (1 + 1 / 9007199254740992) * (1 + 1 / 9007199254740992) * t * (w * w) := this
        _ = (1 + 1 / 9007199254740992) * (1 + 1 / 9007199254740992) * (t * (w * w)) := by
            ring
  have caseS1 : ((s : ℚ) + 1 / 2) * ((s : ℚ) + 1 / 2) ≤ t →
      0 < ((s : ℚ) + 1) * w ∧
      (1 - 1 / 9007199254740992) * (1 - 1 / 9007199254740992) * (t * (w * w)) ≤
        ((s : ℚ) + 1) * w * (((s : ℚ) + 1) * w) ∧
      ((s : ℚ) + 1) * w * (((s : ℚ) + 1) * w) ≤
        (1 + 1 / 9007199254740992) * (1 + 1 / 9007199254740992) * (t * (w * w)) := by
    intro hge
    have a1 : (s : ℚ) + 1 ≤ (1 + 1 / 9007199254740992) * ((s : ℚ) + 1 / 2) := by linarith
    have a2 : ((s : ℚ) + 1) * ((s : ℚ) + 1) ≤
        (1 + 1 / 9007199254740992) * ((s : ℚ) + 1 / 2) *
          ((1 + 1 / 9007199254740992) * ((s : ℚ) + 1 / 2)) :=
      mul_le_mul a1 a1 (by positivity) (by positivity)
    have a3 : ((s : ℚ) + 1) * ((s : ℚ) + 1) ≤
        (1 + 1 / 9007199254740992) * (1 + 1 / 9007199254740992) * t := by
      have := mul_le_mul_of_nonneg_left hge
        (by norm_num : (0 : ℚ) ≤ (1 + 1 / 9007199254740992) * (1 + 1 / 9007199254740992))
      calc ((s : ℚ) + 1) * ((s : ℚ) + 1)
          ≤ (1 + 1 / 9007199254740992) * ((s : ℚ) + 1 / 2) *
            ((1 + 1 / 9007199254740992) * ((s : ℚ) + 1 / 2)) := a2
        _ = (1 + 1 / 9007199254740992) * (1 + 1 / 9007199254740992) *
            (((s : ℚ) + 1 / 2) * ((s : ℚ) + 1 / 2)) := by ring
        _ ≤ (1 + 1 / 9007199254740992) * (1 + 1 / 9007199254740992) * t := this
    have a4 : (1 - 1 / 9007199254740992) * (1 - 1 / 9007199254740992) * t ≤
        ((s : ℚ) + 1) * ((s : ℚ) + 1) := by
      have : (1 - 1 / 9007199254740992 : ℚ) * (1 - 1 / 9007199254740992) ≤ 1 := by norm_num
      have := mul_le_mul_of_nonneg_right this htpos
      linarith
    refine ⟨mul_pos (by linarith) hw, ?_, ?_⟩
    · have := mul_le_mul_of_nonneg_right a4 (le_of_lt hww)
      calc (1 - 1 / 9007199254740992) * (1 - 1 / 9007199254740992) * (t * (w * w))
          = (1 - 1 / 9007199254740992) * (1 - 1 / 9007199254740992) * t * (w * w) := by ring
        _ ≤ ((s : ℚ) + 1) * ((s : ℚ) + 1) * (w * w) := this
        _ = ((s : ℚ) + 1) * w * (((s : ℚ) + 1) * w) := by ring
    · have := mul_le_mul_of_nonneg_right a3 (le_of_lt hww)
      calc ((s : ℚ) + 1) * w * (((s : ℚ) + 1) * w)
          = ((s : ℚ) + 1) * ((s : ℚ) + 1) * (w * w) := by ring
        _ ≤ (1 + 1 / 9007199254740992) * (1 + 1 / 9007199254740992) * t * (w * w) := this
        _ = (1 + 1 / 9007199254740992) * (1 + 1 / 9007199254740992) * (t * (w * w)) := by
            ring
  by_cases c1 : t < ((s : ℚ) + 1 / 2) * ((s : ℚ) + 1 / 2)
  · rw [if_pos c1]
    exact caseS (le_of_lt c1)
  · rw [if_neg c1]
    by_cases c2 : ((s : ℚ) + 1 / 2) * ((s : ℚ) + 1 / 2) < t
    · rw [if_pos c2]
      push_cast
      exact caseS1 (le_of_lt c2)
    · rw [if_neg c2]
      by_cases c3 : s % 2 = 0
      · rw [if_pos c3]
        exact caseS (not_lt.mp c2)
      · rw [if_neg c3]
        push_cast
        exact caseS1 (not_lt.mp c1)

/-! ## The rounding errors of the distance -/

theorem rnd64_rel (q : ℚ) (h1 : q = 0 ∨ pow2 (-1022) ≤ |q|) (h2 : |q| ≤ pow2 1023) :
    ∃ y : ℚ, rnd64 q = Dbl.fin y ∧ |y - q| ≤ pow2 (-53) * |q| := by
  rcases h1 with h0 | h1
  · subst h0
    exact ⟨0, rnd64_zero.1, by simp⟩
  · exact rnd64_spec q h1 h2

theorem rel_bounds (u q y : ℚ) (hq : 0 ≤ q) (h : |y - q| ≤ u * |q|) :
    (1 - u) * q ≤ y ∧ y ≤ (1 + u) * q := by
  rw [abs_of_nonneg hq] at h
  obtain ⟨h1, h2⟩ := abs_le.mp h
  constructor <;> linarith

theorem sq_bounds (u t y : ℚ) (hu0 : 0 ≤ u) (hu1 : u ≤ 1) (h : |y - t| ≤ u * |t|) :
    (1 - u) * (1 - u) * (t * t) ≤ y * y ∧ y * y ≤ (1 + u) * (1 + u) * (t * t) := by
  have h1 : |y| ≤ (1 + u) * |t| := by
    have := abs_sub_abs_le_abs_sub y t
    linarith
  have h2 : (1 - u) * |t| ≤ |y| := by
    have := abs_sub_abs_le_abs_sub t y
    rw [abs_sub_comm t y] at this
    linarith
  have ht : 0 ≤ |t| := abs_nonneg t
  have hy : 0 ≤ |y| := abs_nonneg y
  have e1 : y * y = |y| * |y| := (abs_mul_abs_self y).symm
  have e2 : t * t = |t| * |t| := (abs_mul_abs_self t).symm
  rw [e1, e2]
  constructor
  · have := mul_le_mul h2 h2 (mul_nonneg (by linarith) ht) hy
    calc (1 - u) * (1 - u) * (|t| * |t|) = (1 - u) * |t| * ((1 - u) * |t|) := by ring
      _ ≤ |y| * |y| := this
  · have := mul_le_mul h1 h1 hy (mul_nonneg (by linarith) ht)
    calc |y| * |y| ≤ (1 + u) * |t| * ((1 + u) * |t|) := this
      _ = (1 + u) * (1 + u) * (|t| * |t|) := by ring

theorem pow_one_sub_ge (u : ℚ) (hu1 : u ≤ 1) (m : Nat) :
    1 - (m : ℚ) * u ≤ (1 - u) ^ m := by
  have := one_add_mul_le_pow (show (-2 : ℚ) ≤ -u by linarith) m
  have e : (1 : ℚ) + (m : ℚ) * -u = 1 - (m : ℚ) * u := by ring
  have e2 : (1 : ℚ) + -u = 1 - u := by ring
  rw [e, e2] at this
  exact this

theorem pow_one_add_le (u : ℚ) (hu0 : 0 ≤ u) (m : Nat) (hm : (m : ℚ) * u < 1) :
    (1 + u) ^ m * (1 - (m : ℚ) * u) ≤ 1 := by
  induction m with
  | zero => simp
  | succ m ih =>
    have hm1 : (m : ℚ) * u < 1 := by
      push_cast at hm
      nlinarith
    have ih1 := ih hm1
    have hp : 0 ≤ (1 + u) ^ m := by positivity
    push_cast
    push_cast at hm
    have key : (1 + u) * (1 - ((m : ℚ) + 1) * u) ≤ 1 - (m : ℚ) * u := by
      have : 0 ≤ ((m : ℚ) + 1) * (u * u) := by positivity
      nlinarith
    calc (1 + u) ^ (m + 1) * (1 - ((m : ℚ) + 1) * u)
        = (1 + u) ^ m * ((1 + u) * (1 - ((m : ℚ) + 1) * u)) := by rw [pow_succ]; ring
      _ ≤ (1 + u) ^ m * (1 - (m : ℚ) * u) := mul_le_mul_of_nonneg_left key hp
      _ ≤ 1 := ih1

theorem pow2_neg53 : pow2 (-53) = 1 / 9007199254740992 := by
  rw [pow2_eq_zpow, zpow_neg]; norm_num

theorem pow2_of_nonneg (e : Int) (h : 0 ≤ e) : pow2 e = ((2 ^ e.toNat : Nat) : ℚ) := by
  unfold pow2
  rw [if_pos h]

/-- A binary64 number of magnitude at least `2^-448` is an integer multiple of
`2^-500`. -/
theorem rnd64_on_grid (q : ℚ) (h : rnd64 q = Dbl.fin q) (hq : q = 0 ∨ pow2 (-448) ≤ |q|) :
    ∃ m : Int, q = (m : ℚ) * pow2 (-500) := by
  rcases hq with h0 | hq
  · exact ⟨0, by simp [h0]⟩
  have ha : 0 < |q| := lt_of_lt_of_le (pow2_pos _) hq
  have hq0 : q ≠ 0 := abs_pos.mp ha
  obtain ⟨_, l2⟩ := ilog2_spec |q| ha
  have he : (-448 : Int) ≤ max (ilog2 |q|) (-1022) := by
    have : pow2 (-448) < pow2 (ilog2 |q| + 1) := lt_of_le_of_lt hq l2
    have := pow2_lt_pow2_iff.mp this
    have := le_max_left (ilog2 |q|) (-1022)
    omega
  unfold rnd64 at h
  rw [if_neg hq0] at h
  simp only [] at h
  generalize max (ilog2 |q|) (-1022) = e at h he
  generalize roundEven (|q| / pow2 (e - 52)) = r at h
  have hw : pow2 (e - 52) = ((2 ^ (e + 448).toNat : Nat) : ℚ) * pow2 (-500) := by
    have : e - 52 = (e + 448) + (-500) := by ring
    rw [this, pow2_add, pow2_of_nonneg (e + 448) (by omega)]
  by_cases hov : pow2 1024 ≤ (r : ℚ) * pow2 (e - 52)
  · rw [if_pos hov] at h
    by_cases hneg : q < 0
    · rw [if_pos hneg] at h; cases h
    · rw [if_neg hneg] at h; cases h
  · rw [if_neg hov] at h
    have hv := Dbl.fin.inj h
    by_cases hneg : q < 0
    · rw [if_pos hneg] at hv
      refine ⟨-((r * 2 ^ (e + 448).toNat : Nat) : Int), ?_⟩
      rw [← hv, hw]
      push_cast
      ring
    · rw [if_neg hneg] at hv
      refine ⟨((r * 2 ^ (e + 448).toNat : Nat) : Int), ?_⟩
      rw [← hv, hw]
      push_cast
      ring

theorem half_le_pow_one_sub (m : Nat) (hm : m ≤ 1029) : (1 : ℚ) / 2 ≤ (1 - pow2 (-53)) ^ m := by
  have h := pow_one_sub_ge (pow2 (-53)) (by rw [pow2_neg53]; norm_num) m
  have hm1 : (m : ℚ) ≤ 1029 := by exact_mod_cast hm
  rw [pow2_neg53] at h ⊢
  have : (m : ℚ) * (1 / 9007199254740992) ≤ 1 / 2 := by linarith
  linarith

theorem pow_one_add_le_two (m : Nat) (hm : m ≤ 1029) : (1 + pow2 (-53)) ^ m ≤ (2 : ℚ) := by
  have hm1 : (m : ℚ) ≤ 1029 := by exact_mod_cast hm
  have hmu : (m : ℚ) * pow2 (-53) ≤ 1 / 2 := by
    rw [pow2_neg53]; linarith
  have h := pow_one_add_le (pow2 (-53)) (le_of_lt (pow2_pos _)) m (by linarith)
  have hp : (0 : ℚ) ≤ (1 + pow2 (-53)) ^ m := by
    have := pow2_pos (-53)
    positivity
  nlinarith

/-- The loop of `InqDist` in binary64 on coordinates that are multiples of
`2^-500` of magnitude at most `2^500`: after `k` turns the sum is within the
factors `(1 ± 2^-53)^(k+3)` of the exact sum. -/
theorem InqDistR.loop_bounds :
    ∀ (n : Nat) (x y : List (Dbl ℚ)) (k : Nat) (s S : ℚ),
      x.length = n → y.length = n →
      (∀ c ∈ x, ∃ m : Int, c = Dbl.fin ((m : ℚ) * pow2 (-500)) ∧
        |(m : ℚ) * pow2 (-500)| ≤ pow2 500) →
      (∀ c ∈ y, ∃ m : Int, c = Dbl.fin ((m : ℚ) * pow2 (-500)) ∧
        |(m : ℚ) * pow2 (-500)| ≤ pow2 500) →
      k + n ≤ 1024 →
      (1 - pow2 (-53)) ^ (k + 3) * S ≤ s → s ≤ (1 + pow2 (-53)) ^ (k + 3) * S →
      (S = 0 ∨ pow2 (-1000) ≤ S) → S ≤ (k : ℚ) * pow2 1002 →
      ∃ s1 : ℚ, InqDistR.loop rnd64 n x y (Dbl.fin s) = Except.ok (Dbl.fin s1) ∧
        (1 - pow2 (-53)) ^ (k + n + 3) * (S + distSq x y) ≤ s1 ∧
        s1 ≤ (1 + pow2 (-53)) ^ (k + n + 3) * (S + distSq x y) ∧
        0 ≤ S + distSq x y
  | 0, x, y, k, s, S, hx, hy, _, _, _, h1, h2, h3, _ => by
    have ex : x = [] := List.length_eq_zero.mp hx
    subst ex
    have hS0 : 0 ≤ S := by
      rcases h3 with h | h
      · rw [h]
      · exact le_trans (le_of_lt (pow2_pos _)) h
    refine ⟨s, rfl, ?_, ?_, ?_⟩ <;> simp [distSq] <;> assumption
  | n + 1, [], _, _, _, _, hx, _, _, _, _, _, _, _, _ => by simp at hx
  | n + 1, _ :: _, [], _, _, _, _, hy, _, _, _, _, _, _, _ => by simp at hy
  | n + 1, a :: x, b :: y, k, s, S, hx, hy, gx, gy, hkn, h1, h2, h3, h4 => by
    obtain ⟨ma, ea, ba⟩ := gx a (List.mem_cons_self _ _)
    obtain ⟨mb, eb, bb⟩ := gy b (List.mem_cons_self _ _)
    -- constants
    have hu0 : (0 : ℚ) ≤ pow2 (-53) := le_of_lt (pow2_pos _)
    have hu1 : pow2 (-53) ≤ 1 := by rw [pow2_neg53]; norm_num
    have hg : (0 : ℚ) < pow2 (-500) := pow2_pos _
    have hS0 : 0 ≤ S := by
      rcases h3 with h | h
      · rw [h]
      · exact le_trans (le_of_lt (pow2_pos _)) h
    have hk3 : k + 3 ≤ 1029 := by omega
    -- the difference
    have et : (ma : ℚ) * pow2 (-500) + -((mb : ℚ) * pow2 (-500)) =
        ((ma - mb : Int) : ℚ) * pow2 (-500) := by push_cast; ring
    have ht_hi : |((ma - mb : Int) : ℚ) * pow2 (-500)| ≤ pow2 501 := by
      rw [← et]
      have := abs_add ((ma : ℚ) * pow2 (-500)) (-((mb : ℚ) * pow2 (-500)))
      rw [abs_neg] at this
      have e : pow2 501 = 2 * pow2 500 := pow2_succ 500
      linarith
    have ht_lo : ((ma - mb : Int) : ℚ) * pow2 (-500) = 0 ∨
        pow2 (-500) ≤ |((ma - mb : Int) : ℚ) * pow2 (-500)| := by
      by_cases hz : ma - mb = 0
      · left; rw [hz]; simp
      · right
        rw [abs_mul, abs_of_pos hg]
        have : (1 : ℚ) ≤ |((ma - mb : Int) : ℚ)| := by
          have h1 : (1 : Int) ≤ |ma - mb| := Int.one_le_abs hz
          have : ((1 : Int) : ℚ) ≤ ((|ma - mb| : Int) : ℚ) := by exact_mod_cast h1
          simpa using this
        have := mul_le_mul_of_nonneg_right this (le_of_lt hg)
        linarith
    generalize ((ma - mb : Int) : ℚ) * pow2 (-500) = t at et ht_hi ht_lo
    have htt0 : 0 ≤ t * t := mul_self_nonneg t
    have htt_lo : t * t = 0 ∨ pow2 (-1000) ≤ t * t := by
      rcases ht_lo with h | h
      · left; rw [h]; ring
      · right
        have := mul_le_mul h h (le_of_lt hg) (abs_nonneg t)
        rw [abs_mul_abs_self] at this
        have e : pow2 (-1000) = pow2 (-500) * pow2 (-500) := by rw [← pow2_add]; rfl
        rw [e]; exact this
    have htt_hi : t * t ≤ pow2 1002 := by
      have := mul_le_mul ht_hi ht_hi (abs_nonneg t) (le_of_lt (pow2_pos _))
      rw [abs_mul_abs_self] at this
      have e : pow2 1002 = pow2 501 * pow2 501 := by rw [← pow2_add]; rfl
      rw [e]; exact this
    obtain ⟨th, rth, bth⟩ := rnd64_rel t
      (by
        rcases ht_lo with h | h
        · left; exact h
        · right; exact le_trans (pow2_le_pow2 (by norm_num)) h)
      (le_trans ht_hi (pow2_le_pow2 (by norm_num)))
    have sb := sq_bounds (pow2 (-53)) t th hu0 hu1 bth
    -- the square
    have hth0 : 0 ≤ th * th := mul_self_nonneg th
    have hhalf2 := half_le_pow_one_sub 2 (by norm_num)
    have htwo2 := pow_one_add_le_two 2 (by norm_num)
    have hp_lo : th * th = 0 ∨ pow2 (-1022) ≤ |th * th| := by
      rw [abs_of_nonneg hth0]
      rcases htt_lo with h | h
      · left
        have := sb.2
        rw [h, mul_zero] at this
        exact le_antisymm this hth0
      · right
        have e1 : (1 - pow2 (-53)) * (1 - pow2 (-53)) = (1 - pow2 (-53)) ^ 2 := by ring
        have h5 : 1 / 2 * pow2 (-1000) ≤ (1 - pow2 (-53)) * (1 - pow2 (-53)) * (t * t) := by
          rw [e1]
          exact mul_le_mul hhalf2 h (le_of_lt (pow2_pos _)) (le_trans (by norm_num) hhalf2)
        have e2 : pow2 (-1000) = 2 * pow2 (-1001) := by rw [← pow2_succ]; norm_num
        have h6 : pow2 (-1022) ≤ pow2 (-1001) := pow2_le_pow2 (by norm_num)
        linarith [sb.1]
    have hp_hi : |th * th| ≤ pow2 1023 := by
      rw [abs_of_nonneg hth0]
      have e1 : (1 + pow2 (-53)) * (1 + pow2 (-53)) = (1 + pow2 (-53)) ^ 2 := by ring
      have h5 : (1 + pow2 (-53)) * (1 + pow2 (-53)) * (t * t) ≤ 2 * pow2 1002 := by
        rw [e1]
        exact mul_le_mul htwo2 htt_hi htt0 (by norm_num)
      have e2 : pow2 1003 = 2 * pow2 1002 := pow2_succ 1002
      have h6 : pow2 1003 ≤ pow2 1023 := pow2_le_pow2 (by norm_num)
      linarith [sb.2]
    obtain ⟨ph, rph, bph⟩ := rnd64_rel (th * th) hp_lo hp_hi
    have pb := rel_bounds (pow2 (-53)) (th * th) ph hth0 bph
    -- the sum
    have step0 : ((1 - pow2 (-53)) ^ (k + 3) * (S + t * t) ≤ s + ph ∧
        s + ph ≤ (1 + pow2 (-53)) ^ (k + 3) * (S + t * t)) := by
      have hp3 : (1 - pow2 (-53)) ^ 3 * (t * t) ≤ ph := by
        have := mul_le_mul_of_nonneg_left sb.1 (by linarith : (0 : ℚ) ≤ 1 - pow2 (-53))
        have e : (1 - pow2 (-53)) ^ 3 * (t * t) =
            (1 - pow2 (-53)) * ((1 - pow2 (-53)) * (1 - pow2 (-53)) * (t * t)) := by ring
        rw [e]
        exact le_trans this pb.1
      have hq3 : ph ≤ (1 + pow2 (-53)) ^ 3 * (t * t) := by
        have := mul_le_mul_of_nonneg_left sb.2 (by linarith : (0 : ℚ) ≤ 1 + pow2 (-53))
        have e : (1 + pow2 (-53)) ^ 3 * (t * t) =
            (1 + pow2 (-53)) * ((1 + pow2 (-53)) * (1 + pow2 (-53)) * (t * t)) := by ring
        rw [e]
        exact le_trans pb.2 this
      have hlow : (1 - pow2 (-53)) ^ (k + 3) ≤ (1 - pow2 (-53)) ^ 3 :=
        pow_le_pow_of_le_one (by linarith) (by linarith) (by omega)
      have hupp : (1 + pow2 (-53)) ^ 3 ≤ (1 + pow2 (-53)) ^ (k + 3) :=
        pow_le_pow_right₀ (by linarith) (by omega)
      constructor
      · have := mul_le_mul_of_nonneg_right hlow htt0
        have e : (1 - pow2 (-53)) ^ (k + 3) * (S + t * t) =
            (1 - pow2 (-53)) ^ (k + 3) * S + (1 - pow2 (-53)) ^ (k + 3) * (t * t) := by ring
        rw [e]
        linarith
      · have := mul_le_mul_of_nonneg_right hupp htt0
        have e : (1 + pow2 (-53)) ^ (k + 3) * (S + t * t) =
            (1 + pow2 (-53)) ^ (k + 3) * S + (1 + pow2 (-53)) ^ (k + 3) * (t * t) := by ring
        rw [e]
        linarith
    have hST0 : 0 ≤ S + t * t := by linarith
    have hhalf := half_le_pow_one_sub (k + 3) hk3
    have htwo := pow_one_add_le_two (k + 3) hk3
    have hz0 : 0 ≤ s + ph :=
      le_trans (mul_nonneg (le_trans (by norm_num) hhalf) hST0) step0.1
    have hST_lo : S + t * t = 0 ∨ pow2 (-1000) ≤ S + t * t := by
      rcases h3 with h | h
      · rcases htt_lo with h' | h'
        · left; rw [h, h']; ring
        · right; rw [h]; linarith
      · right; linarith
    have hST_hi : S + t * t ≤ ((k + 1 : Nat) : ℚ) * pow2 1002 := by
      push_cast
      linarith
    have hz_lo : s + ph = 0 ∨ pow2 (-1022) ≤ |s + ph| := by
      rw [abs_of_nonneg hz0]
      rcases hST_lo with h | h
      · left
        have := step0.2
        rw [h, mul_zero] at this
        exact le_antisymm this hz0
      · right
        have h5 : 1 / 2 * pow2 (-1000) ≤ (1 - pow2 (-53)) ^ (k + 3) * (S + t * t) :=
          mul_le_mul hhalf h (le_of_lt (pow2_pos _)) (le_trans (by norm_num) hhalf)
        have e2 : pow2 (-1000) = 2 * pow2 (-1001) := by rw [← pow2_succ]; norm_num
        have h6 : pow2 (-1022) ≤ pow2 (-1001) := pow2_le_pow2 (by norm_num)
        linarith [step0.1]
    have hz_hi : |s + ph| ≤ pow2 1023 := by
      rw [abs_of_nonneg hz0]
      have hk1 : ((k + 1 : Nat) : ℚ) ≤ 1024 := by exact_mod_cast (by omega : k + 1 ≤ 1024)
      have h7 : S + t * t ≤ 1024 * pow2 1002 :=
        le_trans hST_hi (mul_le_mul_of_nonneg_right hk1 (le_of_lt (pow2_pos _)))
      have h5 : (1 + pow2 (-53)) ^ (k + 3) * (S + t * t) ≤ 2 * (1024 * pow2 1002) :=
        mul_le_mul htwo h7 hST0 (by norm_num)
      have e2 : 2 * (1024 * pow2 1002) = pow2 1013 := by
        have : pow2 1013 = pow2 11 * pow2 1002 := by rw [← pow2_add]; rfl
        rw [this]
        have : pow2 11 = 2048 := by simp [pow2]
        rw [this]; ring
      have h6 : pow2 1013 ≤ pow2 1023 := pow2_le_pow2 (by norm_num)
      linarith [step0.2]
    obtain ⟨z, rz, bz⟩ := rnd64_rel (s + ph) hz_lo hz_hi
    have zb := rel_bounds (pow2 (-53)) (s + ph) z hz0 bz
    have hz1 : (1 - pow2 (-53)) ^ (k + 1 + 3) * (S + t * t) ≤ z := by
      have := mul_le_mul_of_nonneg_left step0.1 (by linarith : (0 : ℚ) ≤ 1 - pow2 (-53))
      have e : (1 - pow2 (-53)) ^ (k + 1 + 3) * (S + t * t) =
          (1 - pow2 (-53)) * ((1 - pow2 (-53)) ^ (k + 3) * (S + t * t)) := by
        have : k + 1 + 3 = (k + 3) + 1 := by ring
        rw [this, pow_succ]; ring
      rw [e]
      exact le_trans this zb.1
    have hz2 : z ≤ (1 + pow2 (-53)) ^ (k + 1 + 3) * (S + t * t) := by
      have := mul_le_mul_of_nonneg_left step0.2 (by linarith : (0 : ℚ) ≤ 1 + pow2 (-53))
      have e : (1 + pow2 (-53)) ^ (k + 1 + 3) * (S + t * t) =
          (1 + pow2 (-53)) * ((1 + pow2 (-53)) ^ (k + 3) * (S + t * t)) := by
        have : k + 1 + 3 = (k + 3) + 1 := by ring
        rw [this, pow_succ]; ring
      rw [e]
      exact le_trans zb.2 this
    -- the rest of the loop
    obtain ⟨s1, r1, b1, b2, b3⟩ := InqDistR.loop_bounds n x y (k + 1) z (S + t * t)
      (by simpa using hx) (by simpa using hy)
      (fun c hc => gx c (List.mem_cons_of_mem _ hc))
      (fun c hc => gy c (List.mem_cons_of_mem _ hc))
      (by omega) hz1 hz2 hST_lo hST_hi
    have ed : S + distSq (a :: x) (b :: y) = S + t * t + distSq x y := by
      rw [ea, eb]
      simp only [distSq, Dbl.toK]
      rw [← et]
      ring
    have ek : k + (n + 1) + 3 = k + 1 + n + 3 := by ring
    refine ⟨s1, ?_, ?_, ?_, ?_⟩
    · rw [ea, eb]
      unfold InqDistR.loop
      simp only [Dbl.sub, Dbl.neg, Dbl.add, Dbl.round, et, rth, Dbl.mul, rph, rz]
      exact r1
    · rw [ed, ek]; exact b1
    · rw [ed, ek]; exact b2
    · rw [ed]; exact b3

/-- The distance in binary64 of two points in range of an oracle with moderate
coordinates in dimension at most `1024`: its square is within the factors
`(1 ± 2^-53)^(dim+5)` of the sum of the squared coordinate differences. -/
theorem InqDistR_bounds (o : oracle_t ℚ) (hwf : o.WF) (hmod : o.Moderate64)
    (hdim : o.dim ≤ 1024) (a b : Int)
    (ha0 : 0 ≤ a) (ha1 : a < o.npoints + o.nquery)
    (hb0 : 0 ≤ b) (hb1 : b < o.npoints + o.nquery) :
    ∃ (x y : List (Dbl ℚ)) (d : ℚ),
      o.sample.get? a.toNat = some x ∧ o.sample.get? b.toNat = some y ∧
      x.length = y.length ∧
      InqDistR rnd64 sqrt64 o a b = Except.ok (Dbl.fin d) ∧ 0 ≤ d ∧
      (1 - pow2 (-53)) ^ (o.dim.toNat + 5) * distSq x y ≤ d * d ∧
      d * d ≤ (1 + pow2 (-53)) ^ (o.dim.toNat + 5) * distSq x y := by
  obtain ⟨x, hx, gx⟩ := rd_in_range o.sample a ha0 (by rw [hwf.1]; omega)
  obtain ⟨y, hy, gy⟩ := rd_in_range o.sample b hb0 (by rw [hwf.1]; omega)
  have lx := hwf.2.2 x (List.get?_mem gx)
  have ly := hwf.2.2 y (List.get?_mem gy)
  have grid : ∀ v ∈ o.sample, ∀ c ∈ v, ∃ m : Int, c = Dbl.fin ((m : ℚ) * pow2 (-500)) ∧
      |(m : ℚ) * pow2 (-500)| ≤ pow2 500 := by
    intro v hv c hc
    obtain ⟨q, e, r, h1, h2⟩ := hmod v hv c hc
    obtain ⟨m, em⟩ := rnd64_on_grid q r h1
    exact ⟨m, by rw [e, em], by rw [← em]; exact h2⟩
  obtain ⟨s1, r1, b1, b2, b3⟩ := InqDistR.loop_bounds o.dim.toNat x y 0 0 0
    (by omega) (by omega) (grid x (List.get?_mem gx)) (grid y (List.get?_mem gy))
    (by omega) (by simp) (by simp) (Or.inl rfl) (by simp)
  simp only [zero_add] at b1 b2 b3
  have hu0 : (0 : ℚ) ≤ pow2 (-53) := le_of_lt (pow2_pos _)
  have hu1 : pow2 (-53) ≤ 1 := by rw [pow2_neg53]; norm_num
  have hhalf := half_le_pow_one_sub (o.dim.toNat + 3) (by omega)
  have hs1 : 0 ≤ s1 := le_trans (mul_nonneg (le_trans (by norm_num) hhalf) b3) b1
  have h1 : ¬ (a < 0 ∨ a ≥ o.npoints + o.nquery) := by omega
  have h2 : ¬ (b < 0 ∨ b ≥ o.npoints + o.nquery) := by omega
  have hrun : InqDistR rnd64 sqrt64 o a b = Except.ok (Dbl.fin (sqrt64 s1)) := by
    unfold InqDistR
    rw [hx, hy]
    simp only [h1, h2, if_false, r1, Dbl.sqrt, not_lt.mpr hs1]
  have em : (1 - pow2 (-53)) ^ (o.dim.toNat + 5) =
      (1 - pow2 (-53)) * (1 - pow2 (-53)) * (1 - pow2 (-53)) ^ (o.dim.toNat + 3) := by
    rw [show o.dim.toNat + 5 = (o.dim.toNat + 3) + 1 + 1 by ring, pow_succ, pow_succ]; ring
  have ep : (1 + pow2 (-53)) ^ (o.dim.toNat + 5) =
      (1 + pow2 (-53)) * (1 + pow2 (-53)) * (1 + pow2 (-53)) ^ (o.dim.toNat + 3) := by
    rw [show o.dim.toNat + 5 = (o.dim.toNat + 3) + 1 + 1 by ring, pow_succ, pow_succ]; ring
  refine ⟨x, y, sqrt64 s1, gx, gy, by omega, hrun, ?_, ?_, ?_⟩
  · rcases eq_or_lt_of_le hs1 with h0 | hpos
    · rw [← h0, rnd64_zero.2]
    · exact le_of_lt (sqrt64_spec s1 hpos).1
  · rcases eq_or_lt_of_le hs1 with h0 | hpos
    · rw [← h0, rnd64_zero.2]
      have hD : distSq x y ≤ 0 := by
        rw [← h0] at b1
        have := mul_le_mul_of_nonneg_right hhalf b3
        linarith
      have hD0 : distSq x y = 0 := le_antisymm hD b3
      rw [hD0]; simp
    · obtain ⟨_, q1, _⟩ := sqrt64_spec s1 hpos
      rw [em, mul_assoc ((1 - pow2 (-53)) * (1 - pow2 (-53)))]
      exact le_trans (mul_le_mul_of_nonneg_left b1
        (mul_nonneg (by linarith) (by linarith))) q1
  · rcases eq_or_lt_of_le hs1 with h0 | hpos
    · rw [← h0, rnd64_zero.2]
      have : (0 : ℚ) ≤ (1 + pow2 (-53)) ^ (o.dim.toNat + 5) := by positivity
      simpa using mul_nonneg this b3
    · obtain ⟨_, _, q2⟩ := sqrt64_spec s1 hpos
      rw [ep, mul_assoc ((1 + pow2 (-53)) * (1 + pow2 (-53)))]
      exact le_trans q2 (mul_le_mul_of_nonneg_left b2
        (mul_nonneg (by linarith) (by linarith)))

theorem distSq_cast :
    ∀ (x y : List (Dbl ℚ)),
      distSq (x.map (fun d => Dbl.fin ((Dbl.toK d : ℚ) : ℝ)))
        (y.map (fun d => Dbl.fin ((Dbl.toK d : ℚ) : ℝ))) = ((distSq x y : ℚ) : ℝ)
  | [], _ => by simp [distSq]
  | _ :: _, [] => by simp [distSq]
  | a :: x, b :: y => by
    have ih := distSq_cast x y
    have ha : Dbl.toK (Dbl.fin ((Dbl.toK a : ℚ) : ℝ)) = ((Dbl.toK a : ℚ) : ℝ) := rfl
    have hb : Dbl.toK (Dbl.fin ((Dbl.toK b : ℚ) : ℝ)) = ((Dbl.toK b : ℚ) : ℝ) := rfl
    simp only [List.map_cons, distSq]
    rw [ih, ha, hb]
    push_cast
    ring

/-- The triangle inequality up to the factor `c` for three numbers whose
squares are within the factors `ρ` and `σ` of three sums of squares. -/
theorem approx_triangle (A B C dac dab dbc ρ σ c : ℝ) (hA : 0 ≤ A)
    (h0 : 0 ≤ dac) (h1 : 0 ≤ dab) (h2 : 0 ≤ dbc) (hσ : 0 ≤ σ) (hc : 0 ≤ c)
    (hac : dac * dac ≤ ρ * A) (hab : σ * B ≤ dab * dab) (hbc : σ * C ≤ dbc * dbc)
    (hρσ : ρ ≤ c * c * σ)
    (htri : Real.sqrt A ≤ Real.sqrt B + Real.sqrt C) :
    dac ≤ c * (dab + dbc) := by
  have e1 : Real.sqrt σ * Real.sqrt B ≤ dab := by
    rw [← Real.sqrt_mul hσ]
    calc Real.sqrt (σ * B) ≤ Real.sqrt (dab * dab) := Real.sqrt_le_sqrt hab
      _ = dab := Real.sqrt_mul_self h1
  have e2 : Real.sqrt σ * Real.sqrt C ≤ dbc := by
    rw [← Real.sqrt_mul hσ]
    calc Real.sqrt (σ * C) ≤ Real.sqrt (dbc * dbc) := Real.sqrt_le_sqrt hbc
      _ = dbc := Real.sqrt_mul_self h2
  have e3 : dac ≤ Real.sqrt (c * c * σ) * Real.sqrt A := by
    have hρA : ρ * A ≤ c * c * σ * A := mul_le_mul_of_nonneg_right hρσ hA
    calc dac = Real.sqrt (dac * dac) := (Real.sqrt_mul_self h0).symm
      _ ≤ Real.sqrt (c * c * σ * A) := Real.sqrt_le_sqrt (le_trans hac hρA)
      _ = Real.sqrt (c * c * σ) * Real.sqrt A :=
          Real.sqrt_mul (mul_nonneg (mul_nonneg hc hc) hσ) A
  have e4 : Real.sqrt (c * c * σ) = c * Real.sqrt σ := by
    rw [Real.sqrt_mul (mul_nonneg hc hc), Real.sqrt_mul_self hc]
  rw [e4] at e3
  have hsσ : 0 ≤ Real.sqrt σ := Real.sqrt_nonneg σ
  calc dac ≤ c * Real.sqrt σ * Real.sqrt A := e3
    _ ≤ c * Real.sqrt σ * (Real.sqrt B + Real.sqrt C) :=
        mul_le_mul_of_nonneg_left htri (mul_nonneg hc hsσ)
    _ = c * (Real.sqrt σ * Real.sqrt B + Real.sqrt σ * Real.sqrt C) := by ring
    _ ≤ c * (dab + dbc) := mul_le_mul_of_nonneg_left (add_le_add e1 e2) hc

/-- The factors of the rounding errors in dimension at most `1024` are within
the factor `(1 + 2^-42)^2` of each other. -/
theorem rounding_factor_bound (m : Nat) (hm : m ≤ 1029) :
    (1 + pow2 (-53)) ^ m ≤
      (1 + pow2 (-42)) * (1 + pow2 (-42)) * (1 - pow2 (-53)) ^ m := by
  have hm1 : (m : ℚ) ≤ 1029 := by exact_mod_cast hm
  have hu : pow2 (-53) = 1 / 9007199254740992 := pow2_neg53
  have hv : pow2 (-42) = 1 / 4398046511104 := by
    rw [pow2_eq_zpow, zpow_neg]; norm_num
  have hmu : (m : ℚ) * pow2 (-53) ≤ 1029 / 9007199254740992 := by
    rw [hu]; linarith
  have hw0 : 0 < 1 - (m : ℚ) * pow2 (-53) := by
    have : (1029 : ℚ) / 9007199254740992 < 1 := by norm_num
    linarith
  have h1 := pow_one_add_le (pow2 (-53)) (le_of_lt (pow2_pos _)) m (by linarith)
  have h2 := pow_one_sub_ge (pow2 (-53)) (by rw [hu]; norm_num) m
  have hρ : (0 : ℚ) ≤ (1 + pow2 (-53)) ^ m := by
    have := pow2_pos (-53)
    positivity
  have hcw : 1 ≤ (1 + pow2 (-42)) * (1 - (m : ℚ) * pow2 (-53)) := by
    rw [hv]
    have : (1 : ℚ) ≤ (1 + 1 / 4398046511104) * (1 - 1029 / 9007199254740992) := by norm_num
    have h3 : (1 - 1029 / 9007199254740992 : ℚ) ≤ 1 - (m : ℚ) * pow2 (-53) := by linarith
    have := mul_le_mul_of_nonneg_left h3 (by norm_num : (0 : ℚ) ≤ 1 + 1 / 4398046511104)
    linarith
  have hc0 : (0 : ℚ) ≤ 1 + pow2 (-42) := by rw [hv]; norm_num
  have s1 : (1 + pow2 (-53)) ^ m ≤
      (1 + pow2 (-53)) ^ m * ((1 + pow2 (-42)) * (1 - (m : ℚ) * pow2 (-53))) := by
    have := mul_le_mul_of_nonneg_left hcw hρ
    linarith
  have s2 : (1 + pow2 (-53)) ^ m * ((1 + pow2 (-42)) * (1 - (m : ℚ) * pow2 (-53))) ≤
      1 + pow2 (-42) := by
    have := mul_le_mul_of_nonneg_left h1 hc0
    calc (1 + pow2 (-53)) ^ m * ((1 + pow2 (-42)) * (1 - (m : ℚ) * pow2 (-53)))
        = (1 + pow2 (-42)) * ((1 + pow2 (-53)) ^ m * (1 - (m : ℚ) * pow2 (-53))) := by ring
      _ ≤ (1 + pow2 (-42)) * 1 := this
      _ = 1 + pow2 (-42) := mul_one _
  have s3 : 1 + pow2 (-42) ≤ (1 + pow2 (-42)) *
      ((1 + pow2 (-42)) * (1 - (m : ℚ) * pow2 (-53))) := by
    have := mul_le_mul_of_nonneg_left hcw hc0
    linarith
  have s4 : (1 + pow2 (-42)) * ((1 + pow2 (-42)) * (1 - (m : ℚ) * pow2 (-53))) ≤
      (1 + pow2 (-42)) * (1 + pow2 (-42)) * (1 - pow2 (-53)) ^ m := by
    have := mul_le_mul_of_nonneg_left h2 (mul_nonneg hc0 hc0)
    calc (1 + pow2 (-42)) * ((1 + pow2 (-42)) * (1 - (m : ℚ) * pow2 (-53)))
        = (1 + pow2 (-42)) * (1 + pow2 (-42)) * (1 - (m : ℚ) * pow2 (-53)) := by ring
      _ ≤ (1 + pow2 (-42)) * (1 + pow2 (-42)) * (1 - pow2 (-53)) ^ m := this
  exact le_trans s1 (le_trans s2 (le_trans s3 s4))

/-! ## The triangle inequality in binary64 -/

set_option exponentiation.threshold 5000 in
set_option maxRecDepth 20000 in
/-- C19 (as stated, refuted): in binary64, for the points `a = 1 + 2^-52`,
`b = 2^-53` and `c = 0` of dimension 1, three binary64 numbers,
`InqDist(a,c) = 1 + 2^-52`, `InqDist(a,b) = 1` (the difference `1 + 2^-53`
rounds to `1`) and `InqDist(b,c) = 2^-53`: the sum of the last two,
`1 + 2^-53` exactly and `1` in binary64, is less than the first.  And with an
infinite coordinate the distance of a point from itself is `NaN`, which is not
`<=` any number. -/
theorem InqDist_triangle_fails_rounded :
    oracleTri.WF ∧ oracleTri.Finite ∧
    (∀ v ∈ oracleTri.sample, ∀ x ∈ v, Dbl.round rnd64 x = x) ∧
    InqDistR rnd64 sqrt64 oracleTri 0 2 = Except.ok (Dbl.fin (1 + pow2 (-52))) ∧
    InqDistR rnd64 sqrt64 oracleTri 0 1 = Except.ok (Dbl.fin 1) ∧
    InqDistR rnd64 sqrt64 oracleTri 1 2 = Except.ok (Dbl.fin (pow2 (-53))) ∧
    (1 : ℚ) + pow2 (-53) < 1 + pow2 (-52) ∧
    Dbl.round rnd64 (Dbl.add (Dbl.fin 1) (Dbl.fin (pow2 (-53)))) = Dbl.fin 1 ∧
    Dbl.lt (Dbl.fin 1) (Dbl.fin (1 + pow2 (-52))) = true ∧
    oracleInf.WF ∧
    InqDist sqrtQ oracleInf 0 0 = Except.ok Dbl.nan ∧
    InqDist sqrtQ oracleInf 0 1 = Except.ok Dbl.pinf ∧
    InqDist sqrtQ oracleInf 1 0 = Except.ok Dbl.pinf ∧
    InqDistR rnd64 sqrt64 oracleInf 0 0 = Except.ok Dbl.nan := by
  refine ⟨by simp [oracle_t.WF, oracleTri], by simp [oracle_t.Finite, oracleTri, Dbl.isFin],
    ?_, ?_, ?_, ?_, by with_unfolding_all decide, ?_, by with_unfolding_all decide,
    by simp [oracle_t.WF, oracleInf], ?_, ?_, ?_, ?_⟩
  · intro v hv x hx
    simp only [oracleTri, List.mem_cons, List.mem_singleton, List.not_mem_nil,
      or_false] at hv
    rcases hv with rfl | rfl | rfl <;>
      · simp only [List.mem_singleton] at hx
        subst hx
        with_unfolding_all rfl
  all_goals with_unfolding_all rfl

/-- In exact arithmetic, where no operation rounds, for an oracle state with
finite coordinates and all point indices `a`, `b`, `c` in range, the three
distances are finite numbers and
`InqDist(a,c) <= InqDist(a,b) + InqDist(b,c)`. -/
theorem InqDist_exact_triangle {K : Type} [LinearOrderedField K] (sq : K → K) (hsq : IsSqrt sq)
    (o : oracle_t K) (hwf : o.WF) (hfin : o.Finite) (a b c : Int)
    (ha0 : 0 ≤ a) (ha1 : a < o.npoints + o.nquery)
    (hb0 : 0 ≤ b) (hb1 : b < o.npoints + o.nquery)
    (hc0 : 0 ≤ c) (hc1 : c < o.npoints + o.nquery) :
    ∃ dac dab dbc : K,
      InqDist sq o a c = Except.ok (Dbl.fin dac) ∧
      InqDist sq o a b = Except.ok (Dbl.fin dab) ∧
      InqDist sq o b c = Except.ok (Dbl.fin dbc) ∧
      0 ≤ dac ∧ dac ≤ dab + dbc := by
  obtain ⟨x, z, gx, gz, hxz, _, _, hac⟩ := InqDist_in_range sq o hwf hfin a c ha0 ha1 hc0 hc1
  obtain ⟨x1, y, gx1, gy, hxy, _, _, hab⟩ := InqDist_in_range sq o hwf hfin a b ha0 ha1 hb0 hb1
  obtain ⟨y1, z1, gy1, gz1, hyz, _, _, hbc⟩ := InqDist_in_range sq o hwf hfin b c hb0 hb1 hc0 hc1
  have e1 : x1 = x := by rw [gx] at gx1; exact (Option.some.inj gx1).symm
  have e2 : y1 = y := by rw [gy] at gy1; exact (Option.some.inj gy1).symm
  have e3 : z1 = z := by rw [gz] at gz1; exact (Option.some.inj gz1).symm
  subst e1 e2 e3
  exact ⟨_, _, _, hac, hab, hbc, (hsq _ (distSq_nonneg _ _)).1,
    distSq_triangle sq hsq _ _ _ hxy hyz⟩

/-- C19 (amended): in binary64, for an oracle state in dimension at most
`1024` whose coordinates are binary64 numbers that are `0` or of a magnitude
from `2^-448` to `2^500`, and all point indices `a`, `b`, `c` in range, the
three distances are non-negative finite numbers and
`InqDist(a,c) <= (1 + 2^-42) * (InqDist(a,b) + InqDist(b,c))`: the triangle
inequality up to the rounding errors. -/
theorem InqDist_triangle_rounded (o : oracle_t ℚ) (hwf : o.WF) (hmod : o.Moderate64)
    (hdim : o.dim ≤ 1024) (a b c : Int)
    (ha0 : 0 ≤ a) (ha1 : a < o.npoints + o.nquery)
    (hb0 : 0 ≤ b) (hb1 : b < o.npoints + o.nquery)
    (hc0 : 0 ≤ c) (hc1 : c < o.npoints + o.nquery) :
    ∃ dac dab dbc : ℚ,
      InqDistR rnd64 sqrt64 o a c = Except.ok (Dbl.fin dac) ∧
      InqDistR rnd64 sqrt64 o a b = Except.ok (Dbl.fin dab) ∧
      InqDistR rnd64 sqrt64 o b c = Except.ok (Dbl.fin dbc) ∧
      0 ≤ dac ∧ 0 ≤ dab ∧ 0 ≤ dbc ∧ dac ≤ (1 + pow2 (-42)) * (dab + dbc) := by
  obtain ⟨x, z, dac, gx, gz, hxz, rac, pac, _, uac⟩ :=
    InqDistR_bounds o hwf hmod hdim a c ha0 ha1 hc0 hc1
  obtain ⟨x1, y, dab, gx1, gy, hxy, rab, pab, lab, _⟩ :=
    InqDistR_bounds o hwf hmod hdim a b ha0 ha1 hb0 hb1
  obtain ⟨y1, z1, dbc, gy1, gz1, hyz, rbc, pbc, lbc, _⟩ :=
    InqDistR_bounds o hwf hmod hdim b c hb0 hb1 hc0 hc1
  have e1 : x1 = x := by rw [gx] at gx1; exact (Option.some.inj gx1).symm
  have e2 : y1 = y := by rw [gy] at gy1; exact (Option.some.inj gy1).symm
  have e3 : z1 = z := by rw [gz] at gz1; exact (Option.some.inj gz1).symm
  subst e1 e2 e3
  refine ⟨dac, dab, dbc, rac, rab, rbc, pac, pab, pbc, ?_⟩
  have hm : o.dim.toNat + 5 ≤ 1029 := by omega
  have hfac := rounding_factor_bound (o.dim.toNat + 5) hm
  have hσ : (0 : ℚ) ≤ (1 - pow2 (-53)) ^ (o.dim.toNat + 5) :=
    le_trans (by norm_num) (half_le_pow_one_sub _ hm)
  have hc : (0 : ℚ) ≤ 1 + pow2 (-42) := by
    have := pow2_pos (-42)
    linarith
  have htri := distSq_triangle Real.sqrt isSqrt_real
    (x1.map (fun d => Dbl.fin ((Dbl.toK d : ℚ) : ℝ)))
    (y1.map (fun d => Dbl.fin ((Dbl.toK d : ℚ) : ℝ)))
    (z1.map (fun d => Dbl.fin ((Dbl.toK d : ℚ) : ℝ)))
    (by simpa using hxy) (by simpa using hyz)
  rw [distSq_cast, distSq_cast, distSq_cast] at htri
  have key := approx_triangle ((distSq x1 z1 : ℚ) : ℝ) ((distSq x1 y1 : ℚ) : ℝ)
    ((distSq y1 z1 : ℚ) : ℝ) (dac : ℝ) (dab : ℝ) (dbc : ℝ)
    (((1 + pow2 (-53)) ^ (o.dim.toNat + 5) : ℚ) : ℝ)
    (((1 - pow2 (-53)) ^ (o.dim.toNat + 5) : ℚ) : ℝ) ((1 + pow2 (-42) : ℚ) : ℝ)
    (by exact_mod_cast distSq_nonneg x1 z1)
    (by exact_mod_cast pac) (by exact_mod_cast pab) (by exact_mod_cast pbc)
    (by exact_mod_cast hσ) (by exact_mod_cast hc)
    (by exact_mod_cast uac) (by exact_mod_cast lab) (by exact_mod_cast lbc)
    (by exact_mod_cast hfac) htri
  exact_mod_cast key

set_option exponentiation.threshold 5000 in
set_option maxRecDepth 20000 in
theorem oracleTri_moderate : oracleTri.Moderate64 := by
  intro v hv x hx
  simp only [oracleTri, List.mem_cons, List.mem_singleton, List.not_mem_nil, or_false] at hv
  rcases hv with rfl | rfl | rfl <;>
    · simp only [List.mem_singleton] at hx
      subst hx
      refine ⟨_, rfl, by with_unfolding_all rfl, by with_unfolding_all decide,
        by with_unfolding_all decide⟩

theorem InqDist_triangle_rounded_witness :
    ∃ dac dab dbc : ℚ,
      InqDistR rnd64 sqrt64 oracleTri 0 2 = Except.ok (Dbl.fin dac) ∧
      InqDistR rnd64 sqrt64 oracleTri 0 1 = Except.ok (Dbl.fin dab) ∧
      InqDistR rnd64 sqrt64 oracleTri 1 2 = Except.ok (Dbl.fin dbc) ∧
      0 ≤ dac ∧ 0 ≤ dab ∧ 0 ≤ dbc ∧ dac ≤ (1 + pow2 (-42)) * (dab + dbc) :=
  InqDist_triangle_rounded oracleTri (by simp [oracle_t.WF, oracleTri]) oracleTri_moderate
    (by decide) 0 1 2 (by decide) (by decide) (by decide) (by decide) (by decide) (by decide)

/-! ## The normalisation of the priors in binary64 -/

theorem normalizePriorsR_exact {K : Type} [LinearOrderedField K] (gauss : List (gauss_t K)) :
    normalizePriorsR Dbl.fin gauss = normalizePriors gauss := by
  unfold normalizePriorsR normalizePriors priorSumR priorSum
  simp only [Dbl.round_fin]

/-- The rounding to binary64 of a non-negative number up to `2^1023` is a
non-negative finite number, at most `2^970` above it. -/
theorem rnd64_fin_of_le (q : ℚ) (h0 : 0 ≤ q) (h1 : q ≤ pow2 1023) :
    ∃ y : ℚ, rnd64 q = Dbl.fin y ∧ 0 ≤ y ∧ y ≤ q + pow2 970 := by
  rcases eq_or_lt_of_le h0 with hz | hpos
  · subst hz
    exact ⟨0, rnd64_zero.1, le_refl _, by simpa using le_of_lt (pow2_pos 970)⟩
  have hq0 : q ≠ 0 := ne_of_gt hpos
  have hab : |q| = q := abs_of_pos hpos
  obtain ⟨l1, _⟩ := ilog2_spec q hpos
  have he2 : ilog2 q ≤ 1023 := pow2_le_pow2_iff.mp (le_trans l1 h1)
  have he : max (ilog2 q) (-1022) ≤ 1023 := max_le he2 (by norm_num)
  unfold rnd64
  rw [if_neg hq0, hab]
  simp only []
  generalize max (ilog2 q) (-1022) = e at he
  have hw : 0 < pow2 (e - 52) := pow2_pos _
  have hm : 0 ≤ q / pow2 (e - 52) := div_nonneg h0 (le_of_lt hw)
  have hr := roundEven_spec _ hm
  have hv : (roundEven (q / pow2 (e - 52)) : ℚ) * pow2 (e - 52) ≤ q + pow2 (e - 52) / 2 := by
    have e1 : (roundEven (q / pow2 (e - 52)) : ℚ) * pow2 (e - 52) - q =
        ((roundEven (q / pow2 (e - 52)) : ℚ) - q / pow2 (e - 52)) * pow2 (e - 52) := by
      field_simp
    have := mul_le_mul_of_nonneg_right (abs_le.mp hr).2 (le_of_lt hw)
    linarith
  have hw3 : pow2 (e - 52) / 2 ≤ pow2 970 := by
    have : pow2 (e - 52) ≤ pow2 971 := pow2_le_pow2 (by omega)
    have e2 : pow2 971 = 2 * pow2 970 := pow2_succ 970
    linarith
  have hno : ¬ (pow2 1024 ≤ (roundEven (q / pow2 (e - 52)) : ℚ) * pow2 (e - 52)) := by
    have e1 : pow2 1024 = 2 * pow2 1023 := pow2_succ 1023
    have e2 : pow2 970 < pow2 1023 := pow2_lt_pow2_iff.mpr (by norm_num)
    intro hc
    linarith
  rw [if_neg hno, if_neg (not_lt.mpr h0)]
  exact ⟨_, rfl, mul_nonneg (Nat.cast_nonneg _) (le_of_lt hw), by linarith⟩

/-- The rounding to binary64 of a non-negative number is a non-negative finite
number or `+inf`. -/
theorem rnd64_nonneg_cases (q : ℚ) (h0 : 0 ≤ q) :
    (∃ y : ℚ, rnd64 q = Dbl.fin y ∧ 0 ≤ y) ∨ rnd64 q = Dbl.pinf := by
  by_cases hq0 : q = 0
  · subst hq0
    exact Or.inl ⟨0, rnd64_zero.1, le_refl _⟩
  unfold rnd64
  rw [if_neg hq0]
  simp only []
  by_cases hov : pow2 1024 ≤
      (roundEven (|q| / pow2 (max (ilog2 |q|) (-1022) - 52)) : ℚ) *
        pow2 (max (ilog2 |q|) (-1022) - 52)
  · right
    rw [if_pos hov, if_neg (not_lt.mpr h0)]
  · left
    rw [if_neg hov, if_neg (not_lt.mpr h0)]
    exact ⟨_, rfl, mul_nonneg (Nat.cast_nonneg _) (le_of_lt (pow2_pos _))⟩

theorem priorSumR_foldl_nonneg :
    ∀ (gauss : List (gauss_t ℚ)) (acc : Dbl ℚ),
      (∀ g ∈ gauss, ∃ w : ℚ, g.prior_prob = Dbl.fin w ∧ 0 ≤ w) →
      ((∃ a : ℚ, acc = Dbl.fin a ∧ 0 ≤ a) ∨ acc = Dbl.pinf) →
      ∀ s : ℚ,
        gauss.foldl (fun sum g => Dbl.round rnd64 (Dbl.add sum g.prior_prob)) acc =
          Dbl.fin s → 0 ≤ s
  | [], acc, _, hacc, s, hs => by
    simp only [List.foldl_nil] at hs
    rcases hacc with ⟨a, ea, ha⟩ | hinf
    · rw [ea] at hs
      cases hs
      exact ha
    · rw [hinf] at hs
      cases hs
  | g :: gauss, acc, hw, hacc, s, hs => by
    obtain ⟨w, ew, hw0⟩ := hw g (List.mem_cons_self _ _)
    simp only [List.foldl_cons] at hs
    refine priorSumR_foldl_nonneg gauss _ (fun g1 h1 => hw g1 (List.mem_cons_of_mem _ h1))
      ?_ s hs
    rcases hacc with ⟨a, ea, ha⟩ | hinf
    · rw [ea, ew]
      simp only [Dbl.add, Dbl.round]
      exact rnd64_nonneg_cases (a + w) (add_nonneg ha hw0)
    · right
      rw [hinf, ew]
      rfl

/-- In binary64, for parsed weights in `[0, 1]` whose sum as `main` computes
it is at most `1`, every prior after the normalisation is a non-negative
finite number. -/
theorem normalizePriorsR_nonneg (gauss : List (gauss_t ℚ)) (hne : gauss ≠ [])
    (hw : ∀ g ∈ gauss, ∃ w : ℚ, g.prior_prob = Dbl.fin w ∧ 0 ≤ w ∧ w ≤ 1)
    (hS : ∃ s : ℚ, priorSumR rnd64 gauss = Dbl.fin s ∧ s ≤ 1) :
    ∀ g ∈ normalizePriorsR rnd64 gauss, ∃ v : ℚ, g.prior_prob = Dbl.fin v ∧ 0 ≤ v := by
  obtain ⟨s, es, hs1⟩ := hS
  have hs0 : 0 ≤ s := priorSumR_foldl_nonneg gauss (Dbl.fin 0)
    (fun g hg => by
      obtain ⟨w, e, h0, _⟩ := hw g hg
      exact ⟨w, e, h0⟩)
    (Or.inl ⟨0, rfl, le_refl _⟩) s es
  have hn : (1 : ℚ) ≤ (gauss.length : ℚ) := by
    have : gauss.length ≠ 0 := fun h0 => hne (List.length_eq_zero.mp h0)
    exact_mod_cast Nat.one_le_iff_ne_zero.mpr this
  have hn0 : (gauss.length : ℚ) ≠ 0 := by linarith
  have h970 : pow2 970 + pow2 970 = pow2 971 := by
    have := pow2_succ 970
    rw [show (970 : Int) + 1 = 971 by norm_num] at this
    linarith
  have h971 : pow2 971 + pow2 971 = pow2 972 := by
    have := pow2_succ 971
    rw [show (971 : Int) + 1 = 972 by norm_num] at this
    linarith
  have hone : (1 : ℚ) ≤ pow2 970 := by
    have h := pow2_le_pow2 (show (0 : Int) ≤ 970 by norm_num)
    have e0 : pow2 0 = 1 := by simp [pow2]
    rw [e0] at h
    exact h
  have h972 : pow2 972 ≤ pow2 1023 := pow2_le_pow2 (by norm_num)
  have h971' : pow2 971 ≤ pow2 972 := pow2_le_pow2 (by norm_num)
  -- the residual
  obtain ⟨x1, r1, p1, u1⟩ := rnd64_fin_of_le (1 + -s) (by linarith) (by linarith)
  have hdiv0 : 0 ≤ x1 / (gauss.length : ℚ) := div_nonneg p1 (by linarith)
  have hdiv1 : x1 / (gauss.length : ℚ) ≤ x1 := div_le_self p1 hn
  obtain ⟨x2, r2, p2, u2⟩ := rnd64_fin_of_le (x1 / (gauss.length : ℚ)) hdiv0 (by linarith)
  intro g hg
  unfold normalizePriorsR at hg
  simp only [es, Dbl.sub, Dbl.neg, Dbl.add, Dbl.round, r1, Dbl.div, hn0, if_false, r2,
    List.mem_map] at hg
  obtain ⟨g0, hg0, rfl⟩ := hg
  obtain ⟨w, ew, w0, w1⟩ := hw g0 hg0
  obtain ⟨y, ry, py, _⟩ := rnd64_fin_of_le (w + x2) (add_nonneg w0 p2) (by linarith)
  refine ⟨y, ?_, py⟩
  simp only [ew, Dbl.add, Dbl.round, ry]

set_option exponentiation.threshold 5000 in
set_option maxRecDepth 20000 in
/-- C14 (as stated, refuted): the parsed weights `0` and `3` are non-negative;
the normalisation adds `(1 - 3)/2 = -1` to both and leaves the priors `-1`
and `2`, in exact arithmetic and in binary64. -/
theorem normalizePriors_negative_prior :
    (∀ g ∈ [gaussOfPrior 0, gaussOfPrior 3], 0 ≤ priorVal g) ∧
    (normalizePriors [gaussOfPrior 0, gaussOfPrior 3]).map (fun g => g.prior_prob) =
      [Dbl.fin (-1), Dbl.fin 2] ∧
    (normalizePriorsR rnd64 [gaussOfPrior 0, gaussOfPrior 3]).map (fun g => g.prior_prob) =
      [Dbl.fin (-1), Dbl.fin 2] := by
  refine ⟨?_, ?_, ?_⟩
  · simp [gaussOfPrior, priorVal, Dbl.toK]
  · with_unfolding_all rfl
  · with_unfolding_all rfl

/-- C14 (amended): for a non-empty list of `n` components with finite parsed
weights `w_i` of sum `S`: in exact arithmetic the prior that the normalisation
leaves in component `i` is a finite number, which is non-negative exactly when
`S - 1 ≤ n * w_i`, so that every prior is non-negative after the normalisation
when the parsed weights are non-negative and `S ≤ 1`; and in binary64, when
the parsed weights are in `[0, 1]` and their sum as `main` computes it is at
most `1`, every prior after the normalisation is a non-negative finite
number. -/
theorem normalizePriors_nonneg (gauss : List (gauss_t ℚ)) (hne : gauss ≠ [])
    (hfin : ∀ g ∈ gauss, Dbl.isFin g.prior_prob = true) :
    (normalizePriors gauss).length = gauss.length ∧
    (∀ (i : Nat) (g : gauss_t ℚ), gauss.get? i = some g →
      ∃ v : ℚ,
        ((normalizePriors gauss).get? i).map (fun g1 => g1.prior_prob) = some (Dbl.fin v) ∧
        (0 ≤ v ↔ weightSum gauss - 1 ≤ (gauss.length : ℚ) * priorVal g)) ∧
    ((∀ g ∈ gauss, 0 ≤ priorVal g) → weightSum gauss ≤ 1 →
      ∀ g ∈ normalizePriors gauss, ∃ v : ℚ, g.prior_prob = Dbl.fin v ∧ 0 ≤ v) ∧
    ((∀ g ∈ gauss, 0 ≤ priorVal g ∧ priorVal g ≤ 1) →
      (∃ s : ℚ, priorSumR rnd64 gauss = Dbl.fin s ∧ s ≤ 1) →
      ∀ g ∈ normalizePriorsR rnd64 gauss, ∃ v : ℚ, g.prior_prob = Dbl.fin v ∧ 0 ≤ v) := by
  obtain ⟨h1, h2, h3⟩ := normalizePriors_sign gauss hne hfin
  refine ⟨h1, h2, h3, ?_⟩
  intro hw hS
  exact normalizePriorsR_nonneg gauss hne
    (fun g hg => ⟨priorVal g, (Dbl.isFin_iff _).mp (hfin g hg), (hw g hg).1, (hw g hg).2⟩) hS

theorem normalizePriors_nonneg_witness :
    (normalizePriors [gaussOfPrior (1/8), gaussOfPrior (1/4), gaussOfPrior (1/2)]).length =
      ([gaussOfPrior (1/8), gaussOfPrior (1/4), gaussOfPrior (1/2)] :
        List (gauss_t ℚ)).length ∧
    (∀ (i : Nat) (g : gauss_t ℚ),
      [gaussOfPrior (1/8), gaussOfPrior (1/4), gaussOfPrior (1/2)].get? i = some g →
      ∃ v : ℚ,
        ((normalizePriors [gaussOfPrior (1/8), gaussOfPrior (1/4), gaussOfPrior (1/2)]).get?
            i).map (fun g1 => g1.prior_prob) = some (Dbl.fin v) ∧
        (0 ≤ v ↔ weightSum [gaussOfPrior (1/8), gaussOfPrior (1/4), gaussOfPrior (1/2)] - 1 ≤
          (([gaussOfPrior (1/8), gaussOfPrior (1/4), gaussOfPrior (1/2)] :
            List (gauss_t ℚ)).length : ℚ) * priorVal g)) ∧
    ((∀ g ∈ [gaussOfPrior (1/8), gaussOfPrior (1/4), gaussOfPrior (1/2)], 0 ≤ priorVal g) →
      weightSum [gaussOfPrior (1/8), gaussOfPrior (1/4), gaussOfPrior (1/2)] ≤ 1 →
      ∀ g ∈ normalizePriors [gaussOfPrior (1/8), gaussOfPrior (1/4), gaussOfPrior (1/2)],
        ∃ v : ℚ, g.prior_prob = Dbl.fin v ∧ 0 ≤ v) ∧
    ((∀ g ∈ [gaussOfPrior (1/8), gaussOfPrior (1/4), gaussOfPrior (1/2)],
        0 ≤ priorVal g ∧ priorVal g ≤ 1) →
      (∃ s : ℚ, priorSumR rnd64 [gaussOfPrior (1/8), gaussOfPrior (1/4), gaussOfPrior (1/2)] =
        Dbl.fin s ∧ s ≤ 1) →
      ∀ g ∈ normalizePriorsR rnd64
          [gaussOfPrior (1/8), gaussOfPrior (1/4), gaussOfPrior (1/2)],
        ∃ v : ℚ, g.prior_prob = Dbl.fin v ∧ 0 ≤ v) :=
  normalizePriors_nonneg [gaussOfPrior (1/8), gaussOfPrior (1/4), gaussOfPrior (1/2)]
    (by simp) (by simp [gaussOfPrior, Dbl.isFin])

set_option exponentiation.threshold 5000 in
set_option maxRecDepth 20000 in
/-- The normalisation in binary64 of the parsed weights `1/8`, `1/4` and
`1/2`: their sum is `7/8`, the residual is `1/24` rounded, and the priors are
the rounded sums. -/
theorem normalizePriorsR_example :
    priorSumR rnd64 [gaussOfPrior (1/8), gaussOfPrior (1/4), gaussOfPrior (1/2)] =
      Dbl.fin (7/8) ∧
    rnd64 (1 / 24) = Dbl.fin (6004799503160661 / 144115188075855872) ∧
    (normalizePriorsR rnd64
        [gaussOfPrior (1/8), gaussOfPrior (1/4), gaussOfPrior (1/2)]).map
        (fun g => g.prior_prob) =
      [Dbl.fin (6004799503160661 / 36028797018963968),
        Dbl.fin (5254199565265579 / 18014398509481984),
        Dbl.fin (4878899596318037 / 9007199254740992)] := by
  refine ⟨?_, ?_, ?_⟩ <;> with_unfolding_all rfl

end Gaussora
